import Mathlib

/-!
# Hex: connectivity engine and move predictor

A shallow embedding of `hex_basic.cpp` (classes `Node`, `Graph`, `TreeNode`, `Tree`).

* A `Node*` is identified with its coordinates `(coordI, coordJ)`; the grid
  `myGraph[i][j]->val` becomes a function of the coordinates.
* C++ `int` values are mathematical integers (no arithmetic in the program can overflow
  for boards that fit in memory).
* Mutation of the shared `Graph` is explicit state passing.
* `random_shuffle` is an oracle `rng : Nat → List Cell → List Cell` indexed by the number
  of shuffles performed so far.
-/

namespace Hex

/-! ## Node and Graph -/

/-- Coordinates `(coordI, coordJ)` of a node. -/
abbrev Cell := Int × Int

/-- The `Graph` class: `rows`, `cols`, `winner`, and the value `myGraph[i][j]->val`
of every node (0 blank, 1 player 1, 2 player 2). -/
structure Graph where
  rows : Int
  cols : Int
  winner : Int
  myGraph : Int → Int → Int

/-- Outcome of a call: a normal return, a signalled failure, or undefined behaviour
(the program reads something that was never assigned or lies outside a vector). -/
inductive Outcome (ε α : Type) where
  | returned (a : α)
  | raised (e : ε)
  | undefinedBehaviour
  deriving DecidableEq, Repr

/-- The failure kinds the specification names. The program has no statement raising
either of them. -/
inductive Failure where
  | InvalidDimensions
  | NoLegalMoves
  deriving DecidableEq, Repr

/-- `Node::Node(i, j)` sets `val(0)`; `Graph::initGraph` creates one node per `(i, j)` with
`0 ≤ i < rows`, `0 ≤ j < cols`. -/
def initGraph (_i _j : Int) : Int := 0

/-- `Graph::Graph(r, c) : rows(r), cols(c), winner(0) { initGraph(); }`. -/
def Graph.create (r c : Int) : Outcome Failure Graph :=
  Outcome.returned { rows := r, cols := c, winner := 0, myGraph := initGraph }

/-- `myGraph[i][j]->setVal(v)`. -/
def Graph.setVal (g : Graph) (i j v : Int) : Graph :=
  { g with myGraph := fun a b => if a = i ∧ b = j then v else g.myGraph a b }

/-- The node `(i, j)` exists in `myGraph`. -/
def InGrid (g : Graph) (c : Cell) : Prop :=
  0 ≤ c.1 ∧ c.1 < g.rows ∧ 0 ≤ c.2 ∧ c.2 < g.cols

instance (g : Graph) (c : Cell) : Decidable (InGrid g c) := by
  unfold InGrid; infer_instance

/-- Indexing `myGraph[row][col]->val`: defined only for an existing node. -/
def Graph.readVal (g : Graph) (row col : Int) : Option Int :=
  if InGrid g (row, col) then some (g.myGraph row col) else none

/-- `Graph::isLegal(row, col)`: the conjunction is evaluated left to right and stops at the
first false conjunct, so the grid is indexed only after the four range tests passed.
`none` stands for an out-of-range index. -/
def Graph.isLegal (g : Graph) (row col : Int) : Option Bool :=
  if row ≥ 0 then
    if col ≥ 0 then
      if row < g.rows then
        if col < g.cols then
          (g.readVal row col).map (fun v => decide (v = 0))
        else some false
      else some false
    else some false
  else some false

/-- The neighbour list `assignNeighbors` builds for node `(i, j)`, in push order. -/
def neighbors (g : Graph) (c : Cell) : List Cell :=
  (if c.2 < g.cols - 1 then [(c.1, c.2 + 1)] else []) ++
  (if c.2 > 0 then [(c.1, c.2 - 1)] else []) ++
  (if c.1 > 0 then [(c.1 - 1, c.2)] else []) ++
  (if c.1 > 0 ∧ c.2 < g.cols - 1 then [(c.1 - 1, c.2 + 1)] else []) ++
  (if c.1 < g.rows - 1 ∧ c.2 > 0 then [(c.1 + 1, c.2 - 1)] else []) ++
  (if c.1 < g.rows - 1 then [(c.1 + 1, c.2)] else [])

/-- The `visited` matrix of `checkForWinner`. -/
abbrev Visited := Cell → Bool

/-- The assignment `visited[coordI][coordJ] = true`. -/
def markVisited (visited : Visited) (c : Cell) : Visited :=
  fun d => if d = c then true else visited d

/-- `Graph::exploreNeighbors`, run over the remaining neighbour list `ns`. Returns the
recorded winner, the queue and the boolean result. -/
def exploreNeighbors (g : Graph) (player : Int) (visited : Visited) :
    List Cell → Int → List Cell → Int × List Cell × Bool
  | [], winner, myQueue => (winner, myQueue, false)
  | n :: ns, winner, myQueue =>
    if (!visited n) && decide (g.myGraph n.1 n.2 = player) then
      if decide (player = 1) && decide (n.2 = g.cols - 1) then (1, myQueue, true)
      else if decide (player = 2) && decide (n.1 = g.rows - 1) then (2, myQueue, true)
      else exploreNeighbors g player visited ns winner (myQueue ++ [n])
    else exploreNeighbors g player visited ns winner myQueue

/-- The queue after the first loop of `checkForWinner`: the nodes of column 0
(`player == 1`) or of row 0 (otherwise) whose value is `player`, in index order. -/
def startCells (g : Graph) (player : Int) : List Cell :=
  if player = 1 then
    ((List.range g.rows.toNat).map (fun x => (((x : Nat) : Int), (0 : Int)))).filter
      (fun c => decide (g.myGraph c.1 c.2 = player))
  else
    ((List.range g.cols.toNat).map (fun x => ((0 : Int), ((x : Nat) : Int)))).filter
      (fun c => decide (g.myGraph c.1 c.2 = player))

/-- Result of the `while` loop of `checkForWinner`: recorded winner, returned boolean and
the nodes dequeued, in order. -/
structure BfsResult where
  winner : Int
  found : Bool
  dequeued : List Cell
  deriving DecidableEq, Repr

/-- The `while (!myQueue.empty())` loop of `checkForWinner`; the first argument bounds
the number of iterations (`none` when it is exhausted). -/
def bfs (g : Graph) (player : Int) : Nat → Visited → Int → List Cell → Option BfsResult
  | 0, _, _, _ => none
  | _ + 1, _, winner, [] => some { winner := winner, found := false, dequeued := [] }
  | fuel + 1, visited, winner, currNode :: myQueue =>
    let visited1 := markVisited visited currNode
    match exploreNeighbors g player visited1 (neighbors g currNode) winner myQueue with
    | (w, _, true) => some { winner := w, found := true, dequeued := [currNode] }
    | (w, q, false) =>
      (bfs g player fuel visited1 w q).map
        (fun r => { r with dequeued := currNode :: r.dequeued })

/-- Nodes the search can ever hold: `0 ≤ i < max rows 1`, `0 ≤ j < max cols 1`. -/
def boxCells (g : Graph) : List Cell :=
  (List.range (max g.rows 1).toNat).flatMap
    (fun i => (List.range (max g.cols 1).toNat).map (fun j => (((i : Nat) : Int), ((j : Nat) : Int))))

/-- Number of iterations that always suffices for the loop started on queue `q`. -/
def bfsFuel (g : Graph) (q : List Cell) : Nat :=
  q.length * 7 ^ (2 * (boxCells g).length) + 1

/-- `Graph::checkForWinner(player)`: the graph afterwards (only `winner` can change) and
the returned boolean. -/
def checkForWinner (g : Graph) (player : Int) : Graph × Bool :=
  match bfs g player (bfsFuel g (startCells g player)) (fun _ => false) g.winner
      (startCells g player) with
  | some r => ({ g with winner := r.winner }, r.found)
  | none => (g, false)

/-! ## TreeNode and Tree -/

/-- The `TreeNode` class. The `parent` pointer is written by `addParent` and never read,
so it is not represented. The tallies `p1wins`, `p2wins` only ever hold small whole
numbers. -/
structure TreeNode where
  row : Int
  col : Int
  p1wins : Nat
  p2wins : Nat
  children : List TreeNode
  deriving Repr

/-- `TreeNode()` followed by `addCoords(i, j)`. -/
def TreeNode.fresh (i j : Int) : TreeNode :=
  { row := i, col := j, p1wins := 0, p2wins := 0, children := [] }

/-- `TreeNode::addResult`, as inlined in `runTrials`:
`if (winner == 1) p1wins++ else p2wins++`. -/
def TreeNode.addResult (node : TreeNode) (winner : Int) : TreeNode :=
  if winner = 1 then { node with p1wins := node.p1wins + 1 }
  else { node with p2wins := node.p2wins + 1 }

/-- `TreeNode::getProb`: `num / (p1wins + p2wins)`. The quotient of two whole numbers is
taken exactly; the `double` quotients of the tallies that occur (`k / 10`) are ordered
like the exact ones. -/
def TreeNode.getProb (node : TreeNode) (player : Int) : ℚ :=
  let num : Nat := if player = 1 then node.p1wins else node.p2wins
  (num : ℚ) / ((node.p1wins : ℚ) + (node.p2wins : ℚ))

/-- The constant `MAX_TRIALS(10)`. -/
def MAX_TRIALS : Nat := 10

/-- The constant `MAX_DEPTH(2)`. -/
def MAX_DEPTH : Nat := 2

/-- `Tree::switchPlayer`. -/
def switchPlayer (player : Int) : Int := if player = 1 then 2 else 1

/-- `Tree::nextMoves`: the nodes whose value is 0, in row-major order. -/
def nextMoves (g : Graph) : List Cell :=
  (List.range g.rows.toNat).flatMap (fun i =>
    ((List.range g.cols.toNat).filter (fun j => decide (g.myGraph (i : Nat) (j : Nat) = 0))).map
      (fun j => (((i : Nat) : Int), ((j : Nat) : Int))))

/-- The scan of one row in the `Tree` constructor: the number of `depth++` executed. -/
def emptyInRow (g : Graph) (i : Nat) : Nat :=
  ((List.range g.cols.toNat).filter (fun j => decide (g.myGraph (i : Nat) (j : Nat) = 0))).length

/-- The outer loop of the `Tree` constructor over the remaining row indices. -/
def depthLoop (g : Graph) : List Nat → Nat → Nat
  | [], depth => depth
  | i :: rest, depth =>
    if depth + emptyInRow g i ≥ MAX_DEPTH then MAX_DEPTH
    else depthLoop g rest (depth + emptyInRow g i)

/-- `Tree::createTree(node, currDepth)`; `isRoot` is the test `node == this->root`.
Returns the graph afterwards and the node with its subtree. -/
def createTree : Nat → Bool → TreeNode → Graph → Graph × TreeNode
  | 0, _, node, g => (g, node)
  | currDepth + 1, isRoot, node, g =>
    let g1 := if isRoot then g else g.setVal node.row node.col 1
    let r := (nextMoves g1).foldl
      (fun (acc : Graph × List TreeNode) (mv : Cell) =>
        let sub := createTree currDepth false (TreeNode.fresh mv.1 mv.2) acc.1
        (sub.1, acc.2 ++ [sub.2]))
      (g1, node.children)
    (if isRoot then r.1 else r.1.setVal node.row node.col 0, { node with children := r.2 })

/-- The `Tree` object: `root`, `depth` and `nextMove` (`none` while never assigned). -/
structure Tree where
  root : TreeNode
  depth : Nat
  nextMove : Option TreeNode

/-- `Tree::Tree(g)`: the depth scan followed by `initTree()`. The root's coordinates are
never assigned in the program and never read. -/
def Tree.create (g : Graph) : Graph × Tree :=
  let depth := depthLoop g (List.range g.rows.toNat) 0
  let r := createTree depth true (TreeNode.fresh 0 0) g
  (r.1, { root := r.2, depth := depth, nextMove := none })

/-- The state the `Tree` methods mutate besides the tree: the linked graph and the number
of `random_shuffle` calls made so far. -/
structure Sim where
  graph : Graph
  shuffles : Nat

/-- The inner loop of `runTrials`: assign the moves alternately, starting with
`nextPlayer`. -/
def playOut : List Cell → Int → Graph → Graph
  | [], _, g => g
  | m :: ms, nextPlayer, g => playOut ms (switchPlayer nextPlayer) (g.setVal m.1 m.2 nextPlayer)

/-- The trial loop of `runTrials` for the remaining number of trials. The vector `moves`
is shuffled in place, so each trial permutes the order the previous one left. -/
def trialLoop (rng : Nat → List Cell → List Cell) (player : Int) :
    Nat → List Cell → TreeNode → Sim → List Cell × TreeNode × Sim
  | 0, moves, node, s => (moves, node, s)
  | n + 1, moves, node, s =>
    let moves1 := rng s.shuffles moves
    let g1 := playOut moves1 player s.graph
    let chk := checkForWinner g1 1
    let winner : Int := if chk.2 then 1 else 2
    trialLoop rng player n moves1 (node.addResult winner)
      { graph := chk.1, shuffles := s.shuffles + 1 }

/-- `Tree::resetGraph(moves)`. -/
def resetGraph (moves : List Cell) (g : Graph) : Graph :=
  { (moves.foldl (fun (h : Graph) (m : Cell) => h.setVal m.1 m.2 0) g) with winner := 0 }

/-- `Tree::runTrials(node, player)`. -/
def runTrials (rng : Nat → List Cell → List Cell) (node : TreeNode) (player : Int)
    (s : Sim) : TreeNode × Sim :=
  let r := trialLoop rng player MAX_TRIALS (nextMoves s.graph) node s
  (r.2.1, { r.2.2 with graph := resetGraph r.1 r.2.2.graph })

mutual
/-- `Tree::monteCarlo(node, player)`; `isRoot` is the test `node == root`. -/
def monteCarlo (rng : Nat → List Cell → List Cell) :
    Bool → TreeNode → Int → Sim → TreeNode × Sim
  | isRoot, ⟨row, col, p1wins, p2wins, children⟩, player, s =>
    let s1 : Sim := if isRoot then s else { s with graph := s.graph.setVal row col player }
    let r : TreeNode × Sim :=
      if children.length = 0 then
        runTrials rng ⟨row, col, p1wins, p2wins, children⟩ (switchPlayer player) s1
      else
        let rs := monteCarloChildren rng children (switchPlayer player) s1
        (⟨row, col, p1wins, p2wins, rs.1⟩, rs.2)
    (r.1, if isRoot then r.2 else { r.2 with graph := r.2.graph.setVal row col 0 })
/-- The loop of `monteCarlo` over `node->children`. -/
def monteCarloChildren (rng : Nat → List Cell → List Cell) :
    List TreeNode → Int → Sim → List TreeNode × Sim
  | [], _, s => ([], s)
  | c :: cs, player, s =>
    let r := monteCarlo rng false c player s
    let rs := monteCarloChildren rng cs player r.2
    (r.1 :: rs.1, rs.2)
end

mutual
/-- `Tree::minMax(node, maximizingPlayer, player, depth)`: the returned value and
`nextMove` afterwards. -/
def minMax : TreeNode → Bool → Int → Nat → Option TreeNode → ℚ × Option TreeNode
  | ⟨row, col, p1wins, p2wins, children⟩, maximizingPlayer, player, depth, nextMove =>
    if depth = MAX_DEPTH then
      (TreeNode.getProb ⟨row, col, p1wins, p2wins, children⟩ player, nextMove)
    else if maximizingPlayer then maxLoop children player depth (-1) nextMove
    else minLoop children player depth 2 nextMove
/-- The loop of the maximizing branch, with the running `val`. -/
def maxLoop : List TreeNode → Int → Nat → ℚ → Option TreeNode → ℚ × Option TreeNode
  | [], _, _, val, nextMove => (val, nextMove)
  | c :: cs, player, depth, val, nextMove =>
    let r := minMax c false player (depth + 1) nextMove
    if r.1 > val then maxLoop cs player depth r.1 (if depth = 0 then some c else r.2)
    else maxLoop cs player depth val r.2
/-- The loop of the minimizing branch, with the running `val`. -/
def minLoop : List TreeNode → Int → Nat → ℚ → Option TreeNode → ℚ × Option TreeNode
  | [], _, _, val, nextMove => (val, nextMove)
  | c :: cs, player, depth, val, nextMove =>
    let r := minMax c true player (depth + 1) nextMove
    minLoop cs player depth (min val r.1) r.2
end

/-- What a move computation leaves behind: the coordinates handed back, the tree with its
tallies and `nextMove`, and the graph and shuffle count afterwards. -/
structure MoveResult where
  coords : Outcome Failure (Int × Int)
  tree : Tree
  sim : Sim

/-- The vector `(nextMove->row, nextMove->col)`. Reading it while `nextMove` was never
assigned is undefined behaviour. -/
def readNextMove (nextMove : Option TreeNode) : Outcome Failure (Int × Int) :=
  match nextMove with
  | some n => Outcome.returned (n.row, n.col)
  | none => Outcome.undefinedBehaviour

/-- `Tree::getNextMove(player)`. -/
def Tree.getNextMove (rng : Nat → List Cell → List Cell) (t : Tree) (player : Int)
    (s : Sim) : MoveResult :=
  let mc := monteCarlo rng true t.root (switchPlayer player) s
  let mm := minMax mc.1 true player 0 t.nextMove
  { coords := readNextMove mm.2
    tree := { t with root := mc.1, nextMove := mm.2 }
    sim := mc.2 }

/-- The first two statements of `getRobotNextMove`: `new Tree(g)` and then
`myTree->getNextMove(player)`, with `shuffles` calls of `random_shuffle` made before. -/
def computeNextMove (rng : Nat → List Cell → List Cell) (shuffles : Nat) (g : Graph)
    (player : Int) : MoveResult :=
  let c := Tree.create g
  Tree.getNextMove rng c.2 player { graph := c.1, shuffles := shuffles }

/-! ## Auxiliary definitions for the proofs -/

/-- The nodes `exploreNeighbors` pushes when it returns false. -/
def pushed (g : Graph) (p : Int) (vis : Visited) (c : Cell) : List Cell :=
  (neighbors g c).filter (fun n => (!(markVisited vis c) n) && decide (g.myGraph n.1 n.2 = p))

/-- Membership in the bounding box of the search. -/
def InBox (g : Graph) (c : Cell) : Prop :=
  0 ≤ c.1 ∧ c.1 < max g.rows 1 ∧ 0 ≤ c.2 ∧ c.2 < max g.cols 1

/-- Number of box nodes not yet marked in `visited`. -/
def unvisitedCount (g : Graph) (vis : Visited) : Nat :=
  (boxCells g).countP (fun c => !vis c)

/-- Weight of one queue entry. -/
def entryWeight (g : Graph) (vis : Visited) (e : Cell) : Nat :=
  7 ^ (2 * unvisitedCount g vis + (if vis e then 1 else 0))

/-- Termination measure of the search loop. -/
def queueWeight (g : Graph) (vis : Visited) (q : List Cell) : Nat :=
  (q.map (entryWeight g vis)).sum

/-! ## Paths on the board -/

/-- The adjacency rule `(r,c+1)`, `(r,c-1)`, `(r-1,c)`, `(r-1,c+1)`, `(r+1,c-1)`, `(r+1,c)`,
clipped to the grid. -/
def Adjacent (g : Graph) (a b : Cell) : Prop :=
  InGrid g a ∧ InGrid g b ∧
    (b = (a.1, a.2 + 1) ∨ b = (a.1, a.2 - 1) ∨ b = (a.1 - 1, a.2) ∨
     b = (a.1 - 1, a.2 + 1) ∨ b = (a.1 + 1, a.2 - 1) ∨ b = (a.1 + 1, a.2))

/-- The starting edge of a player: column 0 for player 1, row 0 for player 2. -/
def OnStartEdge (p : Int) (c : Cell) : Prop :=
  (p = 1 ∧ c.2 = 0) ∨ (p = 2 ∧ c.1 = 0)

/-- The target edge of a player: the last column for player 1, the last row for player 2. -/
def OnTargetEdge (g : Graph) (p : Int) (c : Cell) : Prop :=
  (p = 1 ∧ c.2 = g.cols - 1) ∨ (p = 2 ∧ c.1 = g.rows - 1)

/-- A sequence of cells owned by `p`, consecutive ones adjacent, from the starting edge of
`p` to the target edge of `p`. -/
def WinningPath (g : Graph) (p : Int) (path : List Cell) : Prop :=
  (∀ c ∈ path, InGrid g c ∧ g.myGraph c.1 c.2 = p) ∧
  List.Chain' (Adjacent g) path ∧
  (∃ a, path.head? = some a ∧ OnStartEdge p a) ∧
  (∃ b, path.getLast? = some b ∧ OnTargetEdge g p b)

/-- Cells owned by `p` that a path of cells owned by `p` links to the starting edge. -/
inductive Reach (g : Graph) (p : Int) : Cell → Prop
  | start (c : Cell) : InGrid g c → OnStartEdge p c → g.myGraph c.1 c.2 = p → Reach g p c
  | step (a b : Cell) : Reach g p a → Adjacent g a b → g.myGraph b.1 b.2 = p → Reach g p b

/-- Invariant of the search loop used for completeness. -/
def Closed (g : Graph) (p : Int) (vis : Visited) (q : List Cell) : Prop :=
  (∀ c, InGrid g c → OnStartEdge p c → g.myGraph c.1 c.2 = p → vis c = true ∨ c ∈ q) ∧
  (∀ a b, vis a = true → Adjacent g a b → g.myGraph b.1 b.2 = p → vis b = true ∨ b ∈ q) ∧
  (∀ c, vis c = true ∨ c ∈ q → ¬ OnTargetEdge g p c)

/-! ## Auxiliary definitions for the move predictor -/

/-- The oracle standing for `random_shuffle` only reorders its argument. -/
def IsShuffle (rng : Nat → List Cell → List Cell) : Prop :=
  ∀ (k : Nat) (l : List Cell), List.Perm (rng k l) l

mutual
/-- The cell of a tree node is free, and its children fit once that cell is taken. -/
def FitsNode : TreeNode → (Int → Int → Prop) → Prop
  | ⟨row, col, _, _, children⟩, free =>
    free row col ∧ FitsChildren children (fun a b => free a b ∧ ¬ (a = row ∧ b = col))
/-- Every node of the list fits. -/
def FitsChildren : List TreeNode → (Int → Int → Prop) → Prop
  | [], _ => True
  | c :: cs, free => FitsNode c free ∧ FitsChildren cs free
end

/-- The cells of a graph whose value is 0. -/
def freeCells (g : Graph) : Int → Int → Prop := fun a b => g.myGraph a b = 0

/-- The statement `make move` of `monteCarlo`. -/
def enterNode (isRoot : Bool) (row col player : Int) (s : Sim) : Sim :=
  if isRoot then s else { s with graph := s.graph.setVal row col player }

/-- The statement `release move` of `monteCarlo`. -/
def leaveNode (isRoot : Bool) (row col : Int) (s : Sim) : Sim :=
  if isRoot then s else { s with graph := s.graph.setVal row col 0 }

/-! ## Example boards -/

/-- A 2x2 board on which player 1 owns everything except the free cell `(1, 0)`. -/
def boardOneFree : Graph :=
  { rows := 2, cols := 2, winner := 0, myGraph := fun i j => if i = 1 ∧ j = 0 then 0 else 1 }

/-- A full 2x2 board: player 1 owns the diagonal, player 2 the other two cells. -/
def boardFull : Graph :=
  { rows := 2, cols := 2, winner := 0, myGraph := fun i j => if i = j then 1 else 2 }

/-- The shuffle that leaves every list as it is. -/
def noShuffle : Nat → List Cell → List Cell := fun _ l => l

/-! ## The game of Y on a triangle (auxiliary, for the no-draw property)

A full Hex board is embedded into a triangular Y board; a Y board of side `n + 1` reduces
to one of side `n` with the same winners. -/

/-- The triangle of side `n`: cells `(a, b)` with `0 ≤ a`, `0 ≤ b`, `a + b < n`. -/
def InTri (n : Int) (u : Cell) : Prop := 0 ≤ u.1 ∧ 0 ≤ u.2 ∧ u.1 + u.2 < n

/-- The six-neighbour rule, without clipping. -/
def YAdj (u v : Cell) : Prop :=
  v = (u.1, u.2 + 1) ∨ v = (u.1, u.2 - 1) ∨ v = (u.1 - 1, u.2) ∨
  v = (u.1 - 1, u.2 + 1) ∨ v = (u.1 + 1, u.2 - 1) ∨ v = (u.1 + 1, u.2)

/-- Two adjacent cells of the triangle, both of colour `x`. -/
def YStep (n : Int) (f : Cell → Bool) (x : Bool) (u v : Cell) : Prop :=
  InTri n u ∧ InTri n v ∧ f u = x ∧ f v = x ∧ YAdj u v

/-- Connection by cells of colour `x` inside the triangle. -/
def YConn (n : Int) (f : Cell → Bool) (x : Bool) : Cell → Cell → Prop :=
  Relation.ReflTransGen (YStep n f x)

/-- Colour `x` wins Y: connected cells of colour `x` touch the sides `a = 0`, `b = 0` and
`a + b = n - 1`. -/
def YWin (n : Int) (f : Cell → Bool) (x : Bool) : Prop :=
  ∃ a b c : Cell, (InTri n a ∧ f a = x ∧ a.1 = 0) ∧ (InTri n b ∧ f b = x ∧ b.2 = 0) ∧
    (InTri n c ∧ f c = x ∧ c.1 + c.2 = n - 1) ∧ YConn n f x a b ∧ YConn n f x a c

/-- Majority of three colours. -/
def majority (a b c : Bool) : Bool := (a && b) || (a && c) || (b && c)

/-- The reduced colouring: each cell takes the majority colour of the small triangle
`(a, b)`, `(a + 1, b)`, `(a, b + 1)`. -/
def reduceY (f : Cell → Bool) : Cell → Bool :=
  fun u => majority (f u) (f (u.1 + 1, u.2)) (f (u.1, u.2 + 1))

/-- The cell `u` is one of the three cells of the small triangle at `t`. -/
def Covers (t u : Cell) : Prop := u = t ∨ u = (t.1 + 1, t.2) ∨ u = (t.1, t.2 + 1)

/-- Equal or adjacent. -/
def Near (u v : Cell) : Prop := u = v ∨ YAdj u v

/-- The colouring of the triangle of side `rows + cols - 1` that holds a full Hex board:
`true` stands for player 1. Below the board everything belongs to player 2, right of it
everything belongs to player 1. -/
def embedY (g : Graph) : Cell → Bool :=
  fun u => if u.1 ≥ g.rows then false else if u.2 ≥ g.cols then true
    else decide (g.myGraph u.1 u.2 = 1)

/-- A full 2x2 board with `(0, 0)` owned by player 1 and `(1, 1)` by player 2. -/
def boardRows : Graph :=
  { rows := 2, cols := 2, winner := 0, myGraph := fun i _ => if i = 0 then 1 else 2 }

/-- The board `boardOneFree` after a game recorded player 1 as winner. -/
def boardOneFreeWon : Graph := { boardOneFree with winner := 1 }

/-! ## Auxiliary definitions for the search tree and the rollouts -/

/-- Row-major order of cells: by row, then by column. -/
def RowMajorLt (a b : Cell) : Prop := a.1 < b.1 ∨ (a.1 = b.1 ∧ a.2 < b.2)

/-- Coordinates of a tree node. -/
def TreeNode.cell (n : TreeNode) : Cell := (n.row, n.col)

/-- A player's rollout win probability at a node, in the words of the specification: that
player's tally divided by the total number of trials at the node. -/
def rolloutProbability (p : Int) (d : TreeNode) : ℚ :=
  (((if p = 1 then d.p1wins else d.p2wins : Nat) : ℚ)) / (((d.p1wins + d.p2wins : Nat) : ℚ))

/-- `v` is the minimum, over the children `d` of `c`, of the rollout win probability of
`p` at `d`. -/
def IsMinOverChildren (p : Int) (c : TreeNode) (v : ℚ) : Prop :=
  (∃ d ∈ c.children, v = rolloutProbability p d) ∧
  ∀ d ∈ c.children, v ≤ rolloutProbability p d

/-- The value `minMax` returns for a child of the root (one ply down, minimizing). -/
def childValue (p : Int) (c : TreeNode) : ℚ := (minMax c false p 1 none).1

/-- The empty 2x2 board. -/
def boardEmpty : Graph :=
  { rows := 2, cols := 2, winner := 0, myGraph := fun _ _ => 0 }

/-! ## Single trials, the reference rollout and the log of rollout calls -/

/-- The state of the trial loop of `runTrials` before trial number `i` (counted from 0):
the vector `moves`, the node with its tallies, and the graph and shuffle count. -/
def trialState (rng : Nat → List Cell → List Cell) (player : Int) (i : Nat)
    (node : TreeNode) (s : Sim) : List Cell × TreeNode × Sim :=
  trialLoop rng player i (nextMoves s.graph) node s

/-- The order of `moves` after the `random_shuffle` of trial `i`. -/
def trialPerm (rng : Nat → List Cell → List Cell) (player : Int) (i : Nat)
    (node : TreeNode) (s : Sim) : List Cell :=
  rng (trialState rng player i node s).2.2.shuffles (trialState rng player i node s).1

/-- The graph of trial `i` at the moment `checkForWinner(1)` is called: after the inner
loop assigned the shuffled moves. -/
def trialBoard (rng : Nat → List Cell → List Cell) (player : Int) (i : Nat)
    (node : TreeNode) (s : Sim) : Graph :=
  playOut (trialPerm rng player i node s) player (trialState rng player i node s).2.2.graph

/-- The loop of `resetGraph` alone: clear the listed cells (the recorded winner stays). -/
def clearCells (moves : List Cell) (g : Graph) : Graph :=
  moves.foldl (fun (h : Graph) (m : Cell) => h.setVal m.1 m.2 0) g

/-- Reference trial loop, following the specification: like `trialLoop`, but every cell
the trial touched is cleared right after the trial. -/
def trialLoopRef (rng : Nat → List Cell → List Cell) (player : Int) :
    Nat → List Cell → TreeNode → Sim → List Cell × TreeNode × Sim
  | 0, moves, node, s => (moves, node, s)
  | n + 1, moves, node, s =>
    let moves1 := rng s.shuffles moves
    let g1 := playOut moves1 player s.graph
    let chk := checkForWinner g1 1
    let winner : Int := if chk.2 then 1 else 2
    trialLoopRef rng player n moves1 (node.addResult winner)
      { graph := clearCells moves1 chk.1, shuffles := s.shuffles + 1 }

/-- Reference for `runTrials`: the reference trial loop on the moves of the graph. -/
def runTrialsRef (rng : Nat → List Cell → List Cell) (node : TreeNode) (player : Int)
    (s : Sim) : TreeNode × Sim :=
  let r := trialLoopRef rng player MAX_TRIALS (nextMoves s.graph) node s
  (r.2.1, r.2.2)

/-- The graph of trial `i` of the reference at the moment the connectivity is checked. -/
def trialBoardRef (rng : Nat → List Cell → List Cell) (player : Int) (i : Nat)
    (node : TreeNode) (s : Sim) : Graph :=
  playOut
    (rng (trialLoopRef rng player i (nextMoves s.graph) node s).2.2.shuffles
      (trialLoopRef rng player i (nextMoves s.graph) node s).1)
    player (trialLoopRef rng player i (nextMoves s.graph) node s).2.2.graph

/-- One call `runTrials(node, player)` as `monteCarlo` makes it: the cells of the nodes on
the way from the root down to `node`, the player argument, and the graph at the call. -/
structure RolloutCall where
  path : List Cell
  player : Int
  graph : Graph

mutual
/-- `Tree::monteCarlo` with a log: the same traversal, which also records every call of
`runTrials`. `path` holds the cells of the nodes above `node`. -/
def monteCarloLog (rng : Nat → List Cell → List Cell) :
    Bool → List Cell → TreeNode → Int → Sim → (TreeNode × Sim) × List RolloutCall
  | isRoot, path, ⟨row, col, p1wins, p2wins, children⟩, player, s =>
    let path1 : List Cell := if isRoot then path else path ++ [(row, col)]
    let s1 : Sim := if isRoot then s else { s with graph := s.graph.setVal row col player }
    let r : (TreeNode × Sim) × List RolloutCall :=
      if children.length = 0 then
        (runTrials rng ⟨row, col, p1wins, p2wins, children⟩ (switchPlayer player) s1,
          [{ path := path1, player := switchPlayer player, graph := s1.graph }])
      else
        let rs := monteCarloChildrenLog rng path1 children (switchPlayer player) s1
        ((⟨row, col, p1wins, p2wins, rs.1.1⟩, rs.1.2), rs.2)
    ((r.1.1, if isRoot then r.1.2 else { r.1.2 with graph := r.1.2.graph.setVal row col 0 }),
      r.2)
/-- The loop of `monteCarloLog` over `node->children`. -/
def monteCarloChildrenLog (rng : Nat → List Cell → List Cell) :
    List Cell → List TreeNode → Int → Sim → (List TreeNode × Sim) × List RolloutCall
  | _, [], _, s => (([], s), [])
  | path, c :: cs, player, s =>
    let r := monteCarloLog rng false path c player s
    let rs := monteCarloChildrenLog rng path cs player r.1.2
    ((r.1.1 :: rs.1.1, rs.1.2), r.2 ++ rs.2)
end

/-- The calls of `runTrials` made by `getNextMove(player)` on a tree built against `g`,
in order. -/
def rolloutCalls (rng : Nat → List Cell → List Cell) (shuffles : Nat) (g : Graph)
    (player : Int) : List RolloutCall :=
  (monteCarloLog rng true [] (Tree.create g).2.root (switchPlayer player)
    { graph := (Tree.create g).1, shuffles := shuffles }).2

/-- The cells along a way from one of the nodes of a list down to a leaf. -/
inductive LeafPath : List TreeNode → List Cell → Prop
  | leaf (c : TreeNode) (cs : List TreeNode) :
      c ∈ cs → c.children = [] → LeafPath cs [c.cell]
  | inner (c : TreeNode) (cs : List TreeNode) (rest : List Cell) :
      c ∈ cs → LeafPath c.children rest → LeafPath cs (c.cell :: rest)

/-- `switchPlayer` applied `n` times. -/
def switchTimes : Nat → Int → Int
  | 0, p => p
  | n + 1, p => switchTimes n (switchPlayer p)

/-- The 3x3 board on which player 1 owns columns 0 and 1 and player 2 owns column 2. -/
def boardColumns : Graph :=
  { rows := 3, cols := 3, winner := 0, myGraph := fun _ j => if j ≤ 1 then 1 else 2 }

/-! # Theorems -/

theorem exploreNeighbors_false (g : Graph) (p : Int) (vis : Visited) :
    ∀ (ns : List Cell) (w : Int) (q : List Cell),
      (exploreNeighbors g p vis ns w q).2.2 = false →
      exploreNeighbors g p vis ns w q =
          (w, q ++ ns.filter (fun n => (!vis n) && decide (g.myGraph n.1 n.2 = p)), false) ∧
        ∀ n ∈ ns, vis n = false → g.myGraph n.1 n.2 = p →
          ¬ (p = 1 ∧ n.2 = g.cols - 1) ∧ ¬ (p = 2 ∧ n.1 = g.rows - 1) := by
  intro ns
  induction ns with
  | nil => intro w q _; simp [exploreNeighbors]
  | cons n ns ih =>
    intro w q h
    unfold exploreNeighbors at h ⊢
    by_cases h1 : ((!vis n) && decide (g.myGraph n.1 n.2 = p)) = true
    · simp only [h1, if_true] at h ⊢
      by_cases h2 : (decide (p = 1) && decide (n.2 = g.cols - 1)) = true
      · simp [h2] at h
      · by_cases h3 : (decide (p = 2) && decide (n.1 = g.rows - 1)) = true
        · simp [h2, h3] at h
        · simp only [h2, h3, if_false] at h ⊢
          obtain ⟨e, hn⟩ := ih w (q ++ [n]) h
          refine ⟨?_, ?_⟩
          · rw [e]; simp [List.filter_cons, h1]
          · intro m hm hv hval
            rcases List.mem_cons.1 hm with rfl | hm
            · simpa using And.intro h2 h3
            · exact hn m hm hv hval
    · simp only [h1, if_false] at h ⊢
      obtain ⟨e, hn⟩ := ih w q h
      refine ⟨?_, ?_⟩
      · rw [e]; simp [List.filter_cons, h1]
      · intro m hm hv hval
        rcases List.mem_cons.1 hm with rfl | hm
        · exfalso; apply h1; simp [hv, hval]
        · exact hn m hm hv hval

theorem exploreNeighbors_true (g : Graph) (p : Int) (vis : Visited) :
    ∀ (ns : List Cell) (w : Int) (q : List Cell),
      (exploreNeighbors g p vis ns w q).2.2 = true →
      (exploreNeighbors g p vis ns w q).1 = p ∧
        ∃ n ∈ ns, vis n = false ∧ g.myGraph n.1 n.2 = p ∧
          ((p = 1 ∧ n.2 = g.cols - 1) ∨ (p = 2 ∧ n.1 = g.rows - 1)) := by
  intro ns
  induction ns with
  | nil => intro w q h; simp [exploreNeighbors] at h
  | cons n ns ih =>
    intro w q h
    unfold exploreNeighbors at h ⊢
    by_cases h1 : ((!vis n) && decide (g.myGraph n.1 n.2 = p)) = true
    · simp only [h1, if_true] at h ⊢
      have h1' : vis n = false ∧ g.myGraph n.1 n.2 = p := by simpa using h1
      by_cases h2 : (decide (p = 1) && decide (n.2 = g.cols - 1)) = true
      · simp only [h2, if_true]
        have h2' : p = 1 ∧ n.2 = g.cols - 1 := by simpa using h2
        exact ⟨h2'.1.symm, n, List.mem_cons_self _ _, h1'.1, h1'.2, Or.inl h2'⟩
      · by_cases h3 : (decide (p = 2) && decide (n.1 = g.rows - 1)) = true
        · simp only [h2, h3, if_true, if_false]
          have h3' : p = 2 ∧ n.1 = g.rows - 1 := by simpa using h3
          exact ⟨h3'.1.symm, n, List.mem_cons_self _ _, h1'.1, h1'.2, Or.inr h3'⟩
        · simp only [h2, h3, if_false] at h ⊢
          obtain ⟨e, m, hm, r⟩ := ih w (q ++ [n]) h
          exact ⟨e, m, List.mem_cons_of_mem _ hm, r⟩
    · simp only [h1, if_false] at h ⊢
      obtain ⟨e, m, hm, r⟩ := ih w q h
      exact ⟨e, m, List.mem_cons_of_mem _ hm, r⟩

theorem bfs_nil (g : Graph) (p : Int) (fuel : Nat) (vis : Visited) (w : Int) :
    bfs g p (fuel + 1) vis w [] = some { winner := w, found := false, dequeued := [] } := rfl

theorem bfs_cons_true (g : Graph) (p : Int) (fuel : Nat) (vis : Visited) (w : Int) (c : Cell)
    (q : List Cell)
    (h : (exploreNeighbors g p (markVisited vis c) (neighbors g c) w q).2.2 = true) :
    bfs g p (fuel + 1) vis w (c :: q) = some { winner := p, found := true, dequeued := [c] } := by
  have e := (exploreNeighbors_true g p _ _ w q h).1
  rw [bfs]
  rcases hx : exploreNeighbors g p (markVisited vis c) (neighbors g c) w q with ⟨a, b, d⟩
  rw [hx] at h e
  simp only at h e
  subst h; subst e
  rfl

theorem bfs_cons_false (g : Graph) (p : Int) (fuel : Nat) (vis : Visited) (w : Int) (c : Cell)
    (q : List Cell)
    (h : (exploreNeighbors g p (markVisited vis c) (neighbors g c) w q).2.2 = false) :
    bfs g p (fuel + 1) vis w (c :: q) =
      (bfs g p fuel (markVisited vis c) w (q ++ pushed g p vis c)).map
        (fun r => { r with dequeued := c :: r.dequeued }) := by
  have e := (exploreNeighbors_false g p _ _ w q h).1
  rw [bfs]
  simp only [e, pushed]

/-- The loop reports `player` as winner exactly when it returns true, and otherwise leaves
the recorded winner alone. -/
theorem bfs_winner (g : Graph) (p : Int) :
    ∀ (fuel : Nat) (vis : Visited) (w : Int) (q : List Cell) (r : BfsResult),
      bfs g p fuel vis w q = some r → r.winner = if r.found then p else w := by
  intro fuel
  induction fuel with
  | zero => intro vis w q r h; simp [bfs] at h
  | succ fuel ih =>
    intro vis w q r h
    cases q with
    | nil => rw [bfs_nil] at h; cases h; rfl
    | cons c q =>
      cases hx : (exploreNeighbors g p (markVisited vis c) (neighbors g c) w q).2.2 with
      | true => rw [bfs_cons_true g p fuel vis w c q hx] at h; cases h; rfl
      | false =>
        rw [bfs_cons_false g p fuel vis w c q hx] at h
        obtain ⟨r', hr', rfl⟩ := Option.map_eq_some'.1 h
        exact ih _ _ _ r' hr'

/-- The boolean and the dequeue order do not depend on the recorded winner at entry. -/
theorem bfs_winner_irrelevant (g : Graph) (p : Int) :
    ∀ (fuel : Nat) (vis : Visited) (w w' : Int) (q : List Cell) (r : BfsResult),
      bfs g p fuel vis w q = some r →
      bfs g p fuel vis w' q = some { r with winner := if r.found then p else w' } := by
  intro fuel
  induction fuel with
  | zero => intro vis w w' q r h; simp [bfs] at h
  | succ fuel ih =>
    intro vis w w' q r h
    cases q with
    | nil => rw [bfs_nil] at h ⊢; cases h; rfl
    | cons c q =>
      cases hx : (exploreNeighbors g p (markVisited vis c) (neighbors g c) w q).2.2 with
      | true =>
        have hx' : (exploreNeighbors g p (markVisited vis c) (neighbors g c) w' q).2.2 = true := by
          by_contra hc
          have hc' := (exploreNeighbors_false g p _ _ w' q (by simpa using hc)).2
          obtain ⟨_, n, hn, hv, hval, ht⟩ := exploreNeighbors_true g p _ _ w q hx
          have hh := hc' n hn hv hval
          rcases ht with ht | ht
          · exact hh.1 ht
          · exact hh.2 ht
        rw [bfs_cons_true g p fuel vis w c q hx] at h
        rw [bfs_cons_true g p fuel vis w' c q hx']
        cases h; rfl
      | false =>
        have hx' : (exploreNeighbors g p (markVisited vis c) (neighbors g c) w' q).2.2 = false := by
          by_contra hc
          have hc' := (exploreNeighbors_false g p _ _ w q hx).2
          obtain ⟨_, n, hn, hv, hval, ht⟩ := exploreNeighbors_true g p _ _ w' q (by simpa using hc)
          have hh := hc' n hn hv hval
          rcases ht with ht | ht
          · exact hh.1 ht
          · exact hh.2 ht
        rw [bfs_cons_false g p fuel vis w c q hx] at h
        rw [bfs_cons_false g p fuel vis w' c q hx']
        obtain ⟨r', hr', rfl⟩ := Option.map_eq_some'.1 h
        rw [ih _ _ w' _ r' hr', Option.map_some']

theorem mem_boxCells (g : Graph) (c : Cell) : c ∈ boxCells g ↔ InBox g c := by
  obtain ⟨i, j⟩ := c
  simp only [boxCells, InBox, List.mem_flatMap, List.mem_map, List.mem_range, Prod.mk.injEq]
  constructor
  · rintro ⟨a, ha, b, hb, rfl, rfl⟩
    omega
  · rintro ⟨h1, h2, h3, h4⟩
    exact ⟨i.toNat, by omega, j.toNat, by omega, by omega, by omega⟩

theorem mem_neighbors (g : Graph) (c n : Cell) :
    n ∈ neighbors g c ↔
      (c.2 < g.cols - 1 ∧ n = (c.1, c.2 + 1)) ∨ (c.2 > 0 ∧ n = (c.1, c.2 - 1)) ∨
      (c.1 > 0 ∧ n = (c.1 - 1, c.2)) ∨ ((c.1 > 0 ∧ c.2 < g.cols - 1) ∧ n = (c.1 - 1, c.2 + 1)) ∨
      ((c.1 < g.rows - 1 ∧ c.2 > 0) ∧ n = (c.1 + 1, c.2 - 1)) ∨
      (c.1 < g.rows - 1 ∧ n = (c.1 + 1, c.2)) := by
  have key : ∀ (P : Prop) [Decidable P] (x : Cell), n ∈ (if P then [x] else []) ↔ P ∧ n = x := by
    intro P _ x; by_cases hP : P <;> simp [hP]
  simp only [neighbors, List.mem_append, key]
  tauto

theorem neighbors_length (g : Graph) (c : Cell) : (neighbors g c).length ≤ 6 := by
  have key : ∀ (P : Prop) [Decidable P] (x : Cell), (if P then [x] else []).length ≤ 1 := by
    intro P _ x; by_cases hP : P <;> simp [hP]
  simp only [neighbors, List.length_append]
  have h1 := key (c.2 < g.cols - 1) (c.1, c.2 + 1)
  have h2 := key (c.2 > 0) (c.1, c.2 - 1)
  have h3 := key (c.1 > 0) (c.1 - 1, c.2)
  have h4 := key (c.1 > 0 ∧ c.2 < g.cols - 1) (c.1 - 1, c.2 + 1)
  have h5 := key (c.1 < g.rows - 1 ∧ c.2 > 0) (c.1 + 1, c.2 - 1)
  have h6 := key (c.1 < g.rows - 1) (c.1 + 1, c.2)
  omega

theorem neighbors_inBox (g : Graph) (c n : Cell) (hc : InBox g c) (hn : n ∈ neighbors g c) :
    InBox g n := by
  rw [mem_neighbors] at hn
  unfold InBox at *
  rcases hn with ⟨h, rfl⟩ | ⟨h, rfl⟩ | ⟨h, rfl⟩ | ⟨h, rfl⟩ | ⟨h, rfl⟩ | ⟨h, rfl⟩ <;>
    simp only <;> omega

theorem mem_startCells (g : Graph) (p : Int) (c : Cell) :
    c ∈ startCells g p ↔
      g.myGraph c.1 c.2 = p ∧
        ((p = 1 ∧ 0 ≤ c.1 ∧ c.1 < g.rows ∧ c.2 = 0) ∨
         (p ≠ 1 ∧ c.1 = 0 ∧ 0 ≤ c.2 ∧ c.2 < g.cols)) := by
  obtain ⟨i, j⟩ := c
  unfold startCells
  by_cases hp : p = 1
  · simp only [hp, if_true, List.mem_filter, List.mem_map, List.mem_range, Prod.mk.injEq,
      decide_eq_true_eq]
    constructor
    · rintro ⟨⟨a, ha, rfl, rfl⟩, hv⟩
      exact ⟨hv, Or.inl ⟨trivial, by omega, by omega, rfl⟩⟩
    · rintro ⟨hv, h | h⟩
      · exact ⟨⟨i.toNat, by omega, by omega, by omega⟩, hv⟩
      · exact absurd rfl h.1
  · simp only [hp, if_false, List.mem_filter, List.mem_map, List.mem_range, Prod.mk.injEq,
      decide_eq_true_eq]
    constructor
    · rintro ⟨⟨a, ha, rfl, rfl⟩, hv⟩
      exact ⟨hv, Or.inr ⟨hp, rfl, by omega, by omega⟩⟩
    · rintro ⟨hv, h | h⟩
      · exact absurd h.1 (fun h => h)
      · exact ⟨⟨j.toNat, by omega, by omega, by omega⟩, hv⟩

theorem startCells_inBox (g : Graph) (p : Int) (c : Cell) (h : c ∈ startCells g p) :
    InBox g c := by
  rw [mem_startCells] at h
  unfold InBox
  rcases h with ⟨_, h | h⟩ <;> omega

theorem countP_lt_of_mem {α : Type} (P Q : α → Bool) (l : List α) (c : α)
    (hc : c ∈ l) (hPc : P c = true) (hQc : Q c = false) (hQP : ∀ x, Q x = true → P x = true) :
    l.countP Q + 1 ≤ l.countP P := by
  obtain ⟨l1, l2, rfl⟩ := List.append_of_mem hc
  have m1 : l1.countP Q ≤ l1.countP P := List.countP_mono_left (fun x _ => hQP x)
  have m2 : l2.countP Q ≤ l2.countP P := List.countP_mono_left (fun x _ => hQP x)
  simp only [List.countP_append, List.countP_cons, hPc, hQc, if_true]
  simp
  omega

theorem unvisitedCount_mark (g : Graph) (vis : Visited) (c : Cell) (hc : InBox g c)
    (hv : vis c = false) :
    unvisitedCount g (markVisited vis c) + 1 ≤ unvisitedCount g vis := by
  unfold unvisitedCount
  apply countP_lt_of_mem _ _ _ c ((mem_boxCells g c).2 hc)
  · simp [hv]
  · simp [markVisited]
  · intro x hx
    by_cases hxc : x = c
    · subst hxc; simp [hv]
    · simpa [markVisited, hxc] using hx

theorem markVisited_of_visited (vis : Visited) (c : Cell) (hv : vis c = true) :
    markVisited vis c = vis := by
  funext d
  unfold markVisited
  by_cases h : d = c
  · subst h; simp [hv]
  · simp [h]

theorem pushed_length (g : Graph) (p : Int) (vis : Visited) (c : Cell) :
    (pushed g p vis c).length ≤ 6 :=
  le_trans (List.length_filter_le _ _) (neighbors_length g c)

theorem pushed_unvisited (g : Graph) (p : Int) (vis : Visited) (c n : Cell)
    (h : n ∈ pushed g p vis c) :
    n ∈ neighbors g c ∧ markVisited vis c n = false ∧ g.myGraph n.1 n.2 = p := by
  simpa [pushed, List.mem_filter] using h

theorem sum_map_le_of_le {α : Type} (f h : α → Nat) (l : List α) (hfh : ∀ x ∈ l, f x ≤ h x) :
    (l.map f).sum ≤ (l.map h).sum := by
  induction l with
  | nil => simp
  | cons a t ih =>
    simp only [List.map_cons, List.sum_cons]
    have := hfh a (List.mem_cons_self _ _)
    have := ih (fun x hx => hfh x (List.mem_cons_of_mem _ hx))
    omega

theorem sum_map_const_le {α : Type} (f : α → Nat) (k : Nat) (l : List α) (hf : ∀ x ∈ l, f x ≤ k) :
    (l.map f).sum ≤ l.length * k := by
  induction l with
  | nil => simp
  | cons a t ih =>
    simp only [List.map_cons, List.sum_cons, List.length_cons]
    have := hf a (List.mem_cons_self _ _)
    have := ih (fun x hx => hf x (List.mem_cons_of_mem _ hx))
    rw [Nat.add_mul]
    omega

/-- One iteration of the loop that does not return strictly lowers the measure. -/
theorem queueWeight_step (g : Graph) (p : Int) (vis : Visited) (c : Cell) (q : List Cell)
    (hc : InBox g c) :
    queueWeight g (markVisited vis c) (q ++ pushed g p vis c) + 1 ≤
      queueWeight g vis (c :: q) := by
  unfold queueWeight
  simp only [List.map_append, List.sum_append, List.map_cons, List.sum_cons]
  cases hv : vis c with
  | true =>
    rw [markVisited_of_visited vis c hv]
    have hnew : ((pushed g p vis c).map (entryWeight g vis)).sum ≤
        (pushed g p vis c).length * 7 ^ (2 * unvisitedCount g vis) := by
      apply sum_map_const_le
      intro n hn
      have h := (pushed_unvisited g p vis c n hn).2.1
      rw [markVisited_of_visited vis c hv] at h
      simp [entryWeight, h]
    have hlen := pushed_length g p vis c
    have hcw : entryWeight g vis c = 7 * 7 ^ (2 * unvisitedCount g vis) := by
      simp [entryWeight, hv, pow_succ, Nat.mul_comm]
    have hpos : 0 < 7 ^ (2 * unvisitedCount g vis) := pow_pos (by norm_num) _
    have : (pushed g p vis c).length * 7 ^ (2 * unvisitedCount g vis) ≤
        6 * 7 ^ (2 * unvisitedCount g vis) := Nat.mul_le_mul_right _ hlen
    rw [hcw]
    omega
  | false =>
    have hu := unvisitedCount_mark g vis c hc hv
    set u' := unvisitedCount g (markVisited vis c) with hu'
    set u := unvisitedCount g vis with hu0
    have hold : (q.map (entryWeight g (markVisited vis c))).sum ≤
        (q.map (entryWeight g vis)).sum := by
      apply sum_map_le_of_le
      intro e _
      unfold entryWeight
      apply Nat.pow_le_pow_right (by norm_num)
      rw [← hu', ← hu0]
      split_ifs <;> omega
    have hnew : ((pushed g p vis c).map (entryWeight g (markVisited vis c))).sum ≤
        (pushed g p vis c).length * 7 ^ (2 * u') := by
      apply sum_map_const_le
      intro n hn
      have h := (pushed_unvisited g p vis c n hn).2.1
      simp [entryWeight, h, hu']
    have hlen := pushed_length g p vis c
    have hcw : 49 * 7 ^ (2 * u') ≤ entryWeight g vis c := by
      have : entryWeight g vis c = 7 ^ (2 * u) := by simp [entryWeight, hv, hu0]
      rw [this]
      have h49 : (49 : Nat) = 7 ^ 2 := by norm_num
      rw [h49, ← pow_add]
      apply Nat.pow_le_pow_right (by norm_num)
      omega
    have hpos : 0 < 7 ^ (2 * u') := pow_pos (by norm_num) _
    have : (pushed g p vis c).length * 7 ^ (2 * u') ≤ 6 * 7 ^ (2 * u') :=
      Nat.mul_le_mul_right _ hlen
    omega

theorem pushed_inBox (g : Graph) (p : Int) (vis : Visited) (c n : Cell) (hc : InBox g c)
    (hn : n ∈ pushed g p vis c) : InBox g n :=
  neighbors_inBox g c n hc (pushed_unvisited g p vis c n hn).1

/-- The loop returns once its iteration bound exceeds the measure of its state. -/
theorem bfs_returns (g : Graph) (p : Int) :
    ∀ (fuel : Nat) (vis : Visited) (w : Int) (q : List Cell),
      (∀ e ∈ q, InBox g e) → queueWeight g vis q < fuel →
      ∃ r, bfs g p fuel vis w q = some r := by
  intro fuel
  induction fuel with
  | zero => intro vis w q _ h; omega
  | succ fuel ih =>
    intro vis w q hq hm
    cases q with
    | nil => exact ⟨_, bfs_nil g p fuel vis w⟩
    | cons c q =>
      cases hx : (exploreNeighbors g p (markVisited vis c) (neighbors g c) w q).2.2 with
      | true => exact ⟨_, bfs_cons_true g p fuel vis w c q hx⟩
      | false =>
        rw [bfs_cons_false g p fuel vis w c q hx]
        have hc : InBox g c := hq c (List.mem_cons_self _ _)
        have hstep := queueWeight_step g p vis c q hc
        obtain ⟨r, hr⟩ := ih (markVisited vis c) w (q ++ pushed g p vis c)
          (by
            intro e he
            rcases List.mem_append.1 he with he | he
            · exact hq e (List.mem_cons_of_mem _ he)
            · exact pushed_inBox g p vis c e hc he)
          (by omega)
        exact ⟨_, by rw [hr]; rfl⟩

theorem queueWeight_init (g : Graph) (q : List Cell) :
    queueWeight g (fun _ => false) q < bfsFuel g q := by
  have hu : unvisitedCount g (fun _ => false) = (boxCells g).length := by
    simp [unvisitedCount]
  have : queueWeight g (fun _ => false) q ≤ q.length * 7 ^ (2 * (boxCells g).length) := by
    unfold queueWeight
    apply sum_map_const_le
    intro e _
    simp [entryWeight, hu]
  unfold bfsFuel
  omega

/-- The search loop of `checkForWinner` always runs to completion within `bfsFuel`. -/
theorem bfs_total (g : Graph) (p w : Int) :
    ∃ r, bfs g p (bfsFuel g (startCells g p)) (fun _ => false) w (startCells g p) = some r :=
  bfs_returns g p _ _ w _ (fun e he => startCells_inBox g p e he) (queueWeight_init g _)

/-- What `checkForWinner` returns, in terms of the completed search loop. -/
theorem checkForWinner_eq (g : Graph) (p : Int) :
    ∃ r, bfs g p (bfsFuel g (startCells g p)) (fun _ => false) g.winner (startCells g p) = some r ∧
      checkForWinner g p = ({ g with winner := if r.found then p else g.winner }, r.found) := by
  obtain ⟨r, hr⟩ := bfs_total g p g.winner
  refine ⟨r, hr, ?_⟩
  unfold checkForWinner
  rw [hr]
  simp only
  rw [bfs_winner g p _ _ _ _ r hr]

theorem exploreNeighbors_congr (g : Graph) (x : Int) (p : Int) (vis : Visited) :
    ∀ (ns : List Cell) (w : Int) (q : List Cell),
      exploreNeighbors { g with winner := x } p vis ns w q = exploreNeighbors g p vis ns w q := by
  intro ns
  induction ns with
  | nil => intro w q; rfl
  | cons n ns ih =>
    intro w q
    unfold exploreNeighbors
    simp only [ih]

theorem bfs_congr (g : Graph) (x : Int) (p : Int) :
    ∀ (fuel : Nat) (vis : Visited) (w : Int) (q : List Cell),
      bfs { g with winner := x } p fuel vis w q = bfs g p fuel vis w q := by
  intro fuel
  induction fuel with
  | zero => intro vis w q; rfl
  | succ fuel ih =>
    intro vis w q
    cases q with
    | nil => rfl
    | cons c q =>
      rw [bfs, bfs]
      have hn : neighbors { g with winner := x } c = neighbors g c := rfl
      rw [hn, exploreNeighbors_congr]
      simp only [ih]

theorem checkForWinner_found_congr (g : Graph) (x : Int) (p : Int) :
    (checkForWinner { g with winner := x } p).2 = (checkForWinner g p).2 := by
  obtain ⟨r, hr, e⟩ := checkForWinner_eq g p
  obtain ⟨r', hr', e'⟩ := checkForWinner_eq { g with winner := x } p
  rw [e, e']
  simp only
  have h1 : startCells { g with winner := x } p = startCells g p := rfl
  have h2 : bfsFuel { g with winner := x } (startCells g p) = bfsFuel g (startCells g p) := rfl
  rw [h1, h2, bfs_congr] at hr'
  have := bfs_winner_irrelevant g p _ _ _ x _ r hr
  rw [hr'] at this
  cases this
  rfl

theorem checkForWinner_graph (g : Graph) (p : Int) :
    (checkForWinner g p).1 =
      { g with winner := if (checkForWinner g p).2 then p else g.winner } := by
  obtain ⟨r, _, e⟩ := checkForWinner_eq g p
  rw [e]

theorem checkForWinner_twice (g : Graph) (p : Int) :
    (checkForWinner (checkForWinner g p).1 p).2 = (checkForWinner g p).2 ∧
    (checkForWinner (checkForWinner g p).1 p).1.winner = (checkForWinner g p).1.winner := by
  have h1 : (checkForWinner (checkForWinner g p).1 p).2 = (checkForWinner g p).2 := by
    rw [checkForWinner_graph g p]
    exact checkForWinner_found_congr g _ p
  refine ⟨h1, ?_⟩
  rw [checkForWinner_graph (checkForWinner g p).1 p, h1]
  simp only
  rw [checkForWinner_graph g p]
  simp only
  split_ifs <;> rfl

theorem Reach.inGrid {g : Graph} {p : Int} {c : Cell} (h : Reach g p c) : InGrid g c := by
  cases h with
  | start _ h _ _ => exact h
  | step a _ _ h _ => exact h.2.1

theorem Reach.owned {g : Graph} {p : Int} {c : Cell} (h : Reach g p c) :
    g.myGraph c.1 c.2 = p := by
  cases h with
  | start _ _ _ h => exact h
  | step a _ _ _ h => exact h

theorem adjacent_of_mem_neighbors (g : Graph) (c n : Cell) (hc : InGrid g c)
    (hn : n ∈ neighbors g c) : Adjacent g c n := by
  rw [mem_neighbors] at hn
  unfold Adjacent InGrid at *
  rcases hn with ⟨h, rfl⟩ | ⟨h, rfl⟩ | ⟨h, rfl⟩ | ⟨h, rfl⟩ | ⟨h, rfl⟩ | ⟨h, rfl⟩ <;>
    refine ⟨hc, ?_, ?_⟩ <;> simp <;> omega

theorem mem_neighbors_of_adjacent (g : Graph) (c n : Cell) (h : Adjacent g c n) :
    n ∈ neighbors g c := by
  rw [mem_neighbors]
  obtain ⟨hc, hn, h⟩ := h
  unfold InGrid at *
  rcases h with rfl | rfl | rfl | rfl | rfl | rfl <;> simp at hn ⊢ <;> omega

/-- Soundness of the loop: a true result exhibits a reachable cell on the target edge. -/
theorem bfs_sound (g : Graph) (p : Int) :
    ∀ (fuel : Nat) (vis : Visited) (w : Int) (q : List Cell) (r : BfsResult),
      (∀ e ∈ q, Reach g p e) → bfs g p fuel vis w q = some r → r.found = true →
      ∃ c, Reach g p c ∧ OnTargetEdge g p c := by
  intro fuel
  induction fuel with
  | zero => intro vis w q r _ h; simp [bfs] at h
  | succ fuel ih =>
    intro vis w q r hq h hf
    cases q with
    | nil => rw [bfs_nil] at h; cases h; simp at hf
    | cons c q =>
      have hc : Reach g p c := hq c (List.mem_cons_self _ _)
      cases hx : (exploreNeighbors g p (markVisited vis c) (neighbors g c) w q).2.2 with
      | true =>
        obtain ⟨_, n, hn, _, hval, ht⟩ := exploreNeighbors_true g p _ _ w q hx
        exact ⟨n, Reach.step c n hc (adjacent_of_mem_neighbors g c n hc.inGrid hn) hval, ht⟩
      | false =>
        rw [bfs_cons_false g p fuel vis w c q hx] at h
        obtain ⟨r', hr', rfl⟩ := Option.map_eq_some'.1 h
        apply ih (markVisited vis c) w (q ++ pushed g p vis c) r' _ hr' hf
        intro e he
        rcases List.mem_append.1 he with he | he
        · exact hq e (List.mem_cons_of_mem _ he)
        · obtain ⟨h1, _, h3⟩ := pushed_unvisited g p vis c e he
          exact Reach.step c e hc (adjacent_of_mem_neighbors g c e hc.inGrid h1) h3

theorem closed_step (g : Graph) (p : Int) (vis : Visited) (w : Int) (c : Cell) (q : List Cell)
    (hx : (exploreNeighbors g p (markVisited vis c) (neighbors g c) w q).2.2 = false)
    (hI : Closed g p vis (c :: q)) :
    Closed g p (markVisited vis c) (q ++ pushed g p vis c) := by
  obtain ⟨ha, hb, hc⟩ := hI
  have hmark : ∀ x, vis x = true ∨ x ∈ c :: q →
      markVisited vis c x = true ∨ x ∈ q ++ pushed g p vis c := by
    intro x hx'
    by_cases hxc : x = c
    · left; simp [markVisited, hxc]
    · rcases hx' with h | h
      · left; simp [markVisited, hxc, h]
      · rcases List.mem_cons.1 h with h | h
        · exact absurd h hxc
        · right; exact List.mem_append_left _ h
  refine ⟨fun s h1 h2 h3 => hmark s (ha s h1 h2 h3), ?_, ?_⟩
  · intro a b hva hab hval
    by_cases hac : a = c
    · subst hac
      cases hvb : markVisited vis a b with
      | true => left; rfl
      | false =>
        right
        apply List.mem_append_right
        simp only [pushed, List.mem_filter]
        exact ⟨mem_neighbors_of_adjacent g a b hab, by simp [hvb, hval]⟩
    · have : vis a = true := by simpa [markVisited, hac] using hva
      exact hmark b (hb a b this hab hval)
  · intro x hx'
    by_cases hxc : x = c
    · subst hxc; exact hc x (Or.inr (List.mem_cons_self _ _))
    · rcases hx' with h | h
      · exact hc x (Or.inl (by simpa [markVisited, hxc] using h))
      · rcases List.mem_append.1 h with h | h
        · exact hc x (Or.inr (List.mem_cons_of_mem _ h))
        · obtain ⟨h1, h2, h3⟩ := pushed_unvisited g p vis c x h
          have := (exploreNeighbors_false g p _ _ w q hx).2 x h1 h2 h3
          unfold OnTargetEdge
          tauto

/-- Completeness of the loop: a false result means no reachable cell is on the target
edge. -/
theorem bfs_complete (g : Graph) (p : Int) :
    ∀ (fuel : Nat) (vis : Visited) (w : Int) (q : List Cell) (r : BfsResult),
      Closed g p vis q → bfs g p fuel vis w q = some r → r.found = false →
      ∀ c, Reach g p c → ¬ OnTargetEdge g p c := by
  intro fuel
  induction fuel with
  | zero => intro vis w q r _ h; simp [bfs] at h
  | succ fuel ih =>
    intro vis w q r hI h hf
    cases q with
    | nil =>
      obtain ⟨ha, hb, hc⟩ := hI
      intro c hc'
      have hv : vis c = true := by
        induction hc' with
        | start c h1 h2 h3 => simpa using ha c h1 h2 h3
        | step a b _ hab hval iha => simpa using hb a b iha hab hval
      exact hc c (Or.inl hv)
    | cons c q =>
      cases hx : (exploreNeighbors g p (markVisited vis c) (neighbors g c) w q).2.2 with
      | true =>
        rw [bfs_cons_true g p fuel vis w c q hx] at h
        cases h; simp at hf
      | false =>
        rw [bfs_cons_false g p fuel vis w c q hx] at h
        obtain ⟨r', hr', rfl⟩ := Option.map_eq_some'.1 h
        exact ih (markVisited vis c) w (q ++ pushed g p vis c) r'
          (closed_step g p vis w c q hx hI) hr' hf

theorem closed_init (g : Graph) (p : Int) (hr : 1 < g.rows) (hc : 1 < g.cols) :
    Closed g p (fun _ => false) (startCells g p) := by
  refine ⟨?_, ?_, ?_⟩
  · intro c h1 h2 h3
    right
    rw [mem_startCells]
    unfold InGrid at h1
    unfold OnStartEdge at h2
    refine ⟨h3, ?_⟩
    rcases h2 with ⟨rfl, h⟩ | ⟨rfl, h⟩
    · left; omega
    · right; refine ⟨by norm_num, ?_⟩; omega
  · intro a b h; simp at h
  · intro c h
    rcases h with h | h
    · simp at h
    · rw [mem_startCells] at h
      unfold OnTargetEdge
      omega

theorem reach_of_chain (g : Graph) (p : Int) :
    ∀ (l : List Cell) (a : Cell), Reach g p a → List.Chain (Adjacent g) a l →
      (∀ x ∈ l, g.myGraph x.1 x.2 = p) → Reach g p ((a :: l).getLast (by simp)) := by
  intro l
  induction l with
  | nil => intro a ha _ _; simpa using ha
  | cons b l ih =>
    intro a ha hch hval
    rw [List.chain_cons] at hch
    have hb : Reach g p b := Reach.step a b ha hch.1 (hval b (List.mem_cons_self _ _))
    have := ih b hb hch.2 (fun x hx => hval x (List.mem_cons_of_mem _ hx))
    simpa [List.getLast_cons] using this

theorem reach_of_winningPath (g : Graph) (p : Int) (path : List Cell)
    (h : WinningPath g p path) : ∃ c, Reach g p c ∧ OnTargetEdge g p c := by
  obtain ⟨hown, hch, ⟨a, ha, hsa⟩, ⟨b, hb, htb⟩⟩ := h
  cases path with
  | nil => simp at ha
  | cons x l =>
    simp only [List.head?_cons, Option.some.injEq] at ha
    subst ha
    have hx := hown x (List.mem_cons_self _ _)
    have hr := reach_of_chain g p l x (Reach.start x hx.1 hsa hx.2) hch
      (fun y hy => (hown y (List.mem_cons_of_mem _ hy)).2)
    rw [List.getLast?_eq_getLast _ (by simp)] at hb
    simp only [Option.some.injEq] at hb
    rw [hb] at hr
    exact ⟨b, hr, htb⟩

theorem path_of_reach (g : Graph) (p : Int) (c : Cell) (h : Reach g p c) :
    ∃ path : List Cell, (∀ x ∈ path, InGrid g x ∧ g.myGraph x.1 x.2 = p) ∧
      List.Chain' (Adjacent g) path ∧ (∃ a, path.head? = some a ∧ OnStartEdge p a) ∧
      path.getLast? = some c := by
  induction h with
  | start c h1 h2 h3 =>
    refine ⟨[c], ?_, ?_, ⟨c, rfl, h2⟩, rfl⟩
    · intro x hx; simp at hx; subst hx; exact ⟨h1, h3⟩
    · simp
  | step a b ha hab hval ih =>
    obtain ⟨path, hown, hch, ⟨s, hs, hss⟩, hlast⟩ := ih
    refine ⟨path ++ [b], ?_, ?_, ⟨s, ?_, hss⟩, by simp⟩
    · intro x hx
      rcases List.mem_append.1 hx with hx | hx
      · exact hown x hx
      · simp at hx; subst hx; exact ⟨hab.2.1, hval⟩
    · rw [List.chain'_append]
      refine ⟨hch, by simp, ?_⟩
      intro x hx y hy
      simp at hy
      subst hy
      rw [hlast] at hx
      simp at hx
      subst hx
      exact hab
    · cases path with
      | nil => simp at hs
      | cons z l => simpa using hs

theorem winningPath_of_reach (g : Graph) (p : Int) (c : Cell) (h : Reach g p c)
    (ht : OnTargetEdge g p c) : ∃ path, WinningPath g p path := by
  obtain ⟨path, h1, h2, h3, h4⟩ := path_of_reach g p c h
  exact ⟨path, h1, h2, h3, ⟨c, h4, ht⟩⟩

theorem checkForWinner_true_iff (g : Graph) (p : Int) (hr : 1 < g.rows) (hc : 1 < g.cols)
    (hp : p = 1 ∨ p = 2) :
    (checkForWinner g p).2 = true ↔ ∃ c, Reach g p c ∧ OnTargetEdge g p c := by
  obtain ⟨r, hbfs, e⟩ := checkForWinner_eq g p
  rw [e]
  simp only
  constructor
  · intro hf
    apply bfs_sound g p _ _ _ _ r _ hbfs hf
    intro e he
    rw [mem_startCells] at he
    have hbox := he
    obtain ⟨hval, h | h⟩ := he
    · exact Reach.start e (by unfold InGrid; omega) (Or.inl ⟨h.1, h.2.2.2⟩) hval
    · have hp2 : p = 2 := by omega
      exact Reach.start e (by unfold InGrid; omega) (Or.inr ⟨hp2, h.2.1⟩) hval
  · rintro ⟨c, hcr, hct⟩
    by_contra hf
    exact bfs_complete g p _ _ _ _ r (closed_init g p hr hc) hbfs (by simpa using hf) c hcr hct

theorem Graph.ext_fields (g h : Graph) (h1 : g.rows = h.rows) (h2 : g.cols = h.cols)
    (h3 : g.winner = h.winner) (h4 : ∀ a b, g.myGraph a b = h.myGraph a b) : g = h := by
  obtain ⟨r, c, w, m⟩ := g
  obtain ⟨r', c', w', m'⟩ := h
  simp only at h1 h2 h3 h4
  have hm : m = m' := funext (fun a => funext (fun b => h4 a b))
  subst h1; subst h2; subst h3; subst hm
  rfl

theorem setVal_restore (g : Graph) (i j v : Int) (h : g.myGraph i j = 0) :
    (g.setVal i j v).setVal i j 0 = g := by
  apply Graph.ext_fields <;> try rfl
  intro a b
  simp only [Graph.setVal]
  by_cases hab : a = i ∧ b = j
  · simp [hab, h]
  · simp [hab]

theorem mem_nextMoves (g : Graph) (c : Cell) :
    c ∈ nextMoves g ↔ InGrid g c ∧ g.myGraph c.1 c.2 = 0 := by
  obtain ⟨i, j⟩ := c
  simp only [nextMoves, InGrid, List.mem_flatMap, List.mem_map, List.mem_filter, List.mem_range,
    Prod.mk.injEq, decide_eq_true_eq]
  constructor
  · rintro ⟨a, ha, b, ⟨hb, hv⟩, rfl, rfl⟩
    exact ⟨by omega, hv⟩
  · rintro ⟨⟨h1, h2, h3, h4⟩, hv⟩
    refine ⟨i.toNat, by omega, j.toNat, ⟨by omega, ?_⟩, by omega, by omega⟩
    rw [Int.toNat_of_nonneg h1, Int.toNat_of_nonneg h3]
    exact hv

theorem nextMoves_nodup (g : Graph) : (nextMoves g).Nodup := by
  unfold nextMoves
  rw [List.nodup_flatMap]
  constructor
  · intro i _
    apply List.Nodup.map
    · intro a b hab
      simp only [Prod.mk.injEq, true_and] at hab
      exact_mod_cast hab
    · exact (List.nodup_range _).filter _
  · apply List.Pairwise.imp _ (List.nodup_range _)
    intro a b hab
    simp only [Function.onFun]
    rw [List.disjoint_left]
    intro x hx hx'
    simp only [List.mem_map, List.mem_filter] at hx hx'
    obtain ⟨_, _, rfl⟩ := hx
    obtain ⟨_, _, h⟩ := hx'
    simp only [Prod.mk.injEq] at h
    omega

theorem nextMoves_length (g : Graph) :
    (nextMoves g).length = ((List.range g.rows.toNat).map (emptyInRow g)).sum := by
  unfold nextMoves emptyInRow
  rw [List.length_flatMap]
  congr 1
  apply List.map_congr_left
  intro i _
  simp

theorem depthLoop_eq (g : Graph) :
    ∀ (l : List Nat) (d : Nat), d ≤ MAX_DEPTH →
      depthLoop g l d = min MAX_DEPTH (d + (l.map (emptyInRow g)).sum) := by
  intro l
  induction l with
  | nil => intro d hd; simp [depthLoop]; omega
  | cons i l ih =>
    intro d hd
    unfold depthLoop
    by_cases h : d + emptyInRow g i ≥ MAX_DEPTH
    · simp only [h, if_true, List.map_cons, List.sum_cons]
      omega
    · simp only [h, if_false, List.map_cons, List.sum_cons]
      rw [ih _ (by omega)]
      congr 1
      omega

theorem tree_depth_eq (g : Graph) :
    depthLoop g (List.range g.rows.toNat) 0 = min MAX_DEPTH (nextMoves g).length := by
  rw [depthLoop_eq g _ 0 (Nat.zero_le _), nextMoves_length]
  simp

theorem fitsChildren_congr :
    ∀ (cs : List TreeNode) (f f' : Int → Int → Prop), (∀ a b, f a b ↔ f' a b) →
      FitsChildren cs f → FitsChildren cs f' := by
  intro cs f f' h
  have : f = f' := funext (fun a => funext (fun b => propext (h a b)))
  subst this
  exact id

theorem freeCells_setVal (g : Graph) (i j v : Int) (hv : v ≠ 0) (a b : Int) :
    freeCells (g.setVal i j v) a b ↔ freeCells g a b ∧ ¬ (a = i ∧ b = j) := by
  simp only [freeCells, Graph.setVal]
  by_cases hab : a = i ∧ b = j
  · simp [hab, hv]
  · simp [hab]

/-- The fold of `createTree` over a list of moves, given that building a subtree leaves the
graph as it was. -/
theorem createTree_fold (d : Nat) (g1 : Graph)
    (ih : ∀ mv : Cell, g1.myGraph mv.1 mv.2 = 0 →
      (createTree d false (TreeNode.fresh mv.1 mv.2) g1).1 = g1) :
    ∀ (l : List Cell) (acc : List TreeNode), (∀ mv ∈ l, g1.myGraph mv.1 mv.2 = 0) →
      l.foldl
        (fun (acc : Graph × List TreeNode) (mv : Cell) =>
          ((createTree d false (TreeNode.fresh mv.1 mv.2) acc.1).1,
            acc.2 ++ [(createTree d false (TreeNode.fresh mv.1 mv.2) acc.1).2]))
        (g1, acc) =
      (g1, acc ++ l.map (fun mv => (createTree d false (TreeNode.fresh mv.1 mv.2) g1).2)) := by
  intro l
  induction l with
  | nil => intro acc _; simp
  | cons mv l ihl =>
    intro acc hl
    simp only [List.foldl_cons, List.map_cons]
    rw [ih mv (hl mv (List.mem_cons_self _ _))]
    rw [ihl _ (fun x hx => hl x (List.mem_cons_of_mem _ hx))]
    simp

theorem createTree_succ (d : Nat) (isRoot : Bool) (node : TreeNode) (g : Graph) :
    createTree (d + 1) isRoot node g =
      (if isRoot then
          ((nextMoves (if isRoot then g else g.setVal node.row node.col 1)).foldl
            (fun (acc : Graph × List TreeNode) (mv : Cell) =>
              ((createTree d false (TreeNode.fresh mv.1 mv.2) acc.1).1,
                acc.2 ++ [(createTree d false (TreeNode.fresh mv.1 mv.2) acc.1).2]))
            (if isRoot then g else g.setVal node.row node.col 1, node.children)).1
        else
          ((nextMoves (if isRoot then g else g.setVal node.row node.col 1)).foldl
            (fun (acc : Graph × List TreeNode) (mv : Cell) =>
              ((createTree d false (TreeNode.fresh mv.1 mv.2) acc.1).1,
                acc.2 ++ [(createTree d false (TreeNode.fresh mv.1 mv.2) acc.1).2]))
            (if isRoot then g else g.setVal node.row node.col 1, node.children)).1.setVal
              node.row node.col 0,
        { node with children :=
          ((nextMoves (if isRoot then g else g.setVal node.row node.col 1)).foldl
            (fun (acc : Graph × List TreeNode) (mv : Cell) =>
              ((createTree d false (TreeNode.fresh mv.1 mv.2) acc.1).1,
                acc.2 ++ [(createTree d false (TreeNode.fresh mv.1 mv.2) acc.1).2]))
            (if isRoot then g else g.setVal node.row node.col 1, node.children)).2 }) := by
  rfl

/-- Building a subtree leaves the graph as it was, and yields the children listed by
`nextMoves` on the graph with the node's own cell taken. -/
theorem createTree_spec :
    ∀ (d : Nat) (isRoot : Bool) (node : TreeNode) (g : Graph),
      (isRoot = true ∨ g.myGraph node.row node.col = 0) →
      (createTree d isRoot node g).1 = g ∧
      (createTree (d + 1) isRoot node g).1 = g ∧
      (createTree (d + 1) isRoot node g).2 =
        { node with children :=
          (node.children ++
            (nextMoves (if isRoot then g else g.setVal node.row node.col 1)).map
              (fun mv => (createTree d false (TreeNode.fresh mv.1 mv.2)
                (if isRoot then g else g.setVal node.row node.col 1)).2)) } := by
  intro d
  induction d with
  | zero =>
    intro isRoot node g hpre
    refine ⟨rfl, ?_⟩
    have hfold := createTree_fold 0 (if isRoot then g else g.setVal node.row node.col 1)
      (fun mv _ => rfl)
      (nextMoves (if isRoot then g else g.setVal node.row node.col 1)) node.children
      (fun mv hmv => ((mem_nextMoves _ mv).1 hmv).2)
    rw [createTree_succ, hfold]
    simp only
    refine ⟨?_, trivial⟩
    cases isRoot with
    | true => rfl
    | false =>
      simp only [Bool.false_eq_true, if_false]
      rcases hpre with h | h
      · simp at h
      · exact setVal_restore g _ _ 1 h
  | succ d ih =>
    intro isRoot node g hpre
    refine ⟨(ih isRoot node g hpre).2.1, ?_⟩
    have hfold := createTree_fold (d + 1) (if isRoot then g else g.setVal node.row node.col 1)
      (fun mv hmv => (ih false (TreeNode.fresh mv.1 mv.2) _ (Or.inr hmv)).2.1)
      (nextMoves (if isRoot then g else g.setVal node.row node.col 1)) node.children
      (fun mv hmv => ((mem_nextMoves _ mv).1 hmv).2)
    rw [createTree_succ, hfold]
    simp only
    refine ⟨?_, trivial⟩
    cases isRoot with
    | true => rfl
    | false =>
      simp only [Bool.false_eq_true, if_false]
      rcases hpre with h | h
      · simp at h
      · exact setVal_restore g _ _ 1 h

theorem checkForWinner_cells (g : Graph) (p : Int) :
    (checkForWinner g p).1.myGraph = g.myGraph ∧
    (checkForWinner g p).1.rows = g.rows ∧ (checkForWinner g p).1.cols = g.cols := by
  rw [checkForWinner_graph g p]
  exact ⟨rfl, rfl, rfl⟩

theorem playOut_frame :
    ∀ (ms : List Cell) (pl : Int) (g : Graph),
      (playOut ms pl g).rows = g.rows ∧ (playOut ms pl g).cols = g.cols ∧
      (playOut ms pl g).winner = g.winner ∧
      ∀ a b, (a, b) ∉ ms → (playOut ms pl g).myGraph a b = g.myGraph a b := by
  intro ms
  induction ms with
  | nil => intro pl g; exact ⟨rfl, rfl, rfl, fun _ _ _ => rfl⟩
  | cons m ms ih =>
    intro pl g
    obtain ⟨h1, h2, h3, h4⟩ := ih (switchPlayer pl) (g.setVal m.1 m.2 pl)
    unfold playOut
    refine ⟨h1, h2, h3, ?_⟩
    intro a b hab
    rw [h4 a b (fun h => hab (List.mem_cons_of_mem _ h))]
    simp only [Graph.setVal]
    have : ¬ (a = m.1 ∧ b = m.2) := by
      rintro ⟨rfl, rfl⟩
      exact hab (List.mem_cons_self _ _)
    simp [this]

theorem resetGraph_frame (moves : List Cell) (g : Graph) :
    (resetGraph moves g).rows = g.rows ∧ (resetGraph moves g).cols = g.cols ∧
    (resetGraph moves g).winner = 0 ∧
    ∀ a b, (resetGraph moves g).myGraph a b = if (a, b) ∈ moves then 0 else g.myGraph a b := by
  have key : ∀ (ms : List Cell) (h : Graph),
      (ms.foldl (fun (h : Graph) (m : Cell) => h.setVal m.1 m.2 0) h).rows = h.rows ∧
      (ms.foldl (fun (h : Graph) (m : Cell) => h.setVal m.1 m.2 0) h).cols = h.cols ∧
      ∀ a b, (ms.foldl (fun (h : Graph) (m : Cell) => h.setVal m.1 m.2 0) h).myGraph a b =
        if (a, b) ∈ ms then 0 else h.myGraph a b := by
    intro ms
    induction ms with
    | nil => intro h; simp
    | cons m ms ih =>
      intro h
      obtain ⟨h1, h2, h3⟩ := ih (h.setVal m.1 m.2 0)
      simp only [List.foldl_cons]
      refine ⟨h1, h2, ?_⟩
      intro a b
      rw [h3 a b]
      by_cases hm : (a, b) ∈ ms
      · simp [hm]
      · by_cases hab : a = m.1 ∧ b = m.2
        · obtain ⟨rfl, rfl⟩ := hab
          simp [hm, Graph.setVal]
        · have hne : (a, b) ≠ m := by
            intro h; apply hab; subst h; exact ⟨rfl, rfl⟩
          simp [hm, hab, hne, Graph.setVal]
  obtain ⟨h1, h2, h3⟩ := key moves g
  exact ⟨h1, h2, rfl, h3⟩

theorem addResult_fields (node : TreeNode) (w : Int) :
    (node.addResult w).row = node.row ∧ (node.addResult w).col = node.col ∧
    (node.addResult w).children = node.children ∧
    (node.addResult w).p1wins + (node.addResult w).p2wins = node.p1wins + node.p2wins + 1 := by
  unfold TreeNode.addResult
  split_ifs
  · exact ⟨rfl, rfl, rfl, by simp only; omega⟩
  · exact ⟨rfl, rfl, rfl, by simp only; omega⟩

/-- What the trial loop preserves. -/
theorem trialLoop_frame (rng : Nat → List Cell → List Cell) (hrng : IsShuffle rng)
    (player : Int) :
    ∀ (n : Nat) (moves : List Cell) (node : TreeNode) (s : Sim),
      List.Perm (trialLoop rng player n moves node s).1 moves ∧
      (trialLoop rng player n moves node s).2.1.row = node.row ∧
      (trialLoop rng player n moves node s).2.1.col = node.col ∧
      (trialLoop rng player n moves node s).2.1.children = node.children ∧
      (trialLoop rng player n moves node s).2.1.p1wins +
        (trialLoop rng player n moves node s).2.1.p2wins = node.p1wins + node.p2wins + n ∧
      (trialLoop rng player n moves node s).2.2.shuffles = s.shuffles + n ∧
      (trialLoop rng player n moves node s).2.2.graph.rows = s.graph.rows ∧
      (trialLoop rng player n moves node s).2.2.graph.cols = s.graph.cols ∧
      ∀ a b, (a, b) ∉ moves →
        (trialLoop rng player n moves node s).2.2.graph.myGraph a b = s.graph.myGraph a b := by
  intro n
  induction n with
  | zero =>
    intro moves node s
    exact ⟨List.Perm.refl _, rfl, rfl, rfl, rfl, rfl, rfl, rfl, fun _ _ _ => rfl⟩
  | succ n ih =>
    intro moves node s
    unfold trialLoop
    simp only
    obtain ⟨i1, i2, i3, i4, i5, i6, i7, i8, i9⟩ := ih (rng s.shuffles moves)
      (node.addResult (if (checkForWinner (playOut (rng s.shuffles moves) player s.graph) 1).2
        then 1 else 2))
      { graph := (checkForWinner (playOut (rng s.shuffles moves) player s.graph) 1).1,
        shuffles := s.shuffles + 1 }
    obtain ⟨a1, a2, a3, a4⟩ := addResult_fields node
      (if (checkForWinner (playOut (rng s.shuffles moves) player s.graph) 1).2 then 1 else 2)
    obtain ⟨c1, c2, c3⟩ := checkForWinner_cells
      (playOut (rng s.shuffles moves) player s.graph) 1
    obtain ⟨p1, p2, _, p4⟩ := playOut_frame (rng s.shuffles moves) player s.graph
    refine ⟨i1.trans (hrng _ _), i2.trans a1, i3.trans a2, i4.trans a3, ?_, ?_, ?_, ?_, ?_⟩
    · rw [i5, a4]; omega
    · rw [i6]; simp only; omega
    · rw [i7]; simp only; rw [c2, p1]
    · rw [i8]; simp only; rw [c3, p2]
    · intro a b hab
      have hab' : (a, b) ∉ rng s.shuffles moves := fun h => hab ((hrng _ _).mem_iff.1 h)
      rw [i9 a b hab']
      simp only
      rw [c1, p4 a b hab']

/-- `runTrials` leaves every cell as it found it and records no winner. -/
theorem runTrials_spec (rng : Nat → List Cell → List Cell) (hrng : IsShuffle rng)
    (node : TreeNode) (player : Int) (s : Sim) :
    (runTrials rng node player s).2.graph = { s.graph with winner := 0 } ∧
    (runTrials rng node player s).2.shuffles = s.shuffles + MAX_TRIALS ∧
    (runTrials rng node player s).1.row = node.row ∧
    (runTrials rng node player s).1.col = node.col ∧
    (runTrials rng node player s).1.children = node.children ∧
    (runTrials rng node player s).1.p1wins + (runTrials rng node player s).1.p2wins =
      node.p1wins + node.p2wins + MAX_TRIALS := by
  obtain ⟨i1, i2, i3, i4, i5, i6, i7, i8, i9⟩ :=
    trialLoop_frame rng hrng player MAX_TRIALS (nextMoves s.graph) node s
  obtain ⟨r1, r2, r3, r4⟩ := resetGraph_frame
    (trialLoop rng player MAX_TRIALS (nextMoves s.graph) node s).1
    (trialLoop rng player MAX_TRIALS (nextMoves s.graph) node s).2.2.graph
  unfold runTrials
  simp only
  refine ⟨?_, i6, i2, i3, i4, i5⟩
  apply Graph.ext_fields
  · rw [r1, i7]
  · rw [r2, i8]
  · rw [r3]
  · intro a b
    rw [r4]
    by_cases hab : (a, b) ∈ nextMoves s.graph
    · have := ((mem_nextMoves _ _).1 hab).2
      simp [i1.mem_iff.2 hab, this]
    · have hab' : (a, b) ∉ (trialLoop rng player MAX_TRIALS (nextMoves s.graph) node s).1 :=
        fun h => hab (i1.mem_iff.1 h)
      simp [hab', i9 a b hab]

/-- Induction over a tree node and its list of children at once. -/
theorem TreeNode.induction {P : TreeNode → Prop} {Q : List TreeNode → Prop}
    (hmk : ∀ row col p1 p2 cs, Q cs → P ⟨row, col, p1, p2, cs⟩) (hnil : Q [])
    (hcons : ∀ c cs, P c → Q cs → Q (c :: cs)) : (∀ t, P t) ∧ ∀ l, Q l :=
  ⟨fun t => @TreeNode.rec P Q hmk hnil hcons t, fun l => @TreeNode.rec_1 P Q hmk hnil hcons l⟩

theorem switchPlayer_ne_zero (p : Int) : switchPlayer p ≠ 0 := by
  unfold switchPlayer; split_ifs <;> norm_num

theorem monteCarlo_leaf (rng : Nat → List Cell → List Cell) (isRoot : Bool) (row col : Int)
    (p1wins p2wins : Nat) (player : Int) (s : Sim) :
    monteCarlo rng isRoot ⟨row, col, p1wins, p2wins, []⟩ player s =
      ((runTrials rng ⟨row, col, p1wins, p2wins, []⟩ (switchPlayer player)
          (enterNode isRoot row col player s)).1,
       leaveNode isRoot row col
        (runTrials rng ⟨row, col, p1wins, p2wins, []⟩ (switchPlayer player)
          (enterNode isRoot row col player s)).2) := by
  rw [monteCarlo]
  cases isRoot <;> rfl

theorem monteCarlo_inner (rng : Nat → List Cell → List Cell) (isRoot : Bool) (row col : Int)
    (p1wins p2wins : Nat) (c : TreeNode) (cs : List TreeNode) (player : Int) (s : Sim) :
    monteCarlo rng isRoot ⟨row, col, p1wins, p2wins, c :: cs⟩ player s =
      (⟨row, col, p1wins, p2wins,
          (monteCarloChildren rng (c :: cs) (switchPlayer player)
            (enterNode isRoot row col player s)).1⟩,
       leaveNode isRoot row col
        (monteCarloChildren rng (c :: cs) (switchPlayer player)
          (enterNode isRoot row col player s)).2) := by
  rw [monteCarlo]
  cases isRoot <;> rfl

theorem monteCarloChildren_nil (rng : Nat → List Cell → List Cell) (player : Int) (s : Sim) :
    monteCarloChildren rng [] player s = ([], s) := by
  rw [monteCarloChildren]

theorem monteCarloChildren_cons (rng : Nat → List Cell → List Cell) (c : TreeNode)
    (cs : List TreeNode) (player : Int) (s : Sim) :
    monteCarloChildren rng (c :: cs) player s =
      ((monteCarlo rng false c player s).1 ::
          (monteCarloChildren rng cs player (monteCarlo rng false c player s).2).1,
        (monteCarloChildren rng cs player (monteCarlo rng false c player s).2).2) := by
  rw [monteCarloChildren]

theorem fitsNode_mk (row col : Int) (p1 p2 : Nat) (cs : List TreeNode)
    (free : Int → Int → Prop) :
    FitsNode ⟨row, col, p1, p2, cs⟩ free ↔
      free row col ∧ FitsChildren cs (fun a b => free a b ∧ ¬ (a = row ∧ b = col)) := by
  rw [FitsNode]

theorem fitsChildren_cons (c : TreeNode) (cs : List TreeNode) (free : Int → Int → Prop) :
    FitsChildren (c :: cs) free ↔ FitsNode c free ∧ FitsChildren cs free := by
  rw [FitsChildren]

/-- The descent of `monteCarlo` puts every cell back and leaves no recorded winner. -/
theorem monteCarlo_restores (rng : Nat → List Cell → List Cell) (hrng : IsShuffle rng) :
    (∀ (node : TreeNode) (isRoot : Bool) (player : Int) (s : Sim), player ≠ 0 →
      ((isRoot = true ∧ FitsChildren node.children (freeCells s.graph)) ∨
        (isRoot = false ∧ FitsNode node (freeCells s.graph))) →
      (monteCarlo rng isRoot node player s).2.graph = { s.graph with winner := 0 }) ∧
    (∀ (cs : List TreeNode) (player : Int) (s : Sim), player ≠ 0 →
      FitsChildren cs (freeCells s.graph) →
      (monteCarloChildren rng cs player s).2.graph =
        { s.graph with winner := if cs.length = 0 then s.graph.winner else 0 }) := by
  apply TreeNode.induction
  · intro row col p1 p2 cs ihcs isRoot player s hpl hfit
    have hfit1 : FitsChildren cs (freeCells (enterNode isRoot row col player s).graph) := by
      rcases hfit with ⟨hr, h⟩ | ⟨hr, h⟩
      · subst hr; exact h
      · subst hr
        rw [fitsNode_mk] at h
        exact fitsChildren_congr cs _ _
          (fun a b => (freeCells_setVal s.graph row col player hpl a b).symm) h.2
    have hfree : isRoot = false → s.graph.myGraph row col = 0 := by
      intro hr
      rcases hfit with ⟨hr', _⟩ | ⟨_, h⟩
      · rw [hr] at hr'; cases hr'
      · rw [fitsNode_mk] at h; exact h.1
    have hleave : ∀ t : Sim,
        t.graph = { (enterNode isRoot row col player s).graph with winner := 0 } →
        (leaveNode isRoot row col t).graph = { s.graph with winner := 0 } := by
      intro t ht
      cases isRoot with
      | true => simpa [leaveNode, enterNode] using ht
      | false =>
        simp only [leaveNode, enterNode, Bool.false_eq_true, if_false] at ht ⊢
        rw [ht]
        have := setVal_restore s.graph row col player (hfree rfl)
        apply Graph.ext_fields
        · rfl
        · rfl
        · rfl
        · intro a b
          have h := congrArg (fun (h : Graph) => h.myGraph a b) this
          exact h
    cases cs with
    | nil =>
      rw [monteCarlo_leaf]
      exact hleave _ (runTrials_spec rng hrng _ _ _).1
    | cons c cs =>
      rw [monteCarlo_inner]
      apply hleave
      have := ihcs (switchPlayer player) (enterNode isRoot row col player s)
        (switchPlayer_ne_zero _) hfit1
      simpa using this
  · intro player s _ _
    rw [monteCarloChildren_nil]
    simp
  · intro c cs ihc ihcs player s hpl hfit
    rw [fitsChildren_cons] at hfit
    rw [monteCarloChildren_cons]
    simp only
    have h1 := ihc false player s hpl (Or.inr ⟨rfl, hfit.1⟩)
    have h2 := ihcs player (monteCarlo rng false c player s).2 hpl (by rw [h1]; exact hfit.2)
    rw [h2, h1]
    apply Graph.ext_fields
    · rfl
    · rfl
    · simp
    · intro a b; rfl

theorem fitsChildren_map (g1 : Graph) (f : Cell → TreeNode)
    (hf : ∀ mv : Cell, g1.myGraph mv.1 mv.2 = 0 → FitsNode (f mv) (freeCells g1)) :
    ∀ (l : List Cell), (∀ mv ∈ l, g1.myGraph mv.1 mv.2 = 0) →
      FitsChildren (l.map f) (freeCells g1) := by
  intro l
  induction l with
  | nil => intro _; rw [List.map_nil, FitsChildren]; trivial
  | cons mv l ih =>
    intro hl
    rw [List.map_cons, fitsChildren_cons]
    exact ⟨hf mv (hl mv (List.mem_cons_self _ _)),
      ih (fun x hx => hl x (List.mem_cons_of_mem _ hx))⟩

theorem createTree_coords (d : Nat) (isRoot : Bool) (node : TreeNode) (g : Graph)
    (hpre : isRoot = true ∨ g.myGraph node.row node.col = 0) :
    (createTree d isRoot node g).2.row = node.row ∧
      (createTree d isRoot node g).2.col = node.col := by
  cases d with
  | zero => exact ⟨rfl, rfl⟩
  | succ d =>
    rw [(createTree_spec d isRoot node g hpre).2.2]
    exact ⟨rfl, rfl⟩

/-- The subtree built below a free cell fits the graph. -/
theorem createTree_fits :
    ∀ (d : Nat) (mv : Cell) (g : Graph), g.myGraph mv.1 mv.2 = 0 →
      FitsNode (createTree d false (TreeNode.fresh mv.1 mv.2) g).2 (freeCells g) := by
  intro d
  induction d with
  | zero =>
    intro mv g h
    show FitsNode (TreeNode.fresh mv.1 mv.2) (freeCells g)
    unfold TreeNode.fresh
    rw [fitsNode_mk, FitsChildren]
    exact ⟨h, trivial⟩
  | succ d ih =>
    intro mv g h
    rw [(createTree_spec d false (TreeNode.fresh mv.1 mv.2) g (Or.inr h)).2.2]
    simp only [TreeNode.fresh, Bool.false_eq_true, if_false, List.nil_append]
    rw [fitsNode_mk]
    refine ⟨h, ?_⟩
    apply fitsChildren_congr _ (freeCells (g.setVal mv.1 mv.2 1))
    · intro a b
      exact freeCells_setVal g mv.1 mv.2 1 (by norm_num) a b
    · exact fitsChildren_map _ _ (fun mv' h' => ih mv' _ h') _
        (fun mv' h' => ((mem_nextMoves _ mv').1 h').2)

/-- `Tree::Tree(g)` leaves the graph as it was; the root gets no child on a full board and
one child per free cell otherwise. -/
theorem tree_create_spec (g : Graph) :
    (Tree.create g).1 = g ∧ (Tree.create g).2.nextMove = none ∧
    (Tree.create g).2.depth = min MAX_DEPTH (nextMoves g).length ∧
    (Tree.create g).2.root.children =
      (if (Tree.create g).2.depth = 0 then []
       else (nextMoves g).map (fun mv =>
        (createTree ((Tree.create g).2.depth - 1) false (TreeNode.fresh mv.1 mv.2) g).2)) ∧
    FitsChildren (Tree.create g).2.root.children (freeCells g) := by
  have hd : (Tree.create g).2.depth = min MAX_DEPTH (nextMoves g).length := tree_depth_eq g
  have hroot : (Tree.create g).2.root =
      (createTree (Tree.create g).2.depth true (TreeNode.fresh 0 0) g).2 := rfl
  have hg : (Tree.create g).1 =
      (createTree (Tree.create g).2.depth true (TreeNode.fresh 0 0) g).1 := rfl
  have hch : (Tree.create g).2.root.children =
      (if (Tree.create g).2.depth = 0 then []
       else (nextMoves g).map (fun mv =>
        (createTree ((Tree.create g).2.depth - 1) false (TreeNode.fresh mv.1 mv.2) g).2)) := by
    rw [hroot]
    cases hdep : (Tree.create g).2.depth with
    | zero => rfl
    | succ d =>
      rw [(createTree_spec d true (TreeNode.fresh 0 0) g (Or.inl rfl)).2.2]
      simp [TreeNode.fresh]
  refine ⟨?_, rfl, hd, hch, ?_⟩
  · rw [hg]
    exact (createTree_spec _ true (TreeNode.fresh 0 0) g (Or.inl rfl)).1
  · rw [hch]
    split_ifs
    · rw [FitsChildren]; trivial
    · exact fitsChildren_map g _ (fun mv h => createTree_fits _ mv g h) _
        (fun mv h => ((mem_nextMoves _ mv).1 h).2)

theorem trialLoop_node (rng : Nat → List Cell → List Cell) (player : Int) :
    ∀ (n : Nat) (moves : List Cell) (node : TreeNode) (s : Sim),
      (trialLoop rng player n moves node s).2.1.row = node.row ∧
      (trialLoop rng player n moves node s).2.1.col = node.col ∧
      (trialLoop rng player n moves node s).2.1.children = node.children := by
  intro n
  induction n with
  | zero => intro moves node s; exact ⟨rfl, rfl, rfl⟩
  | succ n ih =>
    intro moves node s
    unfold trialLoop
    simp only
    obtain ⟨i1, i2, i3⟩ := ih (rng s.shuffles moves)
      (node.addResult (if (checkForWinner (playOut (rng s.shuffles moves) player s.graph) 1).2
        then 1 else 2))
      { graph := (checkForWinner (playOut (rng s.shuffles moves) player s.graph) 1).1,
        shuffles := s.shuffles + 1 }
    obtain ⟨a1, a2, a3, _⟩ := addResult_fields node
      (if (checkForWinner (playOut (rng s.shuffles moves) player s.graph) 1).2 then 1 else 2)
    exact ⟨i1.trans a1, i2.trans a2, i3.trans a3⟩

theorem runTrials_node (rng : Nat → List Cell → List Cell) (node : TreeNode) (player : Int)
    (s : Sim) :
    (runTrials rng node player s).1.row = node.row ∧
    (runTrials rng node player s).1.col = node.col ∧
    (runTrials rng node player s).1.children = node.children :=
  trialLoop_node rng player MAX_TRIALS (nextMoves s.graph) node s

theorem monteCarlo_coords (rng : Nat → List Cell → List Cell) (isRoot : Bool)
    (node : TreeNode) (player : Int) (s : Sim) :
    (monteCarlo rng isRoot node player s).1.row = node.row ∧
    (monteCarlo rng isRoot node player s).1.col = node.col ∧
    (monteCarlo rng isRoot node player s).1.children =
      (monteCarloChildren rng node.children (switchPlayer player)
        (enterNode isRoot node.row node.col player s)).1 := by
  obtain ⟨row, col, p1, p2, cs⟩ := node
  cases cs with
  | nil =>
    rw [monteCarlo_leaf, monteCarloChildren_nil]
    exact runTrials_node rng _ _ _
  | cons c cs =>
    rw [monteCarlo_inner]
    exact ⟨rfl, rfl, rfl⟩

theorem monteCarloChildren_coords (rng : Nat → List Cell → List Cell) :
    ∀ (cs : List TreeNode) (player : Int) (s : Sim),
      (monteCarloChildren rng cs player s).1.map (fun c => (c.row, c.col)) =
        cs.map (fun c => (c.row, c.col)) := by
  intro cs
  induction cs with
  | nil => intro player s; rw [monteCarloChildren_nil]
  | cons c cs ih =>
    intro player s
    rw [monteCarloChildren_cons]
    simp only [List.map_cons]
    rw [ih, (monteCarlo_coords rng false c player s).1, (monteCarlo_coords rng false c player s).2.1]

theorem getProb_nonneg (node : TreeNode) (p : Int) : 0 ≤ node.getProb p := by
  unfold TreeNode.getProb
  positivity

theorem minMax_mk (row col : Int) (p1 p2 : Nat) (cs : List TreeNode) (b : Bool) (p : Int)
    (d : Nat) (nm : Option TreeNode) :
    minMax ⟨row, col, p1, p2, cs⟩ b p d nm =
      if d = MAX_DEPTH then (TreeNode.getProb ⟨row, col, p1, p2, cs⟩ p, nm)
      else if b then maxLoop cs p d (-1) nm else minLoop cs p d 2 nm := by
  rw [minMax]

theorem minMax_eq (node : TreeNode) (b : Bool) (p : Int) (d : Nat) (nm : Option TreeNode) :
    minMax node b p d nm =
      if d = MAX_DEPTH then (node.getProb p, nm)
      else if b then maxLoop node.children p d (-1) nm else minLoop node.children p d 2 nm := by
  obtain ⟨row, col, p1, p2, cs⟩ := node
  exact minMax_mk _ _ _ _ _ _ _ _ _

theorem minLoop_nil (p : Int) (d : Nat) (v : ℚ) (nm : Option TreeNode) :
    minLoop [] p d v nm = (v, nm) := by
  rw [minLoop]

theorem minLoop_cons (c : TreeNode) (cs : List TreeNode) (p : Int) (d : Nat) (v : ℚ)
    (nm : Option TreeNode) :
    minLoop (c :: cs) p d v nm =
      minLoop cs p d (min v (minMax c true p (d + 1) nm).1) (minMax c true p (d + 1) nm).2 := by
  rw [minLoop]

theorem maxLoop_nil (p : Int) (d : Nat) (v : ℚ) (nm : Option TreeNode) :
    maxLoop [] p d v nm = (v, nm) := by
  rw [maxLoop]

theorem maxLoop_cons (c : TreeNode) (cs : List TreeNode) (p : Int) (d : Nat) (v : ℚ)
    (nm : Option TreeNode) :
    maxLoop (c :: cs) p d v nm =
      if (minMax c false p (d + 1) nm).1 > v then
        maxLoop cs p d (minMax c false p (d + 1) nm).1
          (if d = 0 then some c else (minMax c false p (d + 1) nm).2)
      else maxLoop cs p d v (minMax c false p (d + 1) nm).2 := by
  rw [maxLoop]

/-- The minimizing loop one ply below the root: the running minimum of the children's
probabilities; `nextMove` is not touched. -/
theorem minLoop_depth_one (p : Int) :
    ∀ (cs : List TreeNode) (v : ℚ) (nm : Option TreeNode),
      minLoop cs p 1 v nm = (cs.foldl (fun acc c => min acc (c.getProb p)) v, nm) := by
  intro cs
  induction cs with
  | nil => intro v nm; rw [minLoop_nil]; rfl
  | cons c cs ih =>
    intro v nm
    rw [minLoop_cons, minMax_eq]
    simp only [MAX_DEPTH, if_true, List.foldl_cons]
    exact ih _ _

theorem foldl_min_nonneg (p : Int) :
    ∀ (cs : List TreeNode) (v : ℚ), 0 ≤ v →
      0 ≤ cs.foldl (fun acc c => min acc (c.getProb p)) v := by
  intro cs
  induction cs with
  | nil => intro v hv; exact hv
  | cons c cs ih =>
    intro v hv
    exact ih _ (le_min hv (getProb_nonneg c p))

theorem minMax_child (c : TreeNode) (p : Int) (nm : Option TreeNode) :
    minMax c false p 1 nm = (c.children.foldl (fun acc c => min acc (c.getProb p)) 2, nm) := by
  rw [minMax_eq]
  simp only [MAX_DEPTH, Bool.false_eq_true, if_false]
  rw [if_neg (by norm_num)]
  exact minLoop_depth_one p _ _ _

theorem maxLoop_root_mem (p : Int) :
    ∀ (cs : List TreeNode) (v : ℚ) (nm : Option TreeNode),
      (maxLoop cs p 0 v nm).2 = nm ∨ ∃ c ∈ cs, (maxLoop cs p 0 v nm).2 = some c := by
  intro cs
  induction cs with
  | nil => intro v nm; left; rw [maxLoop_nil]
  | cons c cs ih =>
    intro v nm
    rw [maxLoop_cons, minMax_child]
    simp only [if_true]
    split_ifs
    · rcases ih (c.children.foldl (fun acc c => min acc (c.getProb p)) 2) (some c) with h | ⟨c', hc', h⟩
      · right; exact ⟨c, List.mem_cons_self _ _, h⟩
      · right; exact ⟨c', List.mem_cons_of_mem _ hc', h⟩
    · rcases ih v nm with h | ⟨c', hc', h⟩
      · left; exact h
      · right; exact ⟨c', List.mem_cons_of_mem _ hc', h⟩

/-- At the root the maximizing loop always selects one of the children when there is one. -/
theorem maxLoop_root_selects (p : Int) (c : TreeNode) (cs : List TreeNode)
    (nm : Option TreeNode) :
    ∃ c' ∈ c :: cs, (maxLoop (c :: cs) p 0 (-1) nm).2 = some c' := by
  rw [maxLoop_cons, minMax_child]
  simp only [if_true]
  have h0 := foldl_min_nonneg p c.children 2 (by norm_num)
  rw [if_pos (by linarith)]
  rcases maxLoop_root_mem p cs (c.children.foldl (fun acc c => min acc (c.getProb p)) 2)
    (some c) with h | ⟨c', hc', h⟩
  · exact ⟨c, List.mem_cons_self _ _, h⟩
  · exact ⟨c', List.mem_cons_of_mem _ hc', h⟩

theorem isLegal_eq (g : Graph) (row col : Int) :
    g.isLegal row col =
      some (decide (0 ≤ row ∧ row < g.rows ∧ 0 ≤ col ∧ col < g.cols ∧ g.myGraph row col = 0)) := by
  unfold Graph.isLegal Graph.readVal InGrid
  by_cases h1 : row ≥ 0 <;> by_cases h2 : col ≥ 0 <;> by_cases h3 : row < g.rows <;>
    by_cases h4 : col < g.cols <;> simp [h1, h2, h3, h4]

theorem isLegal_of_mem_nextMoves (g : Graph) (mv : Cell) (h : mv ∈ nextMoves g) :
    g.isLegal mv.1 mv.2 = some true := by
  rw [isLegal_eq]
  obtain ⟨⟨h1, h2, h3, h4⟩, h5⟩ := (mem_nextMoves g mv).1 h
  simp [h1, h2, h3, h4, h5]

theorem computeNextMove_eq (rng : Nat → List Cell → List Cell) (k : Nat) (g : Graph) (p : Int) :
    computeNextMove rng k g p =
      Tree.getNextMove rng (Tree.create g).2 p { graph := (Tree.create g).1, shuffles := k } :=
  rfl

theorem getNextMove_coords (rng : Nat → List Cell → List Cell) (t : Tree) (p : Int) (s : Sim) :
    (Tree.getNextMove rng t p s).coords =
      readNextMove (maxLoop (monteCarlo rng true t.root (switchPlayer p) s).1.children p 0 (-1)
          t.nextMove).2 := by
  unfold Tree.getNextMove
  simp only
  rw [minMax_eq, if_neg (by simp [MAX_DEPTH]), if_pos rfl]

/-- On a board with a free cell, the move handed back is one of the free cells. -/
theorem computeNextMove_selects (rng : Nat → List Cell → List Cell) (k : Nat) (g : Graph)
    (p : Int) (h : nextMoves g ≠ []) :
    ∃ mv ∈ nextMoves g, (computeNextMove rng k g p).coords = Outcome.returned mv := by
  obtain ⟨hg, hnm, hd, hch, _⟩ := tree_create_spec g
  have hlen : 0 < (nextMoves g).length := List.length_pos.2 h
  have hd0 : (Tree.create g).2.depth ≠ 0 := by
    rw [hd]; simp only [MAX_DEPTH]; omega
  rw [if_neg hd0] at hch
  rw [computeNextMove_eq, getNextMove_coords, hnm]
  have hc := (monteCarlo_coords rng true (Tree.create g).2.root (switchPlayer p)
    { graph := (Tree.create g).1, shuffles := k }).2.2
  have hmap := monteCarloChildren_coords rng (Tree.create g).2.root.children
    (switchPlayer (switchPlayer p))
    (enterNode true (Tree.create g).2.root.row (Tree.create g).2.root.col (switchPlayer p)
      { graph := (Tree.create g).1, shuffles := k })
  rw [← hc] at hmap
  have hcoords : (Tree.create g).2.root.children.map (fun c => (c.row, c.col)) = nextMoves g := by
    rw [hch, List.map_map]
    conv_rhs => rw [← List.map_id (nextMoves g)]
    apply List.map_congr_left
    intro mv hmv
    have := createTree_coords ((Tree.create g).2.depth - 1) false (TreeNode.fresh mv.1 mv.2) g
      (Or.inr ((mem_nextMoves g mv).1 hmv).2)
    simp only [Function.comp, id]
    rw [this.1, this.2]
    rfl
  rw [hcoords] at hmap
  cases hcs : (monteCarlo rng true (Tree.create g).2.root (switchPlayer p)
      { graph := (Tree.create g).1, shuffles := k }).1.children with
  | nil =>
    rw [hcs] at hmap
    simp only [List.map_nil] at hmap
    exact absurd hmap.symm h
  | cons c cs =>
    obtain ⟨c', hc', hsel⟩ := maxLoop_root_selects p c cs none
    rw [hsel]
    refine ⟨(c'.row, c'.col), ?_, rfl⟩
    rw [← hmap, hcs]
    exact List.mem_map.2 ⟨c', hc', rfl⟩

/-- On a board without a free cell no move is selected. -/
theorem computeNextMove_full (rng : Nat → List Cell → List Cell) (k : Nat) (g : Graph)
    (p : Int) (h : nextMoves g = []) :
    (computeNextMove rng k g p).coords = Outcome.undefinedBehaviour ∧
    (computeNextMove rng k g p).tree.nextMove = none ∧
    (computeNextMove rng k g p).tree.root.children = [] := by
  obtain ⟨hg, hnm, hd, hch, _⟩ := tree_create_spec g
  have hd0 : (Tree.create g).2.depth = 0 := by
    rw [hd, h]; rfl
  rw [if_pos hd0] at hch
  have hc := (monteCarlo_coords rng true (Tree.create g).2.root (switchPlayer p)
    { graph := (Tree.create g).1, shuffles := k }).2.2
  rw [hch, monteCarloChildren_nil] at hc
  have hco : (computeNextMove rng k g p).coords = Outcome.undefinedBehaviour := by
    rw [computeNextMove_eq, getNextMove_coords, hnm, hc, maxLoop_nil]
    rfl
  have hnm' : (computeNextMove rng k g p).tree.nextMove = none := by
    rw [computeNextMove_eq]
    unfold Tree.getNextMove
    simp only
    rw [minMax_eq, if_neg (by simp [MAX_DEPTH]), if_pos rfl, hc, maxLoop_nil, hnm]
  exact ⟨hco, hnm', hc⟩

theorem computeNextMove_graph (rng : Nat → List Cell → List Cell) (hrng : IsShuffle rng)
    (k : Nat) (g : Graph) (p : Int) :
    (computeNextMove rng k g p).sim.graph = { g with winner := 0 } := by
  obtain ⟨hg, _, _, _, hfit⟩ := tree_create_spec g
  rw [computeNextMove_eq]
  unfold Tree.getNextMove
  simp only
  have := (monteCarlo_restores rng hrng).1 (Tree.create g).2.root true (switchPlayer p)
    { graph := (Tree.create g).1, shuffles := k } (switchPlayer_ne_zero p)
    (Or.inl ⟨rfl, by simpa [hg] using hfit⟩)
  rw [this, hg]

/-! ## The game of Y -/

theorem yAdj_symm {u v : Cell} (h : YAdj u v) : YAdj v u := by
  obtain ⟨a, b⟩ := u
  obtain ⟨c, d⟩ := v
  simp only [YAdj, Prod.mk.injEq] at h ⊢
  rcases h with ⟨rfl, rfl⟩ | ⟨rfl, rfl⟩ | ⟨rfl, rfl⟩ | ⟨rfl, rfl⟩ | ⟨rfl, rfl⟩ | ⟨rfl, rfl⟩ <;> simp

theorem yStep_symm {n : Int} {f : Cell → Bool} {x : Bool} {u v : Cell}
    (h : YStep n f x u v) : YStep n f x v u :=
  ⟨h.2.1, h.1, h.2.2.2.1, h.2.2.1, yAdj_symm h.2.2.2.2⟩

theorem yConn_symm {n : Int} {f : Cell → Bool} {x : Bool} {u v : Cell}
    (h : YConn n f x u v) : YConn n f x v u :=
  Relation.ReflTransGen.symmetric (fun _ _ h => yStep_symm h) h

theorem yConn_trans {n : Int} {f : Cell → Bool} {x : Bool} {u v w : Cell}
    (h : YConn n f x u v) (h' : YConn n f x v w) : YConn n f x u w :=
  Relation.ReflTransGen.trans h h'

theorem yConn_of_near {n : Int} {f : Cell → Bool} {x : Bool} {u v : Cell}
    (hu : InTri n u) (hv : InTri n v) (fu : f u = x) (fv : f v = x) (h : Near u v) :
    YConn n f x u v := by
  rcases h with h | h
  · subst h; exact Relation.ReflTransGen.refl
  · exact Relation.ReflTransGen.single ⟨hu, hv, fu, fv, h⟩

theorem majority_eq_iff (a b c x : Bool) :
    majority a b c = x ↔ (a = x ∧ b = x) ∨ (a = x ∧ c = x) ∨ (b = x ∧ c = x) := by
  cases a <;> cases b <;> cases c <;> cases x <;> simp [majority]

theorem covers_inTri {n : Int} {t u : Cell} (ht : InTri n t) (h : Covers t u) :
    InTri (n + 1) u := by
  obtain ⟨a, b⟩ := t
  obtain ⟨c, d⟩ := u
  simp only [Covers, InTri, Prod.mk.injEq] at *
  omega

theorem covers_near {t u v : Cell} (hu : Covers t u) (hv : Covers t v) : Near u v := by
  obtain ⟨a, b⟩ := t
  rcases hu with rfl | rfl | rfl <;> rcases hv with rfl | rfl | rfl <;> simp [Near, YAdj]

/-- In a small triangle of majority colour `x`, a cell other than one of another colour has
colour `x`. -/
theorem covers_majority {f : Cell → Bool} {x : Bool} {t s p : Cell}
    (ht : reduceY f t = x) (hs : Covers t s) (hp : Covers t p) (hne : p ≠ s) (fs : f s ≠ x) :
    f p = x := by
  obtain ⟨a, b⟩ := t
  simp only [reduceY, majority_eq_iff] at ht
  simp only [Covers] at hs hp
  rcases hs with rfl | rfl | rfl <;> rcases hp with rfl | rfl | rfl <;>
    first
    | exact absurd rfl hne
    | tauto

theorem exists_cover {f : Cell → Bool} {x : Bool} {t : Cell} (ht : reduceY f t = x) :
    ∃ u, Covers t u ∧ f u = x := by
  obtain ⟨a, b⟩ := t
  simp only [reduceY, majority_eq_iff] at ht
  rcases ht with h | h | h
  · exact ⟨(a, b), Or.inl rfl, h.1⟩
  · exact ⟨(a, b), Or.inl rfl, h.1⟩
  · exact ⟨(a + 1, b), Or.inr (Or.inl rfl), h.1⟩

/-- Two small triangles of majority colour `x` that share the cell `s` and have a further
pair of near cells `p`, `q`: their cells of colour `x` are connected. -/
theorem link {n : Int} {f : Cell → Bool} {x : Bool} {t t' s p q u u' : Cell}
    (hT : InTri n t) (hT' : InTri n t') (ht : reduceY f t = x) (ht' : reduceY f t' = x)
    (hs : Covers t s) (hs' : Covers t' s) (hp : Covers t p) (hq : Covers t' q)
    (hps : p ≠ s) (hqs : q ≠ s) (hpq : Near p q)
    (hu : Covers t u) (fu : f u = x) (hu' : Covers t' u') (fu' : f u' = x) :
    YConn (n + 1) f x u u' := by
  by_cases fs : f s = x
  · exact yConn_trans
      (yConn_of_near (covers_inTri hT hu) (covers_inTri hT hs) fu fs (covers_near hu hs))
      (yConn_of_near (covers_inTri hT' hs') (covers_inTri hT' hu') fs fu' (covers_near hs' hu'))
  · have fp := covers_majority ht hs hp hps fs
    have fq := covers_majority ht' hs' hq hqs fs
    exact yConn_trans
      (yConn_of_near (covers_inTri hT hu) (covers_inTri hT hp) fu fp (covers_near hu hp))
      (yConn_trans
        (yConn_of_near (covers_inTri hT hp) (covers_inTri hT' hq) fp fq hpq)
        (yConn_of_near (covers_inTri hT' hq) (covers_inTri hT' hu') fq fu' (covers_near hq hu')))

/-- Cells of colour `x` in two near small triangles of majority colour `x` are connected on
the larger board. -/
theorem lift_near {n : Int} {f : Cell → Bool} {x : Bool} {t t' u u' : Cell}
    (hT : InTri n t) (hT' : InTri n t') (ht : reduceY f t = x) (ht' : reduceY f t' = x)
    (hnear : Near t t')
    (hu : Covers t u) (fu : f u = x) (hu' : Covers t' u') (fu' : f u' = x) :
    YConn (n + 1) f x u u' := by
  rcases hnear with h | h
  · subst h
    exact yConn_of_near (covers_inTri hT hu) (covers_inTri hT hu') fu fu' (covers_near hu hu')
  · obtain ⟨a, b⟩ := t
    have cov : ∀ {t s : Cell}, (s = t ∨ s = (t.1 + 1, t.2) ∨ s = (t.1, t.2 + 1)) → Covers t s :=
      fun h => h
    rcases h with h | h | h | h | h | h <;> subst h
    · -- t' = (a, b + 1)
      exact link (s := (a, b + 1)) (p := (a + 1, b)) (q := (a + 1, b + 1)) hT hT' ht ht'
        (cov (by simp)) (cov (by simp)) (cov (by simp)) (cov (by simp))
        (by simp) (by simp) (by simp [Near, YAdj]) hu fu hu' fu'
    · -- t' = (a, b - 1)
      apply yConn_symm
      exact link (s := (a, b)) (p := (a + 1, b - 1)) (q := (a + 1, b)) hT' hT ht' ht
        (cov (by simp)) (cov (by simp)) (cov (by simp)) (cov (by simp))
        (by simp) (by simp) (by simp [Near, YAdj]) hu' fu' hu fu
    · -- t' = (a - 1, b)
      apply yConn_symm
      exact link (s := (a, b)) (p := (a - 1, b + 1)) (q := (a, b + 1)) hT' hT ht' ht
        (cov (by simp)) (cov (by simp)) (cov (by simp)) (cov (by simp))
        (by simp) (by simp) (by simp [Near, YAdj]) hu' fu' hu fu
    · -- t' = (a - 1, b + 1)
      apply yConn_symm
      exact link (s := (a, b + 1)) (p := (a - 1, b + 1)) (q := (a, b)) hT' hT ht' ht
        (cov (by simp)) (cov (by simp)) (cov (by simp)) (cov (by simp))
        (by simp) (by simp) (by simp [Near, YAdj]) hu' fu' hu fu
    · -- t' = (a + 1, b - 1)
      exact link (s := (a + 1, b)) (p := (a, b)) (q := (a + 1, b - 1)) hT hT' ht ht'
        (cov (by simp)) (cov (by simp)) (cov (by simp)) (cov (by simp))
        (by simp) (by simp) (by simp [Near, YAdj]) hu fu hu' fu'
    · -- t' = (a + 1, b)
      exact link (s := (a + 1, b)) (p := (a, b + 1)) (q := (a + 1, b + 1)) hT hT' ht ht'
        (cov (by simp)) (cov (by simp)) (cov (by simp)) (cov (by simp))
        (by simp) (by simp) (by simp [Near, YAdj]) hu fu hu' fu'

/-- A connection on the reduced board lifts to the larger board. -/
theorem lift_conn {n : Int} {f : Cell → Bool} {x : Bool} {t t' : Cell}
    (h : YConn n (reduceY f) x t t') (hT : InTri n t) (ht : reduceY f t = x) :
    InTri n t' ∧ reduceY f t' = x ∧
    ∀ u u', Covers t u → f u = x → Covers t' u' → f u' = x → YConn (n + 1) f x u u' := by
  induction h with
  | refl =>
    refine ⟨hT, ht, ?_⟩
    intro u u' hu fu hu' fu'
    exact lift_near hT hT ht ht (Or.inl rfl) hu fu hu' fu'
  | tail _ hstep ih =>
    obtain ⟨hM, hm, ihc⟩ := ih
    obtain ⟨_, hT', _, ht', hadj⟩ := hstep
    refine ⟨hT', ht', ?_⟩
    intro u u' hu fu hu' fu'
    obtain ⟨w, hw, fw⟩ := exists_cover hm
    exact yConn_trans (ihc u w hu fu hw fw)
      (lift_near hM hT' hm ht' (Or.inr hadj) hw fw hu' fu')

theorem exists_cover_top {f : Cell → Bool} {x : Bool} {t : Cell} (ht : reduceY f t = x)
    (h0 : t.1 = 0) : ∃ u, Covers t u ∧ f u = x ∧ u.1 = 0 := by
  obtain ⟨a, b⟩ := t
  simp only at h0
  subst h0
  simp only [reduceY, majority_eq_iff] at ht
  rcases ht with h | h | h
  · exact ⟨(0, b), Or.inl rfl, h.1, rfl⟩
  · exact ⟨(0, b), Or.inl rfl, h.1, rfl⟩
  · exact ⟨(0, b + 1), Or.inr (Or.inr rfl), h.2, rfl⟩

theorem exists_cover_left {f : Cell → Bool} {x : Bool} {t : Cell} (ht : reduceY f t = x)
    (h0 : t.2 = 0) : ∃ u, Covers t u ∧ f u = x ∧ u.2 = 0 := by
  obtain ⟨a, b⟩ := t
  simp only at h0
  subst h0
  simp only [reduceY, majority_eq_iff] at ht
  rcases ht with h | h | h
  · exact ⟨(a, 0), Or.inl rfl, h.1, rfl⟩
  · exact ⟨(a, 0), Or.inl rfl, h.1, rfl⟩
  · exact ⟨(a + 1, 0), Or.inr (Or.inl rfl), h.1, rfl⟩

theorem exists_cover_hyp {n : Int} {f : Cell → Bool} {x : Bool} {t : Cell}
    (ht : reduceY f t = x) (h0 : t.1 + t.2 = n - 1) :
    ∃ u, Covers t u ∧ f u = x ∧ u.1 + u.2 = n + 1 - 1 := by
  obtain ⟨a, b⟩ := t
  simp only at h0
  simp only [reduceY, majority_eq_iff] at ht
  rcases ht with h | h | h
  · exact ⟨(a + 1, b), Or.inr (Or.inl rfl), h.2, by simp only; omega⟩
  · exact ⟨(a, b + 1), Or.inr (Or.inr rfl), h.2, by simp only; omega⟩
  · exact ⟨(a + 1, b), Or.inr (Or.inl rfl), h.1, by simp only; omega⟩

/-- A winner of the reduced board wins the larger board. -/
theorem yWin_lift {n : Int} {f : Cell → Bool} {x : Bool} (h : YWin n (reduceY f) x) :
    YWin (n + 1) f x := by
  obtain ⟨a, b, c, ⟨ha, fa, sa⟩, ⟨hb, fb, sb⟩, ⟨hc, fc, sc⟩, hab, hac⟩ := h
  obtain ⟨ua, ca, fua, sua⟩ := exists_cover_top fa sa
  obtain ⟨ub, cb, fub, sub⟩ := exists_cover_left fb sb
  obtain ⟨uc, cc, fuc, suc⟩ := exists_cover_hyp fc sc
  exact ⟨ua, ub, uc, ⟨covers_inTri ha ca, fua, sua⟩, ⟨covers_inTri hb cb, fub, sub⟩,
    ⟨covers_inTri hc cc, fuc, suc⟩,
    (lift_conn hab ha fa).2.2 ua ub ca fua cb fub,
    (lift_conn hac ha fa).2.2 ua uc ca fua cc fuc⟩

/-- An edge of colour `x` lies in a small triangle of majority colour `x`. -/
theorem edge_cover {n : Int} {f : Cell → Bool} {x : Bool} {u v : Cell}
    (h : YStep (n + 1) f x u v) :
    ∃ t, InTri n t ∧ reduceY f t = x ∧ Covers t u ∧ Covers t v := by
  obtain ⟨a, b⟩ := u
  obtain ⟨hu, hv, fu, fv, hadj⟩ := h
  have cov : ∀ {t s : Cell}, (s = t ∨ s = (t.1 + 1, t.2) ∨ s = (t.1, t.2 + 1)) → Covers t s :=
    fun h => h
  simp only [InTri] at hu
  rcases hadj with h | h | h | h | h | h <;> subst h <;> simp only [InTri] at hv
  · refine ⟨(a, b), ⟨by simp only; omega, by simp only; omega, by simp only; omega⟩, ?_,
      cov (by simp), cov (by simp)⟩
    simp only [reduceY, majority_eq_iff]
    exact Or.inr (Or.inl ⟨fu, fv⟩)
  · refine ⟨(a, b - 1), ⟨by simp only; omega, by simp only; omega, by simp only; omega⟩, ?_,
      cov (by simp), cov (by simp)⟩
    simp only [reduceY, majority_eq_iff]
    refine Or.inr (Or.inl ⟨fv, ?_⟩)
    simpa using fu
  · refine ⟨(a - 1, b), ⟨by simp only; omega, by simp only; omega, by simp only; omega⟩, ?_,
      cov (by simp), cov (by simp)⟩
    simp only [reduceY, majority_eq_iff]
    refine Or.inl ⟨fv, ?_⟩
    simpa using fu
  · refine ⟨(a - 1, b), ⟨by simp only; omega, by simp only; omega, by simp only; omega⟩, ?_,
      cov (by simp), cov (by simp)⟩
    simp only [reduceY, majority_eq_iff]
    refine Or.inr (Or.inr ⟨?_, fv⟩)
    simpa using fu
  · refine ⟨(a, b - 1), ⟨by simp only; omega, by simp only; omega, by simp only; omega⟩, ?_,
      cov (by simp), cov (by simp)⟩
    simp only [reduceY, majority_eq_iff]
    refine Or.inr (Or.inr ⟨fv, ?_⟩)
    simpa using fu
  · refine ⟨(a, b), ⟨by simp only; omega, by simp only; omega, by simp only; omega⟩, ?_,
      cov (by simp), cov (by simp)⟩
    simp only [reduceY, majority_eq_iff]
    exact Or.inl ⟨fu, fv⟩

/-- Small triangles that cover a common cell are equal or adjacent. -/
theorem covers_common_near {t t' w : Cell} (h : Covers t w) (h' : Covers t' w) : Near t t' := by
  obtain ⟨a, b⟩ := t
  obtain ⟨c, d⟩ := t'
  rcases h with rfl | rfl | rfl <;>
    simp only [Covers, Prod.mk.injEq] at h' <;>
    rcases h' with ⟨h1, h2⟩ | ⟨h1, h2⟩ | ⟨h1, h2⟩ <;>
    simp only [Near, YAdj, Prod.mk.injEq] <;> omega

/-- A connection on the larger board projects to the reduced board. -/
theorem project_conn {n : Int} {f : Cell → Bool} {x : Bool} {u v : Cell}
    (h : YConn (n + 1) f x u v) :
    ∀ t t', InTri n t → reduceY f t = x → Covers t u →
      InTri n t' → reduceY f t' = x → Covers t' v → YConn n (reduceY f) x t t' := by
  induction h with
  | refl =>
    intro t t' hT ht hu hT' ht' hv
    exact yConn_of_near hT hT' ht ht' (covers_common_near hu hv)
  | tail _ hstep ih =>
    intro t t' hT ht hu hT' ht' hv
    obtain ⟨m, hM, hm, hmw, hmv⟩ := edge_cover hstep
    exact yConn_trans (ih t m hT ht hu hM hm hmw)
      (yConn_of_near hM hT' hm ht' (covers_common_near hmv hv))

/-- A cell connected to a different cell has an incident edge, hence a covering small
triangle of majority colour. -/
theorem cover_of_conn_ne {n : Int} {f : Cell → Bool} {x : Bool} {u v : Cell}
    (h : YConn (n + 1) f x u v) (hne : u ≠ v) :
    ∃ t, InTri n t ∧ reduceY f t = x ∧ Covers t u := by
  rcases Relation.ReflTransGen.cases_head h with h | ⟨w, hw, _⟩
  · exact absurd h hne
  · obtain ⟨t, hT, ht, hu, _⟩ := edge_cover hw
    exact ⟨t, hT, ht, hu⟩

/-- A winner of the larger board wins the reduced board. -/
theorem yWin_project {n : Int} {f : Cell → Bool} {x : Bool} (hn : 1 ≤ n)
    (h : YWin (n + 1) f x) : YWin n (reduceY f) x := by
  obtain ⟨a, b, c, ⟨ha, fa, sa⟩, ⟨hb, fb, sb⟩, ⟨hc, fc, sc⟩, hab, hac⟩ := h
  have hbc : YConn (n + 1) f x b c := yConn_trans (yConn_symm hab) hac
  -- each of the three cells has a covering small triangle
  have hta : ∃ t, InTri n t ∧ reduceY f t = x ∧ Covers t a := by
    by_cases h1 : a = c
    · have h2 : a ≠ b := by
        intro h2
        rw [← h1] at sc; rw [← h2] at sb
        omega
      exact cover_of_conn_ne hab h2
    · exact cover_of_conn_ne hac h1
  have htb : ∃ t, InTri n t ∧ reduceY f t = x ∧ Covers t b := by
    by_cases h1 : b = c
    · have h2 : b ≠ a := by
        intro h2
        rw [← h1] at sc; rw [← h2] at sa
        omega
      exact cover_of_conn_ne (yConn_symm hab) h2
    · exact cover_of_conn_ne hbc h1
  have htc : ∃ t, InTri n t ∧ reduceY f t = x ∧ Covers t c := by
    by_cases h1 : c = a
    · have h2 : c ≠ b := by
        intro h2
        rw [h1] at sc; rw [← h2, h1] at sb
        omega
      exact cover_of_conn_ne (yConn_symm hbc) h2
    · exact cover_of_conn_ne (yConn_symm hac) h1
  obtain ⟨ta, hTa, hta, hca⟩ := hta
  obtain ⟨tb, hTb, htb, hcb⟩ := htb
  obtain ⟨tc, hTc, htc, hcc⟩ := htc
  refine ⟨ta, tb, tc, ⟨hTa, hta, ?_⟩, ⟨hTb, htb, ?_⟩, ⟨hTc, htc, ?_⟩,
    project_conn hab ta tb hTa hta hca hTb htb hcb,
    project_conn hac ta tc hTa hta hca hTc htc hcc⟩
  · obtain ⟨p, q⟩ := ta
    obtain ⟨a1, a2⟩ := a
    simp only [Covers, InTri, Prod.mk.injEq] at *
    omega
  · obtain ⟨p, q⟩ := tb
    obtain ⟨b1, b2⟩ := b
    simp only [Covers, InTri, Prod.mk.injEq] at *
    omega
  · obtain ⟨p, q⟩ := tc
    obtain ⟨c1, c2⟩ := c
    simp only [Covers, InTri, Prod.mk.injEq] at *
    omega

theorem yWin_one (f : Cell → Bool) (x : Bool) : YWin 1 f x ↔ f (0, 0) = x := by
  constructor
  · rintro ⟨a, _, _, ⟨ha, fa, sa⟩, _⟩
    obtain ⟨a1, a2⟩ := a
    simp only [InTri] at ha sa
    have h1 : a1 = 0 := sa
    have h2 : a2 = 0 := by omega
    subst h1; subst h2
    exact fa
  · intro h
    have hT : InTri 1 ((0, 0) : Cell) := by simp [InTri]
    exact ⟨(0, 0), (0, 0), (0, 0), ⟨hT, h, rfl⟩, ⟨hT, h, rfl⟩, ⟨hT, h, rfl⟩,
      Relation.ReflTransGen.refl, Relation.ReflTransGen.refl⟩

/-- On a triangle of side at least 1, exactly one colour wins Y. -/
theorem y_exactly_one (m : Nat) (f : Cell → Bool) :
    (YWin ((m : Int) + 1) f true ∨ YWin ((m : Int) + 1) f false) ∧
    ¬ (YWin ((m : Int) + 1) f true ∧ YWin ((m : Int) + 1) f false) := by
  induction m generalizing f with
  | zero =>
    simp only [Nat.cast_zero, zero_add, yWin_one]
    cases f (0, 0) <;> simp
  | succ m ih =>
    obtain ⟨h1, h2⟩ := ih (reduceY f)
    have e : ((m + 1 : Nat) : Int) + 1 = ((m : Int) + 1) + 1 := by push_cast; ring
    rw [e]
    constructor
    · rcases h1 with h | h
      · exact Or.inl (yWin_lift h)
      · exact Or.inr (yWin_lift h)
    · rintro ⟨ht, hf⟩
      exact h2 ⟨yWin_project (by omega) ht, yWin_project (by omega) hf⟩

/-- A straight run of cells of colour `x` in one of the six directions is connected. -/
theorem yConn_ray (da db : Int) (hd : ∀ u : Cell, YAdj u (u.1 + da, u.2 + db)) (n : Int)
    (f : Cell → Bool) (x : Bool) (u : Cell) :
    ∀ k : Nat, (∀ j : Nat, j ≤ k → InTri n (u.1 + j * da, u.2 + j * db) ∧
        f (u.1 + j * da, u.2 + j * db) = x) →
      YConn n f x u (u.1 + k * da, u.2 + k * db) := by
  intro k
  induction k with
  | zero =>
    intro _
    have : ((u.1 + ((0 : Nat) : Int) * da, u.2 + ((0 : Nat) : Int) * db) : Cell) = u := by simp
    rw [this]
    exact Relation.ReflTransGen.refl
  | succ k ih =>
    intro h
    have h1 := ih (fun j hj => h j (Nat.le_succ_of_le hj))
    have hk := h k (Nat.le_succ _)
    have hk1 := h (k + 1) (Nat.le_refl _)
    have hadj := hd (u.1 + k * da, u.2 + k * db)
    have e : ((u.1 + ((k + 1 : Nat) : Int) * da, u.2 + ((k + 1 : Nat) : Int) * db) : Cell) =
        ((u.1 + k * da, u.2 + k * db).1 + da, (u.1 + k * da, u.2 + k * db).2 + db) := by
      simp only [Prod.mk.injEq]
      constructor <;> push_cast <;> ring
    rw [e] at hk1 ⊢
    exact Relation.ReflTransGen.tail h1 ⟨hk.1, hk1.1, hk.2, hk1.2, hadj⟩

theorem inGrid_inTri (g : Graph) (c : Cell) (h : InGrid g c) :
    InTri (g.rows + g.cols - 1) c := by
  unfold InGrid at h
  unfold InTri
  omega

theorem embedY_inGrid (g : Graph) (c : Cell) (h : InGrid g c) :
    embedY g c = decide (g.myGraph c.1 c.2 = 1) := by
  unfold InGrid at h
  unfold embedY
  rw [if_neg (by omega), if_neg (by omega)]

theorem embedY_below (g : Graph) (c : Cell) (h : g.rows ≤ c.1) : embedY g c = false := by
  unfold embedY
  rw [if_pos (by omega)]

theorem embedY_right (g : Graph) (c : Cell) (h1 : c.1 < g.rows) (h2 : g.cols ≤ c.2) :
    embedY g c = true := by
  unfold embedY
  rw [if_neg (by omega), if_pos (by omega)]

theorem yAdj_of_adjacent {g : Graph} {a b : Cell} (h : Adjacent g a b) : YAdj a b := h.2.2

/-- A cell player 1 reaches from column 0 is connected to a cell of column 0 on the Y
board. -/
theorem reach_one_yConn (g : Graph) (c : Cell) (h : Reach g 1 c) :
    ∃ s, InGrid g s ∧ s.2 = 0 ∧ embedY g s = true ∧
      YConn (g.rows + g.cols - 1) (embedY g) true s c := by
  induction h with
  | start c h1 h2 h3 =>
    refine ⟨c, h1, ?_, ?_, Relation.ReflTransGen.refl⟩
    · rcases h2 with ⟨_, h⟩ | ⟨h, _⟩
      · exact h
      · norm_num at h
    · rw [embedY_inGrid g c h1]; simpa using h3
  | step a b ha hab hval ih =>
    obtain ⟨s, hs1, hs2, hs3, hconn⟩ := ih
    refine ⟨s, hs1, hs2, hs3, Relation.ReflTransGen.tail hconn ?_⟩
    refine ⟨inGrid_inTri g a hab.1, inGrid_inTri g b hab.2.1, ?_, ?_, yAdj_of_adjacent hab⟩
    · rw [embedY_inGrid g a hab.1]; simpa using ha.owned
    · rw [embedY_inGrid g b hab.2.1]; simpa using hval

/-- A cell player 2 reaches from row 0 is connected to a cell of row 0 on the Y board. -/
theorem reach_two_yConn (g : Graph) (c : Cell) (h : Reach g 2 c) :
    ∃ s, InGrid g s ∧ s.1 = 0 ∧ embedY g s = false ∧
      YConn (g.rows + g.cols - 1) (embedY g) false s c := by
  induction h with
  | start c h1 h2 h3 =>
    refine ⟨c, h1, ?_, ?_, Relation.ReflTransGen.refl⟩
    · rcases h2 with ⟨h, _⟩ | ⟨_, h⟩
      · norm_num at h
      · exact h
    · rw [embedY_inGrid g c h1]; simp [h3]
  | step a b ha hab hval ih =>
    obtain ⟨s, hs1, hs2, hs3, hconn⟩ := ih
    refine ⟨s, hs1, hs2, hs3, Relation.ReflTransGen.tail hconn ?_⟩
    refine ⟨inGrid_inTri g a hab.1, inGrid_inTri g b hab.2.1, ?_, ?_, yAdj_of_adjacent hab⟩
    · rw [embedY_inGrid g a hab.1]; simp [ha.owned]
    · rw [embedY_inGrid g b hab.2.1]; simp [hval]

/-- A winning connection of player 1 on the board wins Y for `true` on the embedding. -/
theorem yWin_of_reach_one (g : Graph) (t : Cell) (h : Reach g 1 t)
    (ht : t.2 = g.cols - 1) : YWin (g.rows + g.cols - 1) (embedY g) true := by
  obtain ⟨s, hs1, hs2, hs3, hconn⟩ := reach_one_yConn g t h
  have hin := h.inGrid
  have hE : embedY g t = true := by rw [embedY_inGrid g t hin]; simpa using h.owned
  obtain ⟨a, b⟩ := t
  simp only at ht
  unfold InGrid at hin
  simp only at hin
  -- up and to the right until row 0
  have hup := yConn_ray (-1) 1 (fun u => by simp [YAdj, sub_eq_add_neg]) (g.rows + g.cols - 1) (embedY g) true
    (a, b) a.toNat (by
      intro j hj
      have hj' : (j : Int) ≤ a := by omega
      refine ⟨by simp only [InTri]; omega, ?_⟩
      by_cases hj0 : j = 0
      · subst hj0; simpa using hE
      · exact embedY_right g _ (by simp only; omega) (by simp only; omega))
  -- to the right until the third side
  have hri := yConn_ray 0 1 (fun u => by simp [YAdj, sub_eq_add_neg]) (g.rows + g.cols - 1) (embedY g) true
    (a, b) (g.rows - 1 - a).toNat (by
      intro j hj
      have hj' : (j : Int) ≤ g.rows - 1 - a := by omega
      refine ⟨by simp only [InTri]; omega, ?_⟩
      by_cases hj0 : j = 0
      · subst hj0; simpa using hE
      · exact embedY_right g _ (by simp only; omega) (by simp only; omega))
  refine ⟨_, s, _, ⟨?_, ?_, ?_⟩, ⟨inGrid_inTri g s hs1, hs3, hs2⟩, ⟨?_, ?_, ?_⟩,
    yConn_trans (yConn_symm hup) (yConn_symm hconn), yConn_trans (yConn_symm hup) hri⟩
  · simp only [InTri]; omega
  · by_cases h0 : a.toNat = 0
    · have : a = 0 := by omega
      subst this
      simpa using hE
    · exact embedY_right g _ (by simp only; omega) (by simp only; omega)
  · simp only; omega
  · simp only [InTri]; omega
  · by_cases h0 : (g.rows - 1 - a).toNat = 0
    · rw [h0]; simpa using hE
    · exact embedY_right g _ (by simp only; omega) (by simp only; omega)
  · simp only; omega

/-- A winning connection of player 2 on the board wins Y for `false` on the embedding. -/
theorem yWin_of_reach_two (g : Graph) (t : Cell) (h : Reach g 2 t)
    (ht : t.1 = g.rows - 1) : YWin (g.rows + g.cols - 1) (embedY g) false := by
  obtain ⟨s, hs1, hs2, hs3, hconn⟩ := reach_two_yConn g t h
  have hin := h.inGrid
  have hE : embedY g t = false := by rw [embedY_inGrid g t hin]; simp [h.owned]
  obtain ⟨a, b⟩ := t
  simp only at ht
  unfold InGrid at hin
  simp only at hin
  -- down and to the left until column 0
  have hdl := yConn_ray 1 (-1) (fun u => by simp [YAdj, sub_eq_add_neg]) (g.rows + g.cols - 1) (embedY g) false
    (a, b) b.toNat (by
      intro j hj
      have hj' : (j : Int) ≤ b := by omega
      refine ⟨by simp only [InTri]; omega, ?_⟩
      by_cases hj0 : j = 0
      · subst hj0; simpa using hE
      · exact embedY_below g _ (by simp only; omega))
  -- down until the third side
  have hdn := yConn_ray 1 0 (fun u => by simp [YAdj, sub_eq_add_neg]) (g.rows + g.cols - 1) (embedY g) false
    (a, b) (g.cols - 1 - b).toNat (by
      intro j hj
      have hj' : (j : Int) ≤ g.cols - 1 - b := by omega
      refine ⟨by simp only [InTri]; omega, ?_⟩
      by_cases hj0 : j = 0
      · subst hj0; simpa using hE
      · exact embedY_below g _ (by simp only; omega))
  refine ⟨s, _, _, ⟨inGrid_inTri g s hs1, hs3, hs2⟩, ⟨?_, ?_, ?_⟩, ⟨?_, ?_, ?_⟩,
    yConn_trans hconn hdl, yConn_trans hconn hdn⟩
  · simp only [InTri]; omega
  · by_cases h0 : b.toNat = 0
    · have : b = 0 := by omega
      subst this
      simpa using hE
    · exact embedY_below g _ (by simp only; omega)
  · simp only; omega
  · simp only [InTri]; omega
  · by_cases h0 : (g.cols - 1 - b).toNat = 0
    · rw [h0]; simpa using hE
    · exact embedY_below g _ (by simp only; omega)
  · simp only; omega

/-- Walking along a connection of colour `true` that starts in column 0, player 1 either
has already reached the last column or reaches the current cell short of it. -/
theorem walk_one (g : Graph) (s v : Cell)
    (hconn : YConn (g.rows + g.cols - 1) (embedY g) true s v)
    (hs : Reach g 1 s) (hs2 : s.2 < g.cols - 1) :
    (∃ t, Reach g 1 t ∧ t.2 = g.cols - 1) ∨ (Reach g 1 v ∧ v.2 < g.cols - 1) := by
  induction hconn with
  | refl => exact Or.inr ⟨hs, hs2⟩
  | @tail v w _ hstep ih =>
    rcases ih with h | ⟨hv, hv2⟩
    · exact Or.inl h
    · obtain ⟨_, hw, _, fw, hadj⟩ := hstep
      have hvin := hv.inGrid
      have hw1 : w.1 < g.rows := by
        by_contra hcon
        rw [embedY_below g w (by omega)] at fw
        cases fw
      have hw2 : w.2 ≤ g.cols - 1 := by
        obtain ⟨v1, v2⟩ := v
        obtain ⟨w1, w2⟩ := w
        simp only [YAdj, Prod.mk.injEq] at hadj
        simp only at hv2 ⊢
        omega
      have hwin : InGrid g w := by
        unfold InTri at hw
        unfold InGrid
        omega
      have hwval : g.myGraph w.1 w.2 = 1 := by
        rw [embedY_inGrid g w hwin] at fw
        simpa using fw
      have hrw : Reach g 1 w := Reach.step v w hv ⟨hvin, hwin, hadj⟩ hwval
      by_cases he : w.2 = g.cols - 1
      · exact Or.inl ⟨w, hrw, he⟩
      · exact Or.inr ⟨hrw, by omega⟩

/-- The same walk for player 2, from row 0 towards the last row, on a full board. -/
theorem walk_two (g : Graph)
    (hfull : ∀ c : Cell, InGrid g c → g.myGraph c.1 c.2 = 1 ∨ g.myGraph c.1 c.2 = 2)
    (s v : Cell) (hconn : YConn (g.rows + g.cols - 1) (embedY g) false s v)
    (hs : Reach g 2 s) (hs2 : s.1 < g.rows - 1) :
    (∃ t, Reach g 2 t ∧ t.1 = g.rows - 1) ∨ (Reach g 2 v ∧ v.1 < g.rows - 1) := by
  induction hconn with
  | refl => exact Or.inr ⟨hs, hs2⟩
  | @tail v w _ hstep ih =>
    rcases ih with h | ⟨hv, hv2⟩
    · exact Or.inl h
    · obtain ⟨_, hw, _, fw, hadj⟩ := hstep
      have hvin := hv.inGrid
      have hw1 : w.1 ≤ g.rows - 1 := by
        obtain ⟨v1, v2⟩ := v
        obtain ⟨w1, w2⟩ := w
        simp only [YAdj, Prod.mk.injEq] at hadj
        simp only at hv2 ⊢
        omega
      have hw2 : w.2 < g.cols := by
        by_contra hcon
        rw [embedY_right g w (by omega) (by omega)] at fw
        cases fw
      have hwin : InGrid g w := by
        unfold InTri at hw
        unfold InGrid
        omega
      have hwval : g.myGraph w.1 w.2 = 2 := by
        rw [embedY_inGrid g w hwin] at fw
        have hne : g.myGraph w.1 w.2 ≠ 1 := by simpa using fw
        rcases hfull w hwin with h | h
        · exact absurd h hne
        · exact h
      have hrw : Reach g 2 w := Reach.step v w hv ⟨hvin, hwin, hadj⟩ hwval
      by_cases he : w.1 = g.rows - 1
      · exact Or.inl ⟨w, hrw, he⟩
      · exact Or.inr ⟨hrw, by omega⟩

/-- A Y win of `true` on the embedding gives player 1 a connection to the last column. -/
theorem reach_one_of_yWin (g : Graph) (hc : 1 < g.cols)
    (h : YWin (g.rows + g.cols - 1) (embedY g) true) :
    ∃ t, Reach g 1 t ∧ OnTargetEdge g 1 t := by
  obtain ⟨a, b, c, _, ⟨hb, fb, sb⟩, ⟨hcT, fc, sc⟩, hab, hac⟩ := h
  have hbc := yConn_trans (yConn_symm hab) hac
  have hb1 : b.1 < g.rows := by
    by_contra hcon
    rw [embedY_below g b (by omega)] at fb
    cases fb
  have hbin : InGrid g b := by
    unfold InTri at hb
    unfold InGrid
    omega
  have hbval : g.myGraph b.1 b.2 = 1 := by
    rw [embedY_inGrid g b hbin] at fb
    simpa using fb
  have hrb : Reach g 1 b := Reach.start b hbin (Or.inl ⟨rfl, sb⟩) hbval
  have hc1 : c.1 < g.rows := by
    by_contra hcon
    rw [embedY_below g c (by omega)] at fc
    cases fc
  rcases walk_one g b c hbc hrb (by omega) with ⟨t, ht, ht2⟩ | ⟨_, hlt⟩
  · exact ⟨t, ht, Or.inl ⟨rfl, ht2⟩⟩
  · omega

/-- A Y win of `false` on the embedding of a full board gives player 2 a connection to the
last row. -/
theorem reach_two_of_yWin (g : Graph) (hr : 1 < g.rows)
    (hfull : ∀ c : Cell, InGrid g c → g.myGraph c.1 c.2 = 1 ∨ g.myGraph c.1 c.2 = 2)
    (h : YWin (g.rows + g.cols - 1) (embedY g) false) :
    ∃ t, Reach g 2 t ∧ OnTargetEdge g 2 t := by
  obtain ⟨a, b, c, ⟨ha, fa, sa⟩, _, ⟨hcT, fc, sc⟩, hab, hac⟩ := h
  have ha2 : a.2 < g.cols := by
    by_contra hcon
    rw [embedY_right g a (by omega) (by omega)] at fa
    cases fa
  have hain : InGrid g a := by
    unfold InTri at ha
    unfold InGrid
    omega
  have haval : g.myGraph a.1 a.2 = 2 := by
    rw [embedY_inGrid g a hain] at fa
    have hne : g.myGraph a.1 a.2 ≠ 1 := by simpa using fa
    rcases hfull a hain with h | h
    · exact absurd h hne
    · exact h
  have hra : Reach g 2 a := Reach.start a hain (Or.inr ⟨rfl, sa⟩) haval
  have hc1 : g.rows - 1 ≤ c.1 := by
    by_contra hcon
    have : g.cols ≤ c.2 := by omega
    rw [embedY_right g c (by omega) this] at fc
    cases fc
  rcases walk_two g hfull a c hac hra (by omega) with ⟨t, ht, ht2⟩ | ⟨_, hlt⟩
  · exact ⟨t, ht, Or.inr ⟨rfl, ht2⟩⟩
  · omega

/-- On a full board with more than one row and column exactly one player is connected. -/
theorem reach_exactly_one (g : Graph) (hr : 1 < g.rows) (hc : 1 < g.cols)
    (hfull : ∀ c : Cell, InGrid g c → g.myGraph c.1 c.2 = 1 ∨ g.myGraph c.1 c.2 = 2) :
    ((∃ t, Reach g 1 t ∧ OnTargetEdge g 1 t) ∨ (∃ t, Reach g 2 t ∧ OnTargetEdge g 2 t)) ∧
    ¬ ((∃ t, Reach g 1 t ∧ OnTargetEdge g 1 t) ∧ (∃ t, Reach g 2 t ∧ OnTargetEdge g 2 t)) := by
  have e : g.rows + g.cols - 1 = (((g.rows + g.cols - 2).toNat : Nat) : Int) + 1 := by omega
  obtain ⟨h1, h2⟩ := y_exactly_one (g.rows + g.cols - 2).toNat (embedY g)
  rw [← e] at h1 h2
  constructor
  · rcases h1 with h | h
    · exact Or.inl (reach_one_of_yWin g hc h)
    · exact Or.inr (reach_two_of_yWin g hr hfull h)
  · rintro ⟨⟨t, ht, ho⟩, ⟨t', ht', ho'⟩⟩
    apply h2
    constructor
    · rcases ho with ⟨_, h⟩ | ⟨h, _⟩
      · exact yWin_of_reach_one g t ht h
      · norm_num at h
    · rcases ho' with ⟨h, _⟩ | ⟨_, h⟩
      · norm_num at h
      · exact yWin_of_reach_two g t' ht' h

theorem boardFull_full : ∀ c : Cell, InGrid boardFull c → boardFull.myGraph c.1 c.2 ≠ 0 := by
  intro c _
  simp only [boardFull]
  split_ifs <;> norm_num

theorem nextMoves_eq_nil_of_full (g : Graph)
    (hfull : ∀ c : Cell, InGrid g c → g.myGraph c.1 c.2 ≠ 0) : nextMoves g = [] := by
  apply List.eq_nil_iff_forall_not_mem.2
  intro c hc
  obtain ⟨h1, h2⟩ := (mem_nextMoves g c).1 hc
  exact hfull c h1 h2

theorem isShuffle_noShuffle : IsShuffle noShuffle := fun _ _ => List.Perm.refl _



theorem nextMoves_sorted (g : Graph) : (nextMoves g).Pairwise RowMajorLt := by
  unfold nextMoves
  rw [List.pairwise_flatMap]
  constructor
  · intro i _
    rw [List.pairwise_map]
    apply List.Pairwise.imp _ ((List.pairwise_lt_range _).filter _)
    intro a b hab
    exact Or.inr ⟨rfl, by simp only; exact_mod_cast hab⟩
  · apply List.Pairwise.imp _ (List.pairwise_lt_range _)
    intro a b hab x hx y hy
    simp only [List.mem_map, List.mem_filter] at hx hy
    obtain ⟨_, _, rfl⟩ := hx
    obtain ⟨_, _, rfl⟩ := hy
    exact Or.inl (by simp only; exact_mod_cast hab)

theorem rowMajorLt_antisymm (a b : Cell) (h1 : RowMajorLt a b) (h2 : RowMajorLt b a) : a = b := by
  unfold RowMajorLt at h1 h2
  omega

/-- Taking a free cell removes it from the list of moves and keeps the order of the rest. -/
theorem nextMoves_setVal (g : Graph) (r c v : Int) (hv : v ≠ 0) :
    nextMoves (g.setVal r c v) = (nextMoves g).filter (fun x => decide (x ≠ (r, c))) := by
  haveI : IsAntisymm Cell RowMajorLt := ⟨rowMajorLt_antisymm⟩
  apply List.eq_of_perm_of_sorted (r := RowMajorLt)
  · rw [List.perm_ext_iff_of_nodup (nextMoves_nodup _) ((nextMoves_nodup g).filter _)]
    intro x
    rw [List.mem_filter, mem_nextMoves, mem_nextMoves]
    have hin : InGrid (g.setVal r c v) x ↔ InGrid g x := Iff.rfl
    rw [hin]
    simp only [Graph.setVal, decide_eq_true_eq]
    by_cases hx : x = (r, c)
    · subst hx
      simp [hv]
    · have : ¬ (x.1 = r ∧ x.2 = c) := by
        rintro ⟨h1, h2⟩
        exact hx (Prod.ext h1 h2)
      simp [hx, this]
  · exact nextMoves_sorted _
  · exact (nextMoves_sorted g).filter _

theorem createTree_one (mv : Cell) (g : Graph) (h : g.myGraph mv.1 mv.2 = 0) :
    (createTree 1 false (TreeNode.fresh mv.1 mv.2) g).2 =
      { TreeNode.fresh mv.1 mv.2 with children :=
          (((nextMoves g).filter (fun x => decide (x ≠ mv))).map
            (fun mv' => TreeNode.fresh mv'.1 mv'.2)) } := by
  rw [(createTree_spec 0 false (TreeNode.fresh mv.1 mv.2) g (Or.inr h)).2.2]
  simp only [Bool.false_eq_true, if_false, TreeNode.fresh, List.nil_append]
  rw [nextMoves_setVal g mv.1 mv.2 1 (by norm_num)]
  rfl

/-- The children of the root, by number of free cells. -/
theorem tree_root_children (g : Graph) :
    (Tree.create g).2.root.children =
      if (nextMoves g).length = 0 then []
      else if (nextMoves g).length = 1 then
        (nextMoves g).map (fun mv => TreeNode.fresh mv.1 mv.2)
      else
        (nextMoves g).map (fun mv =>
          { TreeNode.fresh mv.1 mv.2 with children :=
              (((nextMoves g).filter (fun x => decide (x ≠ mv))).map
                (fun mv' => TreeNode.fresh mv'.1 mv'.2)) }) := by
  obtain ⟨_, _, hd, hch, _⟩ := tree_create_spec g
  rw [hch, hd]
  by_cases h0 : (nextMoves g).length = 0
  · simp [h0]
  · by_cases h1 : (nextMoves g).length = 1
    · have : min MAX_DEPTH (nextMoves g).length = 1 := by simp [MAX_DEPTH, h1]
      rw [if_neg h0, if_pos h1, this, if_neg (by norm_num)]
      rfl
    · have : min MAX_DEPTH (nextMoves g).length = 2 := by
        simp only [MAX_DEPTH]; omega
      rw [if_neg h0, if_neg h1, this, if_neg (by norm_num)]
      apply List.map_congr_left
      intro mv hmv
      exact createTree_one mv g ((mem_nextMoves g mv).1 hmv).2

theorem length_filter_ne {α : Type} [DecidableEq α] (x : α) :
    ∀ l : List α, l.Nodup → x ∈ l → (l.filter (fun y => decide (y ≠ x))).length + 1 = l.length := by
  intro l
  induction l with
  | nil => intro _ h; simp at h
  | cons a l ih =>
    intro hnd hx
    rw [List.nodup_cons] at hnd
    by_cases hax : a = x
    · subst hax
      have : l.filter (fun y => decide (y ≠ a)) = l := by
        apply List.filter_eq_self.2
        intro y hy
        simp only [decide_eq_true_eq]
        rintro rfl
        exact hnd.1 hy
      rw [List.filter_cons, if_neg (by simp), this, List.length_cons]
    · have hxl : x ∈ l := by
        rcases List.mem_cons.1 hx with h | h
        · exact absurd h.symm hax
        · exact h
      have := ih hnd.2 hxl
      rw [List.filter_cons, if_pos (by simpa using hax), List.length_cons, List.length_cons,
        this]

theorem map_cell_fresh (l : List Cell) :
    (l.map (fun mv => TreeNode.fresh mv.1 mv.2)).map TreeNode.cell = l := by
  rw [List.map_map]
  conv_rhs => rw [← List.map_id l]
  apply List.map_congr_left
  intro mv _
  rfl

theorem trialLoop_tally (rng : Nat → List Cell → List Cell) (player : Int) :
    ∀ (n : Nat) (moves : List Cell) (node : TreeNode) (s : Sim),
      (trialLoop rng player n moves node s).2.1.p1wins +
        (trialLoop rng player n moves node s).2.1.p2wins = node.p1wins + node.p2wins + n := by
  intro n
  induction n with
  | zero => intro moves node s; rfl
  | succ n ih =>
    intro moves node s
    unfold trialLoop
    simp only
    rw [ih]
    have := (addResult_fields node
      (if (checkForWinner (playOut (rng s.shuffles moves) player s.graph) 1).2 then 1 else 2)).2.2.2
    omega

theorem monteCarlo_leaf_node (rng : Nat → List Cell → List Cell) (isRoot : Bool)
    (node : TreeNode) (player : Int) (s : Sim) (h : node.children = []) :
    (monteCarlo rng isRoot node player s).1.children = [] ∧
    (monteCarlo rng isRoot node player s).1.p1wins + (monteCarlo rng isRoot node player s).1.p2wins =
      node.p1wins + node.p2wins + MAX_TRIALS := by
  obtain ⟨row, col, p1, p2, cs⟩ := node
  simp only at h
  subst h
  rw [monteCarlo_leaf]
  exact ⟨(runTrials_node rng _ _ _).2.2, trialLoop_tally rng _ MAX_TRIALS _ _ _⟩

theorem monteCarloChildren_length (rng : Nat → List Cell → List Cell) (cs : List TreeNode)
    (player : Int) (s : Sim) : (monteCarloChildren rng cs player s).1.length = cs.length := by
  have := congrArg List.length (monteCarloChildren_coords rng cs player s)
  simpa using this

/-- Running the rollouts over a list of leaves adds `MAX_TRIALS` trials to each. -/
theorem monteCarloChildren_leaves (rng : Nat → List Cell → List Cell) (n : Nat) :
    ∀ (cs : List TreeNode) (player : Int) (s : Sim),
      (∀ c ∈ cs, c.children = [] ∧ c.p1wins + c.p2wins = n) →
      ∀ c' ∈ (monteCarloChildren rng cs player s).1,
        c'.children = [] ∧ c'.p1wins + c'.p2wins = n + MAX_TRIALS := by
  intro cs
  induction cs with
  | nil => intro player s _ c' hc'; rw [monteCarloChildren_nil] at hc'; simp at hc'
  | cons c cs ih =>
    intro player s h c' hc'
    rw [monteCarloChildren_cons] at hc'
    rcases List.mem_cons.1 hc' with rfl | hc'
    · obtain ⟨h1, h2⟩ := h c (List.mem_cons_self _ _)
      obtain ⟨m1, m2⟩ := monteCarlo_leaf_node rng false c player s h1
      exact ⟨m1, by rw [m2, h2]⟩
    · exact ih player _ (fun x hx => h x (List.mem_cons_of_mem _ hx)) c' hc'

/-- The same one level up: children whose children are leaves. -/
theorem monteCarloChildren_inner (rng : Nat → List Cell → List Cell) (n : Nat) :
    ∀ (cs : List TreeNode) (player : Int) (s : Sim),
      (∀ c ∈ cs, c.children ≠ [] ∧ ∀ d ∈ c.children, d.children = [] ∧ d.p1wins + d.p2wins = n) →
      ∀ c' ∈ (monteCarloChildren rng cs player s).1,
        c'.children ≠ [] ∧
          ∀ d ∈ c'.children, d.children = [] ∧ d.p1wins + d.p2wins = n + MAX_TRIALS := by
  intro cs
  induction cs with
  | nil => intro player s _ c' hc'; rw [monteCarloChildren_nil] at hc'; simp at hc'
  | cons c cs ih =>
    intro player s h c' hc'
    rw [monteCarloChildren_cons] at hc'
    rcases List.mem_cons.1 hc' with rfl | hc'
    · obtain ⟨h1, h2⟩ := h c (List.mem_cons_self _ _)
      rw [(monteCarlo_coords rng false c player s).2.2]
      constructor
      · intro hnil
        have := monteCarloChildren_length rng c.children (switchPlayer player)
          (enterNode false c.row c.col player s)
        rw [hnil] at this
        exact h1 (List.length_eq_zero.1 this.symm)
      · exact monteCarloChildren_leaves rng n _ _ _ h2
    · exact ih player _ (fun x hx => h x (List.mem_cons_of_mem _ hx)) c' hc'

theorem computeNextMove_root (rng : Nat → List Cell → List Cell) (k : Nat) (g : Graph) (p : Int) :
    (computeNextMove rng k g p).tree.root.children =
      (monteCarloChildren rng (Tree.create g).2.root.children (switchPlayer (switchPlayer p))
        { graph := g, shuffles := k }).1 ∧
    (computeNextMove rng k g p).tree.nextMove =
      (maxLoop (computeNextMove rng k g p).tree.root.children p 0 (-1) none).2 ∧
    (computeNextMove rng k g p).coords =
      readNextMove (computeNextMove rng k g p).tree.nextMove := by
  obtain ⟨hg, hnm, _, _, _⟩ := tree_create_spec g
  have hroot : (computeNextMove rng k g p).tree.root =
      (monteCarlo rng true (Tree.create g).2.root (switchPlayer p)
        { graph := (Tree.create g).1, shuffles := k }).1 := rfl
  have hnext : (computeNextMove rng k g p).tree.nextMove =
      (minMax (computeNextMove rng k g p).tree.root true p 0 (Tree.create g).2.nextMove).2 := rfl
  refine ⟨?_, ?_, rfl⟩
  · rw [hroot, (monteCarlo_coords rng true _ _ _).2.2, hg]
    rfl
  · rw [hnext, minMax_eq, if_neg (by simp [MAX_DEPTH]), if_pos rfl, hnm]

/-- After the rollouts on a board with one free cell, the root's child is a leaf with
`MAX_TRIALS` trials. -/
theorem computeNextMove_tree_one (rng : Nat → List Cell → List Cell) (k : Nat) (g : Graph)
    (p : Int) (h1 : (nextMoves g).length = 1) :
    ∀ c ∈ (computeNextMove rng k g p).tree.root.children,
      c.children = [] ∧ c.p1wins + c.p2wins = MAX_TRIALS := by
  intro c hc
  rw [(computeNextMove_root rng k g p).1] at hc
  have := monteCarloChildren_leaves rng 0 (Tree.create g).2.root.children
    (switchPlayer (switchPlayer p)) { graph := g, shuffles := k } (by
      intro x hx
      rw [tree_root_children, if_neg (by omega), if_pos h1] at hx
      obtain ⟨mv, _, rfl⟩ := List.mem_map.1 hx
      exact ⟨rfl, rfl⟩) c hc
  simpa using this

/-- After the rollouts on a board with at least two free cells, every child of the root
has children, and these are leaves with `MAX_TRIALS` trials each. -/
theorem computeNextMove_tree_two (rng : Nat → List Cell → List Cell) (k : Nat) (g : Graph)
    (p : Int) (h2 : 2 ≤ (nextMoves g).length) :
    ∀ c ∈ (computeNextMove rng k g p).tree.root.children,
      c.children ≠ [] ∧ ∀ d ∈ c.children, d.children = [] ∧ d.p1wins + d.p2wins = MAX_TRIALS := by
  intro c hc
  rw [(computeNextMove_root rng k g p).1] at hc
  have := monteCarloChildren_inner rng 0 (Tree.create g).2.root.children
    (switchPlayer (switchPlayer p)) { graph := g, shuffles := k } (by
      intro x hx
      rw [tree_root_children, if_neg (by omega), if_neg (by omega)] at hx
      obtain ⟨mv, hmv, rfl⟩ := List.mem_map.1 hx
      constructor
      · intro hnil
        have hl := length_filter_ne mv (nextMoves g) (nextMoves_nodup g) hmv
        simp only at hnil
        rw [List.map_eq_nil_iff] at hnil
        rw [hnil] at hl
        simp at hl
        omega
      · intro d hd
        simp only at hd
        obtain ⟨mv', _, rfl⟩ := List.mem_map.1 hd
        exact ⟨rfl, rfl⟩) c hc
  simpa using this

theorem tree_root_cells (g : Graph) :
    (Tree.create g).2.root.children.map TreeNode.cell = nextMoves g := by
  rw [tree_root_children]
  split_ifs with h0 h1
  · rw [List.length_eq_zero] at h0
    rw [h0]; rfl
  · exact map_cell_fresh _
  · rw [List.map_map]
    conv_rhs => rw [← List.map_id (nextMoves g)]
    apply List.map_congr_left
    intro mv _
    rfl

theorem computeNextMove_root_cells (rng : Nat → List Cell → List Cell) (k : Nat) (g : Graph)
    (p : Int) :
    (computeNextMove rng k g p).tree.root.children.map TreeNode.cell = nextMoves g := by
  rw [(computeNextMove_root rng k g p).1]
  have := monteCarloChildren_coords rng (Tree.create g).2.root.children
    (switchPlayer (switchPlayer p)) { graph := g, shuffles := k }
  exact this.trans (tree_root_cells g)

theorem getProb_eq_rolloutProbability (p : Int) (d : TreeNode) :
    d.getProb p = rolloutProbability p d := by
  unfold TreeNode.getProb rolloutProbability
  push_cast
  rfl

theorem rolloutProbability_le_one (p : Int) (d : TreeNode) : rolloutProbability p d ≤ 1 := by
  unfold rolloutProbability
  by_cases h0 : ((d.p1wins + d.p2wins : Nat) : ℚ) = 0
  · rw [h0, div_zero]; norm_num
  · have hpos : (0 : ℚ) < ((d.p1wins + d.p2wins : Nat) : ℚ) :=
      lt_of_le_of_ne (Nat.cast_nonneg _) (Ne.symm h0)
    rw [div_le_one hpos]
    split_ifs <;> exact_mod_cast (by omega)

theorem childValue_eq (p : Int) (c : TreeNode) :
    childValue p c = c.children.foldl (fun acc d => min acc (d.getProb p)) 2 := by
  unfold childValue
  rw [minMax_child]

theorem foldl_min_spec (p : Int) :
    ∀ (l : List TreeNode) (v : ℚ),
      l.foldl (fun acc d => min acc (d.getProb p)) v ≤ v ∧
      (∀ d ∈ l, l.foldl (fun acc d => min acc (d.getProb p)) v ≤ d.getProb p) ∧
      (l.foldl (fun acc d => min acc (d.getProb p)) v = v ∨
        ∃ d ∈ l, l.foldl (fun acc d => min acc (d.getProb p)) v = d.getProb p) := by
  intro l
  induction l with
  | nil => intro v; simp
  | cons a l ih =>
    intro v
    simp only [List.foldl_cons]
    obtain ⟨h1, h2, h3⟩ := ih (min v (a.getProb p))
    refine ⟨le_trans h1 (min_le_left _ _), ?_, ?_⟩
    · intro d hd
      rcases List.mem_cons.1 hd with rfl | hd
      · exact le_trans h1 (min_le_right _ _)
      · exact h2 d hd
    · rcases h3 with h | ⟨d, hd, h⟩
      · rcases min_choice v (a.getProb p) with hm | hm
        · left; rw [h, hm]
        · right; exact ⟨a, List.mem_cons_self _ _, by rw [h, hm]⟩
      · right; exact ⟨d, List.mem_cons_of_mem _ hd, h⟩

/-- For a node with children, the value `minMax` computes one ply below the root is the
minimum of the children's rollout probabilities. -/
theorem childValue_isMin (p : Int) (c : TreeNode) (hne : c.children ≠ []) :
    IsMinOverChildren p c (childValue p c) := by
  rw [childValue_eq]
  obtain ⟨h1, h2, h3⟩ := foldl_min_spec p c.children 2
  constructor
  · rcases h3 with h | ⟨d, hd, h⟩
    · obtain ⟨d, hd⟩ := List.exists_mem_of_ne_nil _ hne
      have := h2 d hd
      rw [h, getProb_eq_rolloutProbability] at this
      have := rolloutProbability_le_one p d
      linarith
    · exact ⟨d, hd, by rw [h, getProb_eq_rolloutProbability]⟩
  · intro d hd
    rw [← getProb_eq_rolloutProbability]
    exact h2 d hd

theorem isMinOverChildren_unique (p : Int) (c : TreeNode) (v v' : ℚ)
    (h : IsMinOverChildren p c v) (h' : IsMinOverChildren p c v') : v = v' := by
  obtain ⟨⟨d, hd, e⟩, hle⟩ := h
  obtain ⟨⟨d', hd', e'⟩, hle'⟩ := h'
  apply le_antisymm
  · rw [e']; exact hle d' hd'
  · rw [e]; exact hle' d hd

theorem childValue_nonneg (p : Int) (c : TreeNode) : 0 ≤ childValue p c := by
  rw [childValue_eq]
  exact foldl_min_nonneg p _ 2 (by norm_num)

theorem maxLoop_cons_root (c : TreeNode) (cs : List TreeNode) (p : Int) (v : ℚ)
    (nm : Option TreeNode) :
    maxLoop (c :: cs) p 0 v nm =
      if childValue p c > v then maxLoop cs p 0 (childValue p c) (some c)
      else maxLoop cs p 0 v nm := by
  rw [maxLoop_cons, minMax_child, childValue_eq]
  simp only [if_true]

/-- The maximizing loop at the root keeps the first child whose value exceeds the running
value and all values before it, and is not exceeded later. -/
theorem maxLoop_spec (p : Int) :
    ∀ (cs : List TreeNode) (v : ℚ) (nm : Option TreeNode),
      (maxLoop cs p 0 v nm = (v, nm) ∧ ∀ c ∈ cs, childValue p c ≤ v) ∨
      ∃ pre c post, cs = pre ++ c :: post ∧ maxLoop cs p 0 v nm = (childValue p c, some c) ∧
        v < childValue p c ∧ (∀ c' ∈ pre, childValue p c' < childValue p c) ∧
        ∀ c' ∈ post, childValue p c' ≤ childValue p c := by
  intro cs
  induction cs with
  | nil => intro v nm; left; exact ⟨maxLoop_nil _ _ _ _, by simp⟩
  | cons a cs ih =>
    intro v nm
    rw [maxLoop_cons_root]
    by_cases h : childValue p a > v
    · rw [if_pos h]
      rcases ih (childValue p a) (some a) with ⟨e, hall⟩ | ⟨pre, c, post, e1, e2, hlt, hpre, hpost⟩
      · right
        exact ⟨[], a, cs, rfl, e, h, by simp, hall⟩
      · right
        refine ⟨a :: pre, c, post, by rw [e1]; rfl, e2, lt_trans h hlt, ?_, hpost⟩
        intro c' hc'
        rcases List.mem_cons.1 hc' with rfl | hc'
        · exact hlt
        · exact hpre c' hc'
    · rw [if_neg h]
      rcases ih v nm with ⟨e, hall⟩ | ⟨pre, c, post, e1, e2, hlt, hpre, hpost⟩
      · left
        refine ⟨e, ?_⟩
        intro c hc
        rcases List.mem_cons.1 hc with rfl | hc
        · exact not_lt.1 h
        · exact hall c hc
      · right
        refine ⟨a :: pre, c, post, by rw [e1]; rfl, e2, hlt, ?_, hpost⟩
        intro c' hc'
        rcases List.mem_cons.1 hc' with rfl | hc'
        · exact lt_of_le_of_lt (not_lt.1 h) hlt
        · exact hpre c' hc'

/-- On a board with a free cell the move handed back is the first child of the root, in the
order of the children, among those of greatest value. -/
theorem computeNextMove_first_best (rng : Nat → List Cell → List Cell) (k : Nat) (g : Graph)
    (p : Int) (h : nextMoves g ≠ []) :
    ∃ pre c post, (computeNextMove rng k g p).tree.root.children = pre ++ c :: post ∧
      (computeNextMove rng k g p).tree.nextMove = some c ∧
      (computeNextMove rng k g p).coords = Outcome.returned c.cell ∧
      (∀ c' ∈ pre, childValue p c' < childValue p c) ∧
      ∀ c' ∈ post, childValue p c' ≤ childValue p c := by
  obtain ⟨_, hnm, hco⟩ := computeNextMove_root rng k g p
  rcases maxLoop_spec p (computeNextMove rng k g p).tree.root.children (-1) none with
    ⟨_, hall⟩ | ⟨pre, c, post, e1, e2, _, hpre, hpost⟩
  · exfalso
    have hcells := computeNextMove_root_cells rng k g p
    cases hch : (computeNextMove rng k g p).tree.root.children with
    | nil => rw [hch] at hcells; exact h hcells.symm
    | cons c cs =>
      have := hall c (by rw [hch]; exact List.mem_cons_self _ _)
      have := childValue_nonneg p c
      linarith
  · refine ⟨pre, c, post, e1, ?_, ?_, hpre, hpost⟩
    · rw [hnm, e2]
    · rw [hco, hnm, e2]; rfl

theorem two_le_length_of_mem {α : Type} (l : List α) (a b : α) (ha : a ∈ l) (hb : b ∈ l)
    (hne : a ≠ b) : 2 ≤ l.length := by
  match l, ha, hb with
  | [], ha, _ => simp at ha
  | [x], ha, hb =>
    simp only [List.mem_singleton] at ha hb
    exact absurd (ha.trans hb.symm) hne
  | _ :: _ :: _, _, _ => simp

theorem boardOneFree_nextMoves : nextMoves boardOneFree = [(1, 0)] := by decide

theorem switchPlayer_mem (q : Int) : switchPlayer q = 1 ∨ switchPlayer q = 2 := by
  unfold switchPlayer; split_ifs <;> simp

theorem switchPlayer_twice (q : Int) (hq : q = 1 ∨ q = 2) : switchPlayer (switchPlayer q) = q := by
  rcases hq with rfl | rfl <;> rfl

/-- The inner loop of `runTrials` on moves without repetition: position `j` gets `q` when
`j` is even and the other player when `j` is odd. -/
theorem playOut_get :
    ∀ (ms : List Cell) (q : Int) (g : Graph), (q = 1 ∨ q = 2) → ms.Nodup →
      ∀ (j : Nat) (hj : j < ms.length),
        (playOut ms q g).myGraph (ms.get ⟨j, hj⟩).1 (ms.get ⟨j, hj⟩).2 =
          if j % 2 = 0 then q else switchPlayer q := by
  intro ms
  induction ms with
  | nil => intro q g _ _ j hj; simp at hj
  | cons m ms ih =>
    intro q g hq hnd j hj
    rw [List.nodup_cons] at hnd
    unfold playOut
    cases j with
    | zero =>
      simp only [Nat.zero_mod, if_true]
      show (playOut ms (switchPlayer q) (g.setVal m.1 m.2 q)).myGraph m.1 m.2 = q
      rw [(playOut_frame ms (switchPlayer q) (g.setVal m.1 m.2 q)).2.2.2 m.1 m.2 hnd.1]
      simp [Graph.setVal]
    | succ j =>
      have hj' : j < ms.length := by simpa using hj
      have := ih (switchPlayer q) (g.setVal m.1 m.2 q) (switchPlayer_mem q) hnd.2 j hj'
      show (playOut ms (switchPlayer q) (g.setVal m.1 m.2 q)).myGraph (ms.get ⟨j, hj'⟩).1
        (ms.get ⟨j, hj'⟩).2 = _
      rw [this, switchPlayer_twice q hq]
      by_cases h : j % 2 = 0
      · rw [if_pos h, if_neg (by omega)]
      · rw [if_neg h, if_pos (by omega)]

theorem trialLoop_succ_last (rng : Nat → List Cell → List Cell) (player : Int) :
    ∀ (n : Nat) (moves : List Cell) (node : TreeNode) (s : Sim),
      trialLoop rng player (n + 1) moves node s =
        trialLoop rng player 1 (trialLoop rng player n moves node s).1
          (trialLoop rng player n moves node s).2.1 (trialLoop rng player n moves node s).2.2 := by
  intro n
  induction n with
  | zero => intro moves node s; rfl
  | succ n ih =>
    intro moves node s
    have e : ∀ (k : Nat) (m : List Cell) (nd : TreeNode) (t : Sim),
        trialLoop rng player (k + 1) m nd t =
          trialLoop rng player k (rng t.shuffles m)
            (nd.addResult (if (checkForWinner (playOut (rng t.shuffles m) player t.graph) 1).2
              then 1 else 2))
            { graph := (checkForWinner (playOut (rng t.shuffles m) player t.graph) 1).1,
              shuffles := t.shuffles + 1 } := fun _ _ _ _ => rfl
    rw [e (n + 1), ih, ← e n]

/-- Trial `i` of `runTrials` in terms of the board it checks. -/
theorem trialState_succ (rng : Nat → List Cell → List Cell) (player : Int) (i : Nat)
    (node : TreeNode) (s : Sim) :
    trialState rng player (i + 1) node s =
      (trialPerm rng player i node s,
        (trialState rng player i node s).2.1.addResult
          (if (checkForWinner (trialBoard rng player i node s) 1).2 then 1 else 2),
        { graph := (checkForWinner (trialBoard rng player i node s) 1).1,
          shuffles := (trialState rng player i node s).2.2.shuffles + 1 }) := by
  unfold trialState
  rw [trialLoop_succ_last]
  rfl

theorem trialPerm_perm (rng : Nat → List Cell → List Cell) (hrng : IsShuffle rng)
    (player : Int) (i : Nat) (node : TreeNode) (s : Sim) :
    List.Perm (trialPerm rng player i node s) (nextMoves s.graph) :=
  (hrng _ _).trans (trialLoop_frame rng hrng player i (nextMoves s.graph) node s).1

theorem clearCells_frame (moves : List Cell) (g : Graph) :
    (clearCells moves g).rows = g.rows ∧ (clearCells moves g).cols = g.cols ∧
    (clearCells moves g).winner = g.winner ∧
    ∀ a b, (clearCells moves g).myGraph a b = if (a, b) ∈ moves then 0 else g.myGraph a b := by
  unfold clearCells
  induction moves generalizing g with
  | nil => simp
  | cons m ms ih =>
    obtain ⟨h1, h2, h3, h4⟩ := ih (g.setVal m.1 m.2 0)
    simp only [List.foldl_cons]
    refine ⟨h1, h2, h3, ?_⟩
    intro a b
    rw [h4 a b]
    by_cases hm : (a, b) ∈ ms
    · simp [hm]
    · by_cases hab : a = m.1 ∧ b = m.2
      · obtain ⟨rfl, rfl⟩ := hab
        simp [hm, Graph.setVal]
      · have hne : (a, b) ≠ m := by
          intro h; apply hab; subst h; exact ⟨rfl, rfl⟩
        simp [hm, hab, hne, Graph.setVal]

/-- The inner loop overwrites every listed cell: graphs that agree off the list agree
everywhere afterwards. -/
theorem playOut_agree :
    ∀ (ms : List Cell) (q : Int) (g h : Graph),
      (∀ a b, (a, b) ∉ ms → g.myGraph a b = h.myGraph a b) →
      ∀ a b, (playOut ms q g).myGraph a b = (playOut ms q h).myGraph a b := by
  intro ms
  induction ms with
  | nil => intro q g h hgh a b; exact hgh a b (by simp)
  | cons m ms ih =>
    intro q g h hgh a b
    unfold playOut
    apply ih
    intro a' b' hab
    simp only [Graph.setVal]
    by_cases hm : a' = m.1 ∧ b' = m.2
    · simp [hm]
    · simp only [hm, if_false]
      apply hgh
      intro hmem
      rcases List.mem_cons.1 hmem with h1 | h1
      · apply hm; rw [← h1]; exact ⟨rfl, rfl⟩
      · exact hab h1

/-- The boolean of `checkForWinner` depends on the dimensions and the cells only. -/
theorem checkForWinner_found_ext (g h : Graph) (p : Int) (hr : g.rows = h.rows)
    (hc : g.cols = h.cols) (hm : ∀ a b, g.myGraph a b = h.myGraph a b) :
    (checkForWinner g p).2 = (checkForWinner h p).2 := by
  have : g = { h with winner := g.winner } := Graph.ext_fields _ _ hr hc rfl hm
  rw [this]
  exact checkForWinner_found_congr h _ p

/-- The program's trial loop and the reference stay in step: same vector, same node and
tallies, same shuffle count, same dimensions, and graphs that agree off the moves. -/
theorem trialLoop_ref (rng : Nat → List Cell → List Cell) (hrng : IsShuffle rng)
    (player : Int) (moves0 : List Cell) :
    ∀ (n : Nat) (moves : List Cell) (node : TreeNode) (s t : Sim),
      List.Perm moves moves0 → s.shuffles = t.shuffles → s.graph.rows = t.graph.rows →
      s.graph.cols = t.graph.cols →
      (∀ a b, (a, b) ∉ moves0 → s.graph.myGraph a b = t.graph.myGraph a b) →
      (trialLoop rng player n moves node s).1 = (trialLoopRef rng player n moves node t).1 ∧
      (trialLoop rng player n moves node s).2.1 = (trialLoopRef rng player n moves node t).2.1 ∧
      (trialLoop rng player n moves node s).2.2.shuffles =
        (trialLoopRef rng player n moves node t).2.2.shuffles ∧
      (trialLoop rng player n moves node s).2.2.graph.rows =
        (trialLoopRef rng player n moves node t).2.2.graph.rows ∧
      (trialLoop rng player n moves node s).2.2.graph.cols =
        (trialLoopRef rng player n moves node t).2.2.graph.cols ∧
      (∀ a b, (a, b) ∉ moves0 →
        (trialLoop rng player n moves node s).2.2.graph.myGraph a b =
          (trialLoopRef rng player n moves node t).2.2.graph.myGraph a b) ∧
      (playOut (rng (trialLoop rng player n moves node s).2.2.shuffles
          (trialLoop rng player n moves node s).1) player
          (trialLoop rng player n moves node s).2.2.graph).myGraph =
        (playOut (rng (trialLoopRef rng player n moves node t).2.2.shuffles
          (trialLoopRef rng player n moves node t).1) player
          (trialLoopRef rng player n moves node t).2.2.graph).myGraph := by
  intro n
  induction n with
  | zero =>
    intro moves node s t hperm hsh hr hc hm
    refine ⟨rfl, rfl, hsh, hr, hc, hm, ?_⟩
    show (playOut (rng s.shuffles moves) player s.graph).myGraph =
      (playOut (rng t.shuffles moves) player t.graph).myGraph
    rw [hsh]
    funext a b
    apply playOut_agree
    intro a' b' hab
    exact hm a' b' (fun h => hab (((hrng _ _).trans hperm).mem_iff.2 h))
  | succ n ih =>
    intro moves node s t hperm hsh hr hc hm
    have hperm1 : List.Perm (rng s.shuffles moves) moves0 := (hrng _ _).trans hperm
    have hplay : ∀ a b, (playOut (rng s.shuffles moves) player s.graph).myGraph a b =
        (playOut (rng s.shuffles moves) player t.graph).myGraph a b := by
      apply playOut_agree
      intro a' b' hab
      exact hm a' b' (fun h => hab (hperm1.mem_iff.2 h))
    obtain ⟨ps1, ps2, _, _⟩ := playOut_frame (rng s.shuffles moves) player s.graph
    obtain ⟨pt1, pt2, _, _⟩ := playOut_frame (rng s.shuffles moves) player t.graph
    have hfound : (checkForWinner (playOut (rng s.shuffles moves) player s.graph) 1).2 =
        (checkForWinner (playOut (rng s.shuffles moves) player t.graph) 1).2 :=
      checkForWinner_found_ext _ _ 1 (by rw [ps1, pt1, hr]) (by rw [ps2, pt2, hc]) hplay
    obtain ⟨cs1, cs2, cs3⟩ := checkForWinner_cells
      (playOut (rng s.shuffles moves) player s.graph) 1
    obtain ⟨ct1, ct2, ct3⟩ := checkForWinner_cells
      (playOut (rng s.shuffles moves) player t.graph) 1
    obtain ⟨cl1, cl2, _, cl4⟩ := clearCells_frame (rng s.shuffles moves)
      (checkForWinner (playOut (rng s.shuffles moves) player t.graph) 1).1
    unfold trialLoop trialLoopRef
    simp only
    rw [← hsh, ← hfound]
    apply ih
    · exact hperm1
    · simp only [hsh]
    · simp only; rw [cs2, ps1, cl1, ct2, pt1, hr]
    · simp only; rw [cs3, ps2, cl2, ct3, pt2, hc]
    · intro a b hab
      have hab' : (a, b) ∉ rng s.shuffles moves := fun h => hab (hperm1.mem_iff.1 h)
      simp only
      rw [cl4, if_neg hab', cs1, ct1]
      exact hplay a b

/-- The reference trial loop leaves every cell as it found it when the moves are empty
cells. -/
theorem trialLoopRef_cells (rng : Nat → List Cell → List Cell) (hrng : IsShuffle rng)
    (player : Int) (moves0 : List Cell) :
    ∀ (n : Nat) (moves : List Cell) (node : TreeNode) (t : Sim),
      List.Perm moves moves0 → (∀ a b, (a, b) ∈ moves0 → t.graph.myGraph a b = 0) →
      (∀ a b, (trialLoopRef rng player n moves node t).2.2.graph.myGraph a b =
        t.graph.myGraph a b) ∧
      (trialLoopRef rng player n moves node t).2.2.graph.rows = t.graph.rows ∧
      (trialLoopRef rng player n moves node t).2.2.graph.cols = t.graph.cols := by
  intro n
  induction n with
  | zero => intro moves node t _ _; exact ⟨fun _ _ => rfl, rfl, rfl⟩
  | succ n ih =>
    intro moves node t hperm hzero
    have hperm1 : List.Perm (rng t.shuffles moves) moves0 := (hrng _ _).trans hperm
    obtain ⟨pt1, pt2, _, pt4⟩ := playOut_frame (rng t.shuffles moves) player t.graph
    obtain ⟨ct1, ct2, ct3⟩ := checkForWinner_cells
      (playOut (rng t.shuffles moves) player t.graph) 1
    obtain ⟨cl1, cl2, _, cl4⟩ := clearCells_frame (rng t.shuffles moves)
      (checkForWinner (playOut (rng t.shuffles moves) player t.graph) 1).1
    have hcells : ∀ a b, (clearCells (rng t.shuffles moves)
        (checkForWinner (playOut (rng t.shuffles moves) player t.graph) 1).1).myGraph a b =
        t.graph.myGraph a b := by
      intro a b
      rw [cl4]
      by_cases hab : (a, b) ∈ rng t.shuffles moves
      · rw [if_pos hab, hzero a b (hperm1.mem_iff.1 hab)]
      · rw [if_neg hab, ct1, pt4 a b hab]
    unfold trialLoopRef
    simp only
    obtain ⟨i1, i2, i3⟩ := ih (rng t.shuffles moves)
      (node.addResult (if (checkForWinner (playOut (rng t.shuffles moves) player t.graph) 1).2
        then 1 else 2))
      { graph := clearCells (rng t.shuffles moves)
          (checkForWinner (playOut (rng t.shuffles moves) player t.graph) 1).1,
        shuffles := t.shuffles + 1 } hperm1
      (by intro a b hab; simp only; rw [hcells]; exact hzero a b hab)
    refine ⟨?_, ?_, ?_⟩
    · intro a b; rw [i1]; exact hcells a b
    · rw [i2]; simp only; rw [cl1, ct2, pt1]
    · rw [i3]; simp only; rw [cl2, ct3, pt2]

theorem monteCarloLog_leaf (rng : Nat → List Cell → List Cell) (isRoot : Bool)
    (path : List Cell) (row col : Int) (p1wins p2wins : Nat) (player : Int) (s : Sim) :
    monteCarloLog rng isRoot path ⟨row, col, p1wins, p2wins, []⟩ player s =
      (((runTrials rng ⟨row, col, p1wins, p2wins, []⟩ (switchPlayer player)
            (enterNode isRoot row col player s)).1,
          leaveNode isRoot row col
            (runTrials rng ⟨row, col, p1wins, p2wins, []⟩ (switchPlayer player)
              (enterNode isRoot row col player s)).2),
        [{ path := if isRoot then path else path ++ [(row, col)],
           player := switchPlayer player,
           graph := (enterNode isRoot row col player s).graph }]) := by
  rw [monteCarloLog]
  cases isRoot <;> rfl

theorem monteCarloLog_inner (rng : Nat → List Cell → List Cell) (isRoot : Bool)
    (path : List Cell) (row col : Int) (p1wins p2wins : Nat) (c : TreeNode)
    (cs : List TreeNode) (player : Int) (s : Sim) :
    monteCarloLog rng isRoot path ⟨row, col, p1wins, p2wins, c :: cs⟩ player s =
      ((⟨row, col, p1wins, p2wins,
          (monteCarloChildrenLog rng (if isRoot then path else path ++ [(row, col)]) (c :: cs)
            (switchPlayer player) (enterNode isRoot row col player s)).1.1⟩,
        leaveNode isRoot row col
          (monteCarloChildrenLog rng (if isRoot then path else path ++ [(row, col)]) (c :: cs)
            (switchPlayer player) (enterNode isRoot row col player s)).1.2),
       (monteCarloChildrenLog rng (if isRoot then path else path ++ [(row, col)]) (c :: cs)
          (switchPlayer player) (enterNode isRoot row col player s)).2) := by
  rw [monteCarloLog]
  cases isRoot <;> rfl

theorem monteCarloChildrenLog_nil (rng : Nat → List Cell → List Cell) (path : List Cell)
    (player : Int) (s : Sim) :
    monteCarloChildrenLog rng path [] player s = (([], s), []) := by
  rw [monteCarloChildrenLog]

theorem monteCarloChildrenLog_cons (rng : Nat → List Cell → List Cell) (path : List Cell)
    (c : TreeNode) (cs : List TreeNode) (player : Int) (s : Sim) :
    monteCarloChildrenLog rng path (c :: cs) player s =
      (((monteCarloLog rng false path c player s).1.1 ::
          (monteCarloChildrenLog rng path cs player
            (monteCarloLog rng false path c player s).1.2).1.1,
        (monteCarloChildrenLog rng path cs player
          (monteCarloLog rng false path c player s).1.2).1.2),
       (monteCarloLog rng false path c player s).2 ++
        (monteCarloChildrenLog rng path cs player
          (monteCarloLog rng false path c player s).1.2).2) := by
  rw [monteCarloChildrenLog]

/-- The logging traversal computes what `monteCarlo` computes. -/
theorem monteCarloLog_erase (rng : Nat → List Cell → List Cell) :
    (∀ (node : TreeNode) (isRoot : Bool) (path : List Cell) (player : Int) (s : Sim),
      (monteCarloLog rng isRoot path node player s).1 = monteCarlo rng isRoot node player s) ∧
    (∀ (cs : List TreeNode) (path : List Cell) (player : Int) (s : Sim),
      (monteCarloChildrenLog rng path cs player s).1 = monteCarloChildren rng cs player s) := by
  apply TreeNode.induction
  · intro row col p1 p2 cs ih isRoot path player s
    cases cs with
    | nil => rw [monteCarloLog_leaf, monteCarlo_leaf]
    | cons c cs => rw [monteCarloLog_inner, monteCarlo_inner, ih]
  · intro path player s
    rw [monteCarloChildrenLog_nil, monteCarloChildren_nil]
  · intro c cs ihc ihcs path player s
    rw [monteCarloChildrenLog_cons, monteCarloChildren_cons, ihc, ihcs]

theorem LeafPath.mono {l l' : List TreeNode} {sfx : List Cell} (h : LeafPath l sfx)
    (hsub : ∀ x ∈ l, x ∈ l') : LeafPath l' sfx := by
  cases h with
  | leaf c _ hc hl => exact LeafPath.leaf c l' (hsub c hc) hl
  | inner c _ rest hc hr => exact LeafPath.inner c l' rest (hsub c hc) hr

theorem switchTimes_succ (n : Nat) (p : Int) :
    switchTimes (n + 1) p = switchTimes n (switchPlayer p) := rfl

/-- Every logged call of `runTrials` belongs to a way down to a leaf: the graph at the
call has the cells of that way assigned alternately, and the player argument is the one
whose turn follows. -/
theorem monteCarloLog_entries (rng : Nat → List Cell → List Cell) (hrng : IsShuffle rng) :
    (∀ (node : TreeNode) (path : List Cell) (player : Int) (s : Sim), player ≠ 0 →
      FitsNode node (freeCells s.graph) →
      ∀ e ∈ (monteCarloLog rng false path node player s).2,
        ∃ sfx, LeafPath [node] sfx ∧ e.path = path ++ sfx ∧
          e.player = switchTimes sfx.length player ∧
          ∀ a b, e.graph.myGraph a b = (playOut sfx player s.graph).myGraph a b) ∧
    (∀ (cs : List TreeNode) (path : List Cell) (player : Int) (s : Sim), player ≠ 0 →
      FitsChildren cs (freeCells s.graph) →
      ∀ e ∈ (monteCarloChildrenLog rng path cs player s).2,
        ∃ sfx, LeafPath cs sfx ∧ e.path = path ++ sfx ∧
          e.player = switchTimes sfx.length player ∧
          ∀ a b, e.graph.myGraph a b = (playOut sfx player s.graph).myGraph a b) := by
  apply TreeNode.induction
  · intro row col p1 p2 cs ih path player s hpl hfit e he
    rw [fitsNode_mk] at hfit
    cases cs with
    | nil =>
      rw [monteCarloLog_leaf] at he
      simp only [Bool.false_eq_true, if_false, List.mem_singleton] at he
      subst he
      refine ⟨[(row, col)], LeafPath.leaf ⟨row, col, p1, p2, []⟩ _ (List.mem_singleton.2 rfl) rfl,
        rfl, rfl, fun _ _ => rfl⟩
    | cons c cs =>
      rw [monteCarloLog_inner] at he
      simp only [Bool.false_eq_true, if_false] at he
      have hfit1 : FitsChildren (c :: cs)
          (freeCells (enterNode false row col player s).graph) :=
        fitsChildren_congr _ _ _
          (fun a b => (freeCells_setVal s.graph row col player hpl a b).symm) hfit.2
      obtain ⟨sfx, hl, hp, hpl', hcells⟩ := ih (path ++ [(row, col)]) (switchPlayer player)
        (enterNode false row col player s) (switchPlayer_ne_zero _) hfit1 e he
      refine ⟨(row, col) :: sfx,
        LeafPath.inner ⟨row, col, p1, p2, c :: cs⟩ _ sfx (List.mem_singleton.2 rfl) hl, ?_, ?_, ?_⟩
      · rw [hp]; simp
      · rw [hpl']; rfl
      · intro a b; rw [hcells a b]; rfl
  · intro path player s _ _ e he
    rw [monteCarloChildrenLog_nil] at he
    simp at he
  · intro c cs ihc ihcs path player s hpl hfit e he
    rw [fitsChildren_cons] at hfit
    rw [monteCarloChildrenLog_cons] at he
    simp only at he
    rcases List.mem_append.1 he with he | he
    · obtain ⟨sfx, hl, rest⟩ := ihc path player s hpl hfit.1 e he
      exact ⟨sfx, hl.mono (fun x hx => by
        rw [List.mem_singleton] at hx; rw [hx]; exact List.mem_cons_self _ _), rest⟩
    · have hgraph : (monteCarloLog rng false path c player s).1.2.graph =
          { s.graph with winner := 0 } := by
        rw [(monteCarloLog_erase rng).1]
        exact (monteCarlo_restores rng hrng).1 c false player s hpl (Or.inr ⟨rfl, hfit.1⟩)
      obtain ⟨sfx, hl, hp, hpl', hcells⟩ := ihcs path player
        (monteCarloLog rng false path c player s).1.2 hpl (by rw [hgraph]; exact hfit.2) e he
      refine ⟨sfx, hl.mono (fun x hx => List.mem_cons_of_mem _ hx), hp, hpl', ?_⟩
      intro a b
      rw [hcells a b, hgraph]
      exact playOut_agree sfx player { s.graph with winner := 0 } s.graph (fun _ _ _ => rfl) a b

theorem monteCarloLog_nonempty (rng : Nat → List Cell → List Cell) :
    (∀ (node : TreeNode) (isRoot : Bool) (path : List Cell) (player : Int) (s : Sim),
      (monteCarloLog rng isRoot path node player s).2 ≠ []) ∧
    (∀ (cs : List TreeNode) (path : List Cell) (player : Int) (s : Sim),
      cs ≠ [] → (monteCarloChildrenLog rng path cs player s).2 ≠ []) := by
  apply TreeNode.induction
  · intro row col p1 p2 cs ih isRoot path player s
    cases cs with
    | nil => rw [monteCarloLog_leaf]; simp
    | cons c cs => rw [monteCarloLog_inner]; exact ih _ _ _ (by simp)
  · intro path player s h
    exact absurd rfl h
  · intro c cs ihc _ path player s _
    rw [monteCarloChildrenLog_cons]
    simp only
    intro h
    exact ihc false path player s (List.append_eq_nil.1 h).1

theorem not_leafPath_nil (sfx : List Cell) : ¬ LeafPath [] sfx := by
  intro h
  cases h with
  | leaf c _ hc _ => simp at hc
  | inner c _ rest hc _ => simp at hc

theorem leafPath_fresh (l : List Cell) (sfx : List Cell)
    (h : LeafPath (l.map (fun mv => TreeNode.fresh mv.1 mv.2)) sfx) : ∃ d ∈ l, sfx = [d] := by
  cases h with
  | leaf c _ hc _ =>
    obtain ⟨d, hd, rfl⟩ := List.mem_map.1 hc
    exact ⟨d, hd, rfl⟩
  | inner c _ rest hc hr =>
    obtain ⟨d, hd, rfl⟩ := List.mem_map.1 hc
    exact absurd hr (not_leafPath_nil rest)

/-- The ways from the root of the tree built on `g` down to a leaf. -/
theorem leafPath_root (g : Graph) (sfx : List Cell)
    (h : LeafPath (Tree.create g).2.root.children sfx) :
    (∃ c, nextMoves g = [c] ∧ sfx = [c]) ∨
    (∃ c d, 2 ≤ (nextMoves g).length ∧ c ∈ nextMoves g ∧ d ∈ nextMoves g ∧ d ≠ c ∧
      sfx = [c, d]) := by
  rw [tree_root_children] at h
  split_ifs at h with h0 h1
  · exact absurd h (not_leafPath_nil sfx)
  · left
    obtain ⟨c, hc⟩ := List.length_eq_one.1 h1
    obtain ⟨d, hd, e⟩ := leafPath_fresh _ _ h
    rw [hc, List.mem_singleton] at hd
    subst hd
    exact ⟨d, hc, e⟩
  · right
    have h2 : 2 ≤ (nextMoves g).length := by omega
    cases h with
    | leaf c _ hc hl =>
      obtain ⟨mv, hmv, rfl⟩ := List.mem_map.1 hc
      exfalso
      have hlen := length_filter_ne mv (nextMoves g) (nextMoves_nodup g) hmv
      simp only at hl
      rw [List.map_eq_nil_iff] at hl
      rw [hl] at hlen
      simp at hlen
      omega
    | inner c _ rest hc hr =>
      obtain ⟨mv, hmv, rfl⟩ := List.mem_map.1 hc
      obtain ⟨d, hd, e⟩ := leafPath_fresh _ _ hr
      rw [List.mem_filter] at hd
      refine ⟨mv, d, h2, hmv, hd.1, by simpa using hd.2, ?_⟩
      rw [e]
      rfl

theorem playOut_one (c : Cell) (p : Int) (g : Graph) (a b : Int) :
    (playOut [c] p g).myGraph a b = if (a, b) = c then p else g.myGraph a b := by
  show (g.setVal c.1 c.2 p).myGraph a b = _
  simp only [Graph.setVal]
  by_cases h : (a, b) = c
  · subst h; simp
  · have : ¬ (a = c.1 ∧ b = c.2) := fun h' => h (Prod.ext h'.1 h'.2)
    simp [h, this]

theorem playOut_two (c d : Cell) (hne : d ≠ c) (p : Int) (g : Graph) (a b : Int) :
    (playOut [c, d] p g).myGraph a b =
      if (a, b) = c then p else if (a, b) = d then switchPlayer p else g.myGraph a b := by
  show ((g.setVal c.1 c.2 p).setVal d.1 d.2 (switchPlayer p)).myGraph a b = _
  simp only [Graph.setVal]
  by_cases h : (a, b) = c
  · subst h
    have : ¬ (a = d.1 ∧ b = d.2) := fun h' => hne (Prod.ext h'.1.symm h'.2.symm)
    simp [this]
  · have hc : ¬ (a = c.1 ∧ b = c.2) := fun h' => h (Prod.ext h'.1 h'.2)
    by_cases h' : (a, b) = d
    · subst h'; simp [h]
    · have hd : ¬ (a = d.1 ∧ b = d.2) := fun h'' => h' (Prod.ext h''.1 h''.2)
      simp [h, h', hc, hd]

/-- One more iteration allowed does not change what the completed loop returned. -/
theorem bfs_fuel_succ (g : Graph) (p : Int) :
    ∀ (fuel : Nat) (vis : Visited) (w : Int) (q : List Cell) (r : BfsResult),
      bfs g p fuel vis w q = some r → bfs g p (fuel + 1) vis w q = some r := by
  intro fuel
  induction fuel with
  | zero => intro vis w q r h; simp [bfs] at h
  | succ fuel ih =>
    intro vis w q r h
    cases q with
    | nil => rw [bfs_nil] at h ⊢; exact h
    | cons c q =>
      cases hx : (exploreNeighbors g p (markVisited vis c) (neighbors g c) w q).2.2 with
      | true => rw [bfs_cons_true g p _ vis w c q hx] at h ⊢; exact h
      | false =>
        rw [bfs_cons_false g p _ vis w c q hx] at h ⊢
        rcases hb : bfs g p fuel (markVisited vis c) w (q ++ pushed g p vis c) with _ | r0
        · rw [hb] at h; simp at h
        · rw [hb] at h
          rw [ih _ _ _ _ hb]
          exact h

theorem bfs_fuel_le (g : Graph) (p : Int) (fuel fuel1 : Nat) (hle : fuel ≤ fuel1)
    (vis : Visited) (w : Int) (q : List Cell) (r : BfsResult)
    (h : bfs g p fuel vis w q = some r) : bfs g p fuel1 vis w q = some r := by
  induction fuel1, hle using Nat.le_induction with
  | base => exact h
  | succ n _ ih => exact bfs_fuel_succ g p n vis w q r ih

/-- The loop dequeues no more nodes than its iteration bound. -/
theorem bfs_dequeued_le (g : Graph) (p : Int) :
    ∀ (fuel : Nat) (vis : Visited) (w : Int) (q : List Cell) (r : BfsResult),
      bfs g p fuel vis w q = some r → r.dequeued.length ≤ fuel := by
  intro fuel
  induction fuel with
  | zero => intro vis w q r h; simp [bfs] at h
  | succ fuel ih =>
    intro vis w q r h
    cases q with
    | nil =>
      rw [bfs_nil] at h
      cases h
      simp
    | cons c q =>
      cases hx : (exploreNeighbors g p (markVisited vis c) (neighbors g c) w q).2.2 with
      | true =>
        rw [bfs_cons_true g p _ vis w c q hx] at h
        cases h
        simp
      | false =>
        rw [bfs_cons_false g p _ vis w c q hx] at h
        rcases hb : bfs g p fuel (markVisited vis c) w (q ++ pushed g p vis c) with _ | r0
        · rw [hb] at h; simp at h
        · rw [hb] at h
          have := ih _ _ _ _ hb
          cases h
          simp
          omega

/-! ## Claims -/

/-- C1. On a board with more than one row and more than one column, `checkForWinner(p)`
for `p` in {1, 2} returns true exactly when some sequence of cells owned by `p`,
consecutive ones adjacent under the six-neighbour rule clipped to the grid, leads from the
starting edge of `p` to the target edge of `p`; in particular the check is true right after
a move of player 1 that completes such a path. -/
theorem checkForWinner_iff_winningPath (g : Graph) (p : Int) (hr : 1 < g.rows)
    (hc : 1 < g.cols) (hp : p = 1 ∨ p = 2) :
    ((checkForWinner g p).2 = true ↔ ∃ path : List Cell, WinningPath g p path) ∧
    (∀ (r c : Int) (path : List Cell), WinningPath (g.setVal r c 1) 1 path →
      (checkForWinner (g.setVal r c 1) 1).2 = true) := by
  have key : ∀ (h : Graph) (q : Int), 1 < h.rows → 1 < h.cols → (q = 1 ∨ q = 2) →
      ((checkForWinner h q).2 = true ↔ ∃ path : List Cell, WinningPath h q path) := by
    intro h q h1 h2 h3
    rw [checkForWinner_true_iff h q h1 h2 h3]
    constructor
    · rintro ⟨c, hcr, hct⟩
      exact winningPath_of_reach h q c hcr hct
    · rintro ⟨path, hpath⟩
      exact reach_of_winningPath h q path hpath
  refine ⟨key g p hr hc hp, ?_⟩
  intro r c path hpath
  exact (key (g.setVal r c 1) 1 hr hc (Or.inl rfl)).2 ⟨path, hpath⟩

/-- Witness for C1: the full 2x2 board and player 2. -/
theorem checkForWinner_iff_winningPath_witness :
    (1 < boardFull.rows ∧ 1 < boardFull.cols ∧ ((2 : Int) = 1 ∨ (2 : Int) = 2)) ∧
    (((checkForWinner boardFull 2).2 = true ↔ ∃ path : List Cell, WinningPath boardFull 2 path) ∧
    (∀ (r c : Int) (path : List Cell), WinningPath (boardFull.setVal r c 1) 1 path →
      (checkForWinner (boardFull.setVal r c 1) 1).2 = true)) :=
  ⟨⟨by decide, by decide, by decide⟩,
    checkForWinner_iff_winningPath boardFull 2 (by decide) (by decide) (by decide)⟩

/-- C2. No draw: on every board with more than one row and more than one column on which
every cell is owned by player 1 or player 2, exactly one of `checkForWinner(1)` and
`checkForWinner(2)` returns true; they are never both true and never both false. -/
theorem checkForWinner_no_draw (g : Graph) (hr : 1 < g.rows) (hc : 1 < g.cols)
    (hfull : ∀ c : Cell, InGrid g c → g.myGraph c.1 c.2 = 1 ∨ g.myGraph c.1 c.2 = 2) :
    ((checkForWinner g 1).2 = true ∨ (checkForWinner g 2).2 = true) ∧
    ¬ ((checkForWinner g 1).2 = true ∧ (checkForWinner g 2).2 = true) := by
  rw [checkForWinner_true_iff g 1 hr hc (Or.inl rfl),
    checkForWinner_true_iff g 2 hr hc (Or.inr rfl)]
  exact reach_exactly_one g hr hc hfull

/-- Witness for C2: the full 2x2 board with `(0, 0)` owned by player 1 and `(1, 1)` owned
by player 2. -/
theorem checkForWinner_no_draw_witness :
    (1 < boardRows.rows ∧ 1 < boardRows.cols ∧
      (boardRows.myGraph 0 0 = 1 ∧ boardRows.myGraph 1 1 = 2) ∧
      ∀ c : Cell, InGrid boardRows c →
        boardRows.myGraph c.1 c.2 = 1 ∨ boardRows.myGraph c.1 c.2 = 2) ∧
    (((checkForWinner boardRows 1).2 = true ∨ (checkForWinner boardRows 2).2 = true) ∧
    ¬ ((checkForWinner boardRows 1).2 = true ∧ (checkForWinner boardRows 2).2 = true)) := by
  have hfull : ∀ c : Cell, InGrid boardRows c →
      boardRows.myGraph c.1 c.2 = 1 ∨ boardRows.myGraph c.1 c.2 = 2 := by
    intro c _
    simp only [boardRows]
    split_ifs <;> simp
  exact ⟨⟨by decide, by decide, ⟨by decide, by decide⟩, hfull⟩,
    checkForWinner_no_draw boardRows (by decide) (by decide) hfull⟩

/-- C3. On every board with a free cell inside the grid, for every player and every
behaviour of the shuffle, the coordinates `Tree::getNextMove` hands back (on a tree built
against that board) satisfy `isLegal` on the input board: they lie inside the grid and
name a cell that was free. -/
theorem computeNextMove_legal (rng : Nat → List Cell → List Cell) (k : Nat) (g : Graph)
    (p : Int) (hfree : ∃ c : Cell, InGrid g c ∧ g.myGraph c.1 c.2 = 0) :
    ∃ row col : Int, (computeNextMove rng k g p).coords = Outcome.returned (row, col) ∧
      g.isLegal row col = some true ∧ InGrid g (row, col) ∧ g.myGraph row col = 0 := by
  obtain ⟨c, hc1, hc2⟩ := hfree
  have hne : nextMoves g ≠ [] := List.ne_nil_of_mem ((mem_nextMoves g c).2 ⟨hc1, hc2⟩)
  obtain ⟨mv, hmv, hsel⟩ := computeNextMove_selects rng k g p hne
  exact ⟨mv.1, mv.2, hsel, isLegal_of_mem_nextMoves g mv hmv, ((mem_nextMoves g mv).1 hmv).1,
    ((mem_nextMoves g mv).1 hmv).2⟩

/-- Witness for C3: the 2x2 board with the single free cell `(1, 0)`. -/
theorem computeNextMove_legal_witness :
    (∃ c : Cell, InGrid boardOneFree c ∧ boardOneFree.myGraph c.1 c.2 = 0) ∧
    ∃ row col : Int,
      (computeNextMove noShuffle 0 boardOneFree 2).coords = Outcome.returned (row, col) ∧
      boardOneFree.isLegal row col = some true ∧ InGrid boardOneFree (row, col) ∧
      boardOneFree.myGraph row col = 0 :=
  ⟨⟨(1, 0), by decide, by decide⟩,
    computeNextMove_legal noShuffle 0 boardOneFree 2 ⟨(1, 0), by decide, by decide⟩⟩

/-- C4. Restoration: whatever permutations the shuffle produces, after building the tree
and running `getNextMove` every cell of the board has the owner it had before, and the
dimensions are unchanged. -/
theorem computeNextMove_restores_cells (rng : Nat → List Cell → List Cell)
    (hrng : IsShuffle rng) (k : Nat) (g : Graph) (p : Int) :
    (∀ i j : Int, (computeNextMove rng k g p).sim.graph.myGraph i j = g.myGraph i j) ∧
    (computeNextMove rng k g p).sim.graph.rows = g.rows ∧
    (computeNextMove rng k g p).sim.graph.cols = g.cols := by
  rw [computeNextMove_graph rng hrng k g p]
  exact ⟨fun _ _ => rfl, rfl, rfl⟩

/-- Witness for C4: the identity shuffle on the board with one free cell. -/
theorem computeNextMove_restores_cells_witness :
    IsShuffle noShuffle ∧
    ((∀ i j : Int, (computeNextMove noShuffle 0 boardOneFree 1).sim.graph.myGraph i j =
        boardOneFree.myGraph i j) ∧
    (computeNextMove noShuffle 0 boardOneFree 1).sim.graph.rows = boardOneFree.rows ∧
    (computeNextMove noShuffle 0 boardOneFree 1).sim.graph.cols = boardOneFree.cols) :=
  ⟨fun _ _ => List.Perm.refl _,
    computeNextMove_restores_cells noShuffle (fun _ _ => List.Perm.refl _) 0 boardOneFree 1⟩

/-- C5. `isLegal(row, col)` returns for all integers `row`, `col`, without indexing outside
the grid; it returns true exactly when `0 ≤ row < rows`, `0 ≤ col < cols` and the cell is
empty, and false for every out-of-range pair. -/
theorem isLegal_iff (g : Graph) (row col : Int) :
    (∃ b, g.isLegal row col = some b) ∧
    (g.isLegal row col = some true ↔
      (0 ≤ row ∧ row < g.rows ∧ 0 ≤ col ∧ col < g.cols ∧ g.myGraph row col = 0)) ∧
    (¬ (0 ≤ row ∧ row < g.rows ∧ 0 ≤ col ∧ col < g.cols) → g.isLegal row col = some false) := by
  rw [isLegal_eq]
  refine ⟨⟨_, rfl⟩, ?_, ?_⟩
  · simp
  · intro h
    simp only [Option.some.injEq, decide_eq_false_iff_not]
    tauto

/-- C6, as the claim states it, fails: on the full 2x2 board the computation does not end
in the failure `NoLegalMoves`. -/
theorem computeNextMove_full_not_NoLegalMoves :
    (∀ c : Cell, InGrid boardFull c → boardFull.myGraph c.1 c.2 ≠ 0) ∧
    (computeNextMove noShuffle 0 boardFull 1).coords ≠ Outcome.raised Failure.NoLegalMoves := by
  refine ⟨boardFull_full, ?_⟩
  rw [(computeNextMove_full noShuffle 0 boardFull 1
    (nextMoves_eq_nil_of_full boardFull boardFull_full)).1]
  intro h
  cases h

/-- C6, amended. On a board without an empty cell the tree is a root without children,
`minMax` never assigns `nextMove`, and `getNextMove` signals no failure: what it hands back
is read through the unassigned `nextMove` and is undefined. -/
theorem computeNextMove_full_undefined (rng : Nat → List Cell → List Cell) (k : Nat)
    (g : Graph) (p : Int) (hfull : ∀ c : Cell, InGrid g c → g.myGraph c.1 c.2 ≠ 0) :
    (computeNextMove rng k g p).coords = Outcome.undefinedBehaviour ∧
    (computeNextMove rng k g p).tree.nextMove = none ∧
    (computeNextMove rng k g p).tree.root.children = [] :=
  computeNextMove_full rng k g p (nextMoves_eq_nil_of_full g hfull)

/-- Witness for the amended C6: the full 2x2 board. -/
theorem computeNextMove_full_undefined_witness :
    (∀ c : Cell, InGrid boardFull c → boardFull.myGraph c.1 c.2 ≠ 0) ∧
    ((computeNextMove noShuffle 0 boardFull 2).coords = Outcome.undefinedBehaviour ∧
    (computeNextMove noShuffle 0 boardFull 2).tree.nextMove = none ∧
    (computeNextMove noShuffle 0 boardFull 2).tree.root.children = []) :=
  ⟨boardFull_full, computeNextMove_full_undefined noShuffle 0 boardFull 2 boardFull_full⟩

/-- C7, as the claim states it, fails: `Graph(1, 1)` is not rejected with
`InvalidDimensions`. -/
theorem create_one_by_one_not_rejected :
    ¬ ((1 : Int) < 1 ∧ (1 : Int) < 1) ∧
    Graph.create 1 1 ≠ Outcome.raised Failure.InvalidDimensions := by
  refine ⟨by decide, ?_⟩
  intro h
  cases h

/-- C7, amended. `Graph(rows, columns)` never fails (the requirement of more than one row
and column is asserted by `main` before the call): for all integers it yields a board
with the given dimensions on which every cell is empty and the recorded winner is 0. -/
theorem create_total (r c : Int) :
    ∃ g : Graph, Graph.create r c = Outcome.returned g ∧ g.rows = r ∧ g.cols = c ∧
      g.winner = 0 ∧ ∀ i j : Int, g.myGraph i j = 0 :=
  ⟨_, rfl, rfl, rfl, rfl, fun _ _ => rfl⟩

/-- C8. On a board with exactly one empty cell, `getNextMove` with the built-in depth 2
hands back the coordinates of that cell, for every player and every behaviour of the
shuffle. -/
theorem computeNextMove_single_free (rng : Nat → List Cell → List Cell) (k : Nat)
    (g : Graph) (p : Int) (r c : Int) (hin : InGrid g (r, c)) (hfree : g.myGraph r c = 0)
    (honly : ∀ d : Cell, InGrid g d → g.myGraph d.1 d.2 = 0 → d = (r, c)) :
    (computeNextMove rng k g p).coords = Outcome.returned (r, c) := by
  have hne : nextMoves g ≠ [] := List.ne_nil_of_mem ((mem_nextMoves g (r, c)).2 ⟨hin, hfree⟩)
  obtain ⟨mv, hmv, hsel⟩ := computeNextMove_selects rng k g p hne
  obtain ⟨h1, h2⟩ := (mem_nextMoves g mv).1 hmv
  rw [hsel, honly mv h1 h2]

/-- Witness for C8: the 2x2 board whose only empty cell is `(1, 0)`. -/
theorem computeNextMove_single_free_witness :
    (InGrid boardOneFree (1, 0) ∧ boardOneFree.myGraph 1 0 = 0 ∧
      ∀ d : Cell, InGrid boardOneFree d → boardOneFree.myGraph d.1 d.2 = 0 → d = (1, 0)) ∧
    (computeNextMove noShuffle 0 boardOneFree 2).coords = Outcome.returned (1, 0) := by
  have honly : ∀ d : Cell, InGrid boardOneFree d → boardOneFree.myGraph d.1 d.2 = 0 →
      d = (1, 0) := by
    rintro ⟨i, j⟩ _ h
    simp only [boardOneFree] at h
    split_ifs at h with hij
    · rw [hij.1, hij.2]
    · norm_num at h
  exact ⟨⟨by decide, by decide, honly⟩,
    computeNextMove_single_free noShuffle 0 boardOneFree 2 1 0 (by decide) (by decide) honly⟩

/-- C9. Calling `checkForWinner(p)` twice in a row, from any recorded winner `w`, returns
the same boolean both times, and the second call leaves the recorded winner the first
call left. -/
theorem checkForWinner_idempotent (g : Graph) (w : Int) (p : Int) :
    (checkForWinner (checkForWinner { g with winner := w } p).1 p).2 =
      (checkForWinner { g with winner := w } p).2 ∧
    (checkForWinner (checkForWinner { g with winner := w } p).1 p).1.winner =
      (checkForWinner { g with winner := w } p).1.winner :=
  checkForWinner_twice { g with winner := w } p

/-- C10. `checkForWinner(p)` changes no cell and no dimension; when it returns true the
recorded winner is `p` afterwards, and when it returns false the recorded winner is what
it was before the call. -/
theorem checkForWinner_records_winner (g : Graph) (p : Int) :
    (∀ i j : Int, (checkForWinner g p).1.myGraph i j = g.myGraph i j) ∧
    (checkForWinner g p).1.rows = g.rows ∧ (checkForWinner g p).1.cols = g.cols ∧
    ((checkForWinner g p).2 = true → (checkForWinner g p).1.winner = p) ∧
    ((checkForWinner g p).2 = false → (checkForWinner g p).1.winner = g.winner) := by
  obtain ⟨r, _, e⟩ := checkForWinner_eq g p
  rw [e]
  refine ⟨fun _ _ => rfl, rfl, rfl, ?_, ?_⟩ <;> intro h <;> simp only at h <;> simp [h]

/-- C11, as the claim states it, fails: with one empty cell and recorded winner 1 before
the call, the recorded winner after `getNextMove` is not 1. -/
theorem computeNextMove_winner_not_kept :
    (∃ c : Cell, InGrid boardOneFreeWon c ∧ boardOneFreeWon.myGraph c.1 c.2 = 0) ∧
    boardOneFreeWon.winner = 1 ∧
    (computeNextMove noShuffle 0 boardOneFreeWon 2).sim.graph.winner ≠ 1 := by
  refine ⟨⟨(1, 0), by decide, by decide⟩, rfl, ?_⟩
  rw [computeNextMove_graph noShuffle isShuffle_noShuffle 0 boardOneFreeWon 2]
  decide

/-- C11, amended. After `getNextMove` every cell and both dimensions of the board are as
before the call and the recorded winner is 0 (`resetGraph` clears it), whatever it was
before; so the whole board is identical to its state before the call exactly when the
recorded winner was 0 then, the only situation in which `main` asks for a move. -/
theorem computeNextMove_winner_reset (rng : Nat → List Cell → List Cell)
    (hrng : IsShuffle rng) (k : Nat) (g : Graph) (p : Int) :
    (computeNextMove rng k g p).sim.graph.winner = 0 ∧
    (∀ i j : Int, (computeNextMove rng k g p).sim.graph.myGraph i j = g.myGraph i j) ∧
    (computeNextMove rng k g p).sim.graph.rows = g.rows ∧
    (computeNextMove rng k g p).sim.graph.cols = g.cols ∧
    ((computeNextMove rng k g p).sim.graph = g ↔ g.winner = 0) := by
  rw [computeNextMove_graph rng hrng k g p]
  refine ⟨rfl, fun _ _ => rfl, rfl, rfl, ?_⟩
  constructor
  · intro h
    have := congrArg Graph.winner h
    exact this.symm
  · intro h
    exact Graph.ext_fields _ _ rfl rfl h.symm (fun _ _ => rfl)

/-- Witness for the amended C11: the identity shuffle on the board with recorded
winner 1. -/
theorem computeNextMove_winner_reset_witness :
    IsShuffle noShuffle ∧
    ((computeNextMove noShuffle 0 boardOneFreeWon 2).sim.graph.winner = 0 ∧
    (∀ i j : Int, (computeNextMove noShuffle 0 boardOneFreeWon 2).sim.graph.myGraph i j =
      boardOneFreeWon.myGraph i j) ∧
    (computeNextMove noShuffle 0 boardOneFreeWon 2).sim.graph.rows = boardOneFreeWon.rows ∧
    (computeNextMove noShuffle 0 boardOneFreeWon 2).sim.graph.cols = boardOneFreeWon.cols ∧
    ((computeNextMove noShuffle 0 boardOneFreeWon 2).sim.graph = boardOneFreeWon ↔
      boardOneFreeWon.winner = 0)) :=
  ⟨fun _ _ => List.Perm.refl _,
    computeNextMove_winner_reset noShuffle (fun _ _ => List.Perm.refl _) 0 boardOneFreeWon 2⟩

/-- C12. Minimax selection. On a board with at least two empty cells, after the rollouts
every child of the root has children, each a leaf with `MAX_TRIALS` trials, and
`getNextMove(p)` hands back a child `c` of the root whose value, the minimum over the
children of `c` of the tally of `p` divided by the total number of trials, is the greatest
among the values of all children of the root. -/
theorem getNextMove_minimax (rng : Nat → List Cell → List Cell) (k : Nat) (g : Graph)
    (p : Int) (c1 c2 : Cell) (h1 : InGrid g c1 ∧ g.myGraph c1.1 c1.2 = 0)
    (h2 : InGrid g c2 ∧ g.myGraph c2.1 c2.2 = 0) (hne : c1 ≠ c2) :
    (∀ c ∈ (computeNextMove rng k g p).tree.root.children,
      c.children ≠ [] ∧
        ∀ d ∈ c.children, d.children = [] ∧ d.p1wins + d.p2wins = MAX_TRIALS) ∧
    ∃ c v, c ∈ (computeNextMove rng k g p).tree.root.children ∧
      (computeNextMove rng k g p).tree.nextMove = some c ∧
      (computeNextMove rng k g p).coords = Outcome.returned (c.row, c.col) ∧
      IsMinOverChildren p c v ∧
      ∀ c' ∈ (computeNextMove rng k g p).tree.root.children,
        ∀ v', IsMinOverChildren p c' v' → v' ≤ v := by
  have hlen : 2 ≤ (nextMoves g).length :=
    two_le_length_of_mem _ c1 c2 ((mem_nextMoves g c1).2 h1) ((mem_nextMoves g c2).2 h2) hne
  have htree := computeNextMove_tree_two rng k g p hlen
  refine ⟨htree, ?_⟩
  obtain ⟨pre, c, post, e, hnm, hco, hpre, hpost⟩ :=
    computeNextMove_first_best rng k g p (List.ne_nil_of_mem ((mem_nextMoves g c1).2 h1))
  have hc : c ∈ (computeNextMove rng k g p).tree.root.children := by
    rw [e]; simp
  refine ⟨c, childValue p c, hc, hnm, hco, childValue_isMin p c (htree c hc).1, ?_⟩
  intro c' hc' v' hv'
  rw [isMinOverChildren_unique p c' v' _ hv' (childValue_isMin p c' (htree c' hc').1)]
  rw [e] at hc'
  rcases List.mem_append.1 hc' with h | h
  · exact le_of_lt (hpre c' h)
  · rcases List.mem_cons.1 h with rfl | h
    · exact le_refl _
    · exact hpost c' h

/-- Witness for C12: the empty 2x2 board. -/
theorem getNextMove_minimax_witness :
    ((InGrid boardEmpty (0, 0) ∧ boardEmpty.myGraph 0 0 = 0) ∧
      (InGrid boardEmpty (1, 1) ∧ boardEmpty.myGraph 1 1 = 0) ∧ ((0, 0) : Cell) ≠ (1, 1)) ∧
    ((∀ c ∈ (computeNextMove noShuffle 0 boardEmpty 1).tree.root.children,
      c.children ≠ [] ∧
        ∀ d ∈ c.children, d.children = [] ∧ d.p1wins + d.p2wins = MAX_TRIALS) ∧
    ∃ c v, c ∈ (computeNextMove noShuffle 0 boardEmpty 1).tree.root.children ∧
      (computeNextMove noShuffle 0 boardEmpty 1).tree.nextMove = some c ∧
      (computeNextMove noShuffle 0 boardEmpty 1).coords = Outcome.returned (c.row, c.col) ∧
      IsMinOverChildren 1 c v ∧
      ∀ c' ∈ (computeNextMove noShuffle 0 boardEmpty 1).tree.root.children,
        ∀ v', IsMinOverChildren 1 c' v' → v' ≤ v) :=
  ⟨⟨⟨by decide, by decide⟩, ⟨by decide, by decide⟩, by decide⟩,
    getNextMove_minimax noShuffle 0 boardEmpty 1 (0, 0) (1, 1) ⟨by decide, by decide⟩
      ⟨by decide, by decide⟩ (by decide)⟩

/-- C13. Tie-break. On a board with an empty cell, the children of the root stand in the
row-major order of the board's empty cells, and `getNextMove` hands back the first child
of greatest minimax value: every child before it has a strictly smaller value and no child
after it a greater one. The coordinates depend on the shuffle only through the permutations
it returns. -/
theorem getNextMove_first_best (rng : Nat → List Cell → List Cell) (k : Nat) (g : Graph)
    (p : Int) (hfree : ∃ c : Cell, InGrid g c ∧ g.myGraph c.1 c.2 = 0) :
    (computeNextMove rng k g p).tree.root.children.map TreeNode.cell = nextMoves g ∧
    (nextMoves g).Pairwise RowMajorLt ∧
    (∃ pre c post, (computeNextMove rng k g p).tree.root.children = pre ++ c :: post ∧
      (computeNextMove rng k g p).tree.nextMove = some c ∧
      (computeNextMove rng k g p).coords = Outcome.returned (c.row, c.col) ∧
      (∀ c' ∈ pre, childValue p c' < childValue p c ∧ RowMajorLt c'.cell c.cell) ∧
      (∀ c' ∈ post, childValue p c' ≤ childValue p c ∧ RowMajorLt c.cell c'.cell)) ∧
    ∀ rng' : Nat → List Cell → List Cell, (∀ i l, rng' i l = rng i l) →
      (computeNextMove rng' k g p).coords = (computeNextMove rng k g p).coords := by
  obtain ⟨c0, hc0⟩ := hfree
  have hne : nextMoves g ≠ [] := List.ne_nil_of_mem ((mem_nextMoves g c0).2 hc0)
  have hcells := computeNextMove_root_cells rng k g p
  have hsorted := nextMoves_sorted g
  refine ⟨hcells, hsorted, ?_, ?_⟩
  · obtain ⟨pre, c, post, e, hnm, hco, hpre, hpost⟩ := computeNextMove_first_best rng k g p hne
    refine ⟨pre, c, post, e, hnm, hco, ?_, ?_⟩
    · intro c' hc'
      refine ⟨hpre c' hc', ?_⟩
      rw [← hcells, e, List.map_append, List.map_cons, List.pairwise_append] at hsorted
      exact hsorted.2.2 _ (List.mem_map_of_mem _ hc') _ (List.mem_cons_self _ _)
    · intro c' hc'
      refine ⟨hpost c' hc', ?_⟩
      rw [← hcells, e, List.map_append, List.map_cons, List.pairwise_append,
        List.pairwise_cons] at hsorted
      exact hsorted.2.1.1 _ (List.mem_map_of_mem _ hc')
  · intro rng' h
    have : rng' = rng := funext (fun i => funext (fun l => h i l))
    rw [this]

/-- Witness for C13: the empty 2x2 board. -/
theorem getNextMove_first_best_witness :
    (∃ c : Cell, InGrid boardEmpty c ∧ boardEmpty.myGraph c.1 c.2 = 0) ∧
    ((computeNextMove noShuffle 0 boardEmpty 2).tree.root.children.map TreeNode.cell =
      nextMoves boardEmpty ∧
    (nextMoves boardEmpty).Pairwise RowMajorLt ∧
    (∃ pre c post, (computeNextMove noShuffle 0 boardEmpty 2).tree.root.children =
        pre ++ c :: post ∧
      (computeNextMove noShuffle 0 boardEmpty 2).tree.nextMove = some c ∧
      (computeNextMove noShuffle 0 boardEmpty 2).coords = Outcome.returned (c.row, c.col) ∧
      (∀ c' ∈ pre, childValue 2 c' < childValue 2 c ∧ RowMajorLt c'.cell c.cell) ∧
      (∀ c' ∈ post, childValue 2 c' ≤ childValue 2 c ∧ RowMajorLt c.cell c'.cell)) ∧
    ∀ rng' : Nat → List Cell → List Cell, (∀ i l, rng' i l = noShuffle i l) →
      (computeNextMove rng' 0 boardEmpty 2).coords =
        (computeNextMove noShuffle 0 boardEmpty 2).coords) :=
  ⟨⟨(0, 0), by decide, by decide⟩,
    getNextMove_first_best noShuffle 0 boardEmpty 2 ⟨(0, 0), by decide, by decide⟩⟩

/-- C14 at the failing input: on the 2x2 board with the single empty cell `(1, 0)` the
tree has depth 1 and its only leaf has had `MAX_TRIALS` trials, yet the value `minMax`
computes for that leaf is the constant 2, which is not its rollout win probability (at
most 1). -/
theorem leaf_value_at_depth_one :
    (Tree.create boardOneFree).2.depth = 1 ∧
    ∃ leaf : TreeNode,
      (computeNextMove noShuffle 0 boardOneFree 2).tree.root.children = [leaf] ∧
      leaf.cell = (1, 0) ∧ leaf.children = [] ∧ leaf.p1wins + leaf.p2wins = MAX_TRIALS ∧
      (minMax leaf false 2 1 none).1 = 2 ∧ rolloutProbability 2 leaf ≤ 1 ∧
      (minMax leaf false 2 1 none).1 ≠ rolloutProbability 2 leaf := by
  have hlen : (nextMoves boardOneFree).length = 1 := by rw [boardOneFree_nextMoves]; rfl
  have hcells := computeNextMove_root_cells noShuffle 0 boardOneFree 2
  rw [boardOneFree_nextMoves] at hcells
  constructor
  · rw [(tree_create_spec boardOneFree).2.2.1, hlen]; rfl
  · cases hch : (computeNextMove noShuffle 0 boardOneFree 2).tree.root.children with
    | nil => rw [hch] at hcells; simp at hcells
    | cons leaf rest =>
      rw [hch] at hcells
      simp only [List.map_cons, List.cons.injEq, List.map_eq_nil_iff] at hcells
      obtain ⟨hcell, hrest⟩ := hcells
      subst hrest
      obtain ⟨hl1, hl2⟩ := computeNextMove_tree_one noShuffle 0 boardOneFree 2 hlen leaf
        (by rw [hch]; exact List.mem_cons_self _ _)
      have hval : (minMax leaf false 2 1 none).1 = 2 := by
        rw [minMax_child, hl1]; rfl
      have hle := rolloutProbability_le_one 2 leaf
      refine ⟨leaf, rfl, hcell, hl1, hl2, hval, hle, ?_⟩
      rw [hval]
      intro h
      rw [← h] at hle
      norm_num at hle

/-- C15. Tree shape. The tree `Tree::Tree` builds on a board with `k` empty cells has depth
`min(2, k)`. The root's children are the empty cells of the board, in row-major order and
without repetition. With `k = 1` the single child is a leaf. With `k ≥ 2` each child has
as children the empty cells other than its own, again in row-major order, `k - 1` of them,
and each of those is a leaf. -/
theorem tree_shape (g : Graph) :
    (∀ c : Cell, c ∈ nextMoves g ↔ InGrid g c ∧ g.myGraph c.1 c.2 = 0) ∧
    (nextMoves g).Nodup ∧ (nextMoves g).Pairwise RowMajorLt ∧
    (Tree.create g).2.depth = min 2 (nextMoves g).length ∧
    (Tree.create g).2.root.children.map TreeNode.cell = nextMoves g ∧
    (Tree.create g).2.root.children.length = (nextMoves g).length ∧
    ((nextMoves g).length = 1 → ∀ c ∈ (Tree.create g).2.root.children, c.children = []) ∧
    (2 ≤ (nextMoves g).length → ∀ c ∈ (Tree.create g).2.root.children,
      c.children.map TreeNode.cell = (nextMoves g).filter (fun x => decide (x ≠ c.cell)) ∧
      c.children.length + 1 = (nextMoves g).length ∧
      ∀ d ∈ c.children, d.children = []) := by
  have hmap : (Tree.create g).2.root.children.map TreeNode.cell = nextMoves g := by
    rw [tree_root_children]
    split_ifs with h0 h1
    · rw [List.length_eq_zero] at h0
      rw [h0]; rfl
    · exact map_cell_fresh _
    · rw [List.map_map]
      conv_rhs => rw [← List.map_id (nextMoves g)]
      apply List.map_congr_left
      intro mv _
      rfl
  refine ⟨mem_nextMoves g, nextMoves_nodup g, nextMoves_sorted g, (tree_create_spec g).2.2.1,
    hmap, ?_, ?_, ?_⟩
  · rw [← hmap, List.length_map]
  · intro h1 c hc
    rw [tree_root_children, if_neg (by omega), if_pos h1] at hc
    obtain ⟨mv, _, rfl⟩ := List.mem_map.1 hc
    rfl
  · intro h2 c hc
    rw [tree_root_children, if_neg (by omega), if_neg (by omega)] at hc
    obtain ⟨mv, hmv, rfl⟩ := List.mem_map.1 hc
    refine ⟨?_, ?_, ?_⟩
    · exact map_cell_fresh _
    · simp only [List.length_map]
      exact length_filter_ne mv (nextMoves g) (nextMoves_nodup g) hmv
    · intro d hd
      simp only at hd
      obtain ⟨mv', _, rfl⟩ := List.mem_map.1 hd
      rfl

/-- C16. Rollout fill. In trial `i` of `runTrials(node, q)` the shuffled vector is a
permutation of the cells that were empty when `runTrials` was entered; the cell at
position `j` of it is owned by `q` when `j` is even and by the other player when `j` is
odd at the moment `checkForWinner(1)` is called; no cell of the grid is empty at that
moment; and the trial adds one to `p1wins` if that check is true and one to `p2wins`
otherwise. -/
theorem runTrials_fill (rng : Nat → List Cell → List Cell) (hrng : IsShuffle rng)
    (node : TreeNode) (q : Int) (hq : q = 1 ∨ q = 2) (s : Sim) (i : Nat) :
    List.Perm (trialPerm rng q i node s) (nextMoves s.graph) ∧
    (∀ (j : Nat) (hj : j < (trialPerm rng q i node s).length),
      (trialBoard rng q i node s).myGraph ((trialPerm rng q i node s).get ⟨j, hj⟩).1
        ((trialPerm rng q i node s).get ⟨j, hj⟩).2 = if j % 2 = 0 then q else switchPlayer q) ∧
    (∀ c : Cell, InGrid s.graph c → (trialBoard rng q i node s).myGraph c.1 c.2 ≠ 0) ∧
    (trialState rng q (i + 1) node s).2.1.p1wins =
      (trialState rng q i node s).2.1.p1wins +
        (if (checkForWinner (trialBoard rng q i node s) 1).2 then 1 else 0) ∧
    (trialState rng q (i + 1) node s).2.1.p2wins =
      (trialState rng q i node s).2.1.p2wins +
        (if (checkForWinner (trialBoard rng q i node s) 1).2 then 0 else 1) := by
  have hperm := trialPerm_perm rng hrng q i node s
  have hnd : (trialPerm rng q i node s).Nodup := hperm.nodup_iff.2 (nextMoves_nodup _)
  have hget := playOut_get (trialPerm rng q i node s) q (trialState rng q i node s).2.2.graph
    hq hnd
  refine ⟨hperm, hget, ?_, ?_, ?_⟩
  · intro c hc
    by_cases hmem : c ∈ trialPerm rng q i node s
    · obtain ⟨n, hn⟩ := List.mem_iff_get.1 hmem
      have := hget n.1 n.2
      have hn' : (trialPerm rng q i node s).get ⟨n.1, n.2⟩ = c := hn
      rw [hn'] at this
      show (playOut (trialPerm rng q i node s) q (trialState rng q i node s).2.2.graph).myGraph
        c.1 c.2 ≠ 0
      rw [this]
      split_ifs
      · rcases hq with rfl | rfl <;> norm_num
      · exact switchPlayer_ne_zero q
    · have h1 := (playOut_frame (trialPerm rng q i node s) q
        (trialState rng q i node s).2.2.graph).2.2.2 c.1 c.2 hmem
      have hmem' : c ∉ nextMoves s.graph := fun h => hmem (hperm.mem_iff.2 h)
      have h2 := (trialLoop_frame rng hrng q i (nextMoves s.graph) node s).2.2.2.2.2.2.2.2
        c.1 c.2 hmem'
      show (playOut (trialPerm rng q i node s) q (trialState rng q i node s).2.2.graph).myGraph
        c.1 c.2 ≠ 0
      rw [h1]
      unfold trialState
      rw [h2]
      intro h0
      exact hmem' ((mem_nextMoves s.graph c).2 ⟨hc, h0⟩)
  · rw [trialState_succ]
    simp only [TreeNode.addResult]
    split_ifs <;> simp_all
  · rw [trialState_succ]
    simp only [TreeNode.addResult]
    split_ifs <;> simp_all

/-- Witness for C16: the first trial at the root of the board with one free cell. -/
theorem runTrials_fill_witness :
    (IsShuffle noShuffle ∧ ((1 : Int) = 1 ∨ (1 : Int) = 2)) ∧
    (List.Perm (trialPerm noShuffle 1 0 (TreeNode.fresh 0 0) ⟨boardOneFree, 0⟩)
      (nextMoves boardOneFree) ∧
    (∀ (j : Nat) (hj : j < (trialPerm noShuffle 1 0 (TreeNode.fresh 0 0) ⟨boardOneFree, 0⟩).length),
      (trialBoard noShuffle 1 0 (TreeNode.fresh 0 0) ⟨boardOneFree, 0⟩).myGraph
        ((trialPerm noShuffle 1 0 (TreeNode.fresh 0 0) ⟨boardOneFree, 0⟩).get ⟨j, hj⟩).1
        ((trialPerm noShuffle 1 0 (TreeNode.fresh 0 0) ⟨boardOneFree, 0⟩).get ⟨j, hj⟩).2 =
          if j % 2 = 0 then 1 else switchPlayer 1) ∧
    (∀ c : Cell, InGrid boardOneFree c →
      (trialBoard noShuffle 1 0 (TreeNode.fresh 0 0) ⟨boardOneFree, 0⟩).myGraph c.1 c.2 ≠ 0) ∧
    (trialState noShuffle 1 (0 + 1) (TreeNode.fresh 0 0) ⟨boardOneFree, 0⟩).2.1.p1wins =
      (trialState noShuffle 1 0 (TreeNode.fresh 0 0) ⟨boardOneFree, 0⟩).2.1.p1wins +
        (if (checkForWinner (trialBoard noShuffle 1 0 (TreeNode.fresh 0 0) ⟨boardOneFree, 0⟩)
          1).2 then 1 else 0) ∧
    (trialState noShuffle 1 (0 + 1) (TreeNode.fresh 0 0) ⟨boardOneFree, 0⟩).2.1.p2wins =
      (trialState noShuffle 1 0 (TreeNode.fresh 0 0) ⟨boardOneFree, 0⟩).2.1.p2wins +
        (if (checkForWinner (trialBoard noShuffle 1 0 (TreeNode.fresh 0 0) ⟨boardOneFree, 0⟩)
          1).2 then 0 else 1)) :=
  ⟨⟨fun _ _ => List.Perm.refl _, Or.inl rfl⟩,
    runTrials_fill noShuffle (fun _ _ => List.Perm.refl _) (TreeNode.fresh 0 0) 1 (Or.inl rfl)
      ⟨boardOneFree, 0⟩ 0⟩

/-- C17. Real-player descent. On a board with an empty cell and for `p` in {1, 2}, every
call of `runTrials` that `getNextMove(p)` makes is for a leaf one ply below the root (one
empty cell) or two plies below it (two or more). At the call the cell of the first ply is
owned by `p`, the cell of the second ply by the opponent of `p`, and every other cell has
the owner it had on the input board; the player argument of the call, who receives the
first assignment of each trial, is the opponent of `p` after one ply and `p` after two.
The log of calls belongs to the traversal `monteCarlo` performs. -/
theorem rolloutCalls_descent (rng : Nat → List Cell → List Cell) (hrng : IsShuffle rng)
    (k : Nat) (g : Graph) (p : Int) (hp : p = 1 ∨ p = 2)
    (hfree : ∃ c : Cell, InGrid g c ∧ g.myGraph c.1 c.2 = 0) :
    (monteCarloLog rng true [] (Tree.create g).2.root (switchPlayer p)
        { graph := (Tree.create g).1, shuffles := k }).1 =
      monteCarlo rng true (Tree.create g).2.root (switchPlayer p)
        { graph := (Tree.create g).1, shuffles := k } ∧
    rolloutCalls rng k g p ≠ [] ∧
    ∀ e ∈ rolloutCalls rng k g p,
      (∃ c, nextMoves g = [c] ∧ e.path = [c] ∧ e.player = switchPlayer p ∧
        ∀ a b, e.graph.myGraph a b = if (a, b) = c then p else g.myGraph a b) ∨
      (∃ c d, 2 ≤ (nextMoves g).length ∧ c ∈ nextMoves g ∧ d ∈ nextMoves g ∧ d ≠ c ∧
        e.path = [c, d] ∧ e.player = p ∧
        ∀ a b, e.graph.myGraph a b =
          if (a, b) = c then p else if (a, b) = d then switchPlayer p else g.myGraph a b) := by
  obtain ⟨c0, hc0⟩ := hfree
  have hne : nextMoves g ≠ [] := List.ne_nil_of_mem ((mem_nextMoves g c0).2 hc0)
  obtain ⟨hg, _, _, _, hfit⟩ := tree_create_spec g
  have hchildren : (Tree.create g).2.root.children ≠ [] := by
    intro h
    have := tree_root_cells g
    rw [h] at this
    exact hne this.symm
  refine ⟨(monteCarloLog_erase rng).1 _ _ _ _ _, (monteCarloLog_nonempty rng).1 _ _ _ _ _, ?_⟩
  intro e he
  unfold rolloutCalls at he
  rw [hg] at he
  rcases hroot : (Tree.create g).2.root with ⟨row, col, p1, p2, cs⟩
  rw [hroot] at hchildren hfit he
  simp only at hchildren hfit
  cases cs with
  | nil => exact absurd rfl hchildren
  | cons c cs =>
    rw [monteCarloLog_inner] at he
    simp only [if_true, enterNode] at he
    rw [switchPlayer_twice p hp] at he
    obtain ⟨sfx, hl, hpath, hplayer, hcells⟩ := (monteCarloLog_entries rng hrng).2 (c :: cs) []
      p { graph := g, shuffles := k } (by rcases hp with rfl | rfl <;> norm_num) hfit e he
    have hl' : LeafPath (Tree.create g).2.root.children sfx := by rw [hroot]; exact hl
    rw [List.nil_append] at hpath
    rcases leafPath_root g sfx hl' with ⟨c1, hm, rfl⟩ | ⟨c1, d1, h2, hc1, hd1, hdne, rfl⟩
    · left
      refine ⟨c1, hm, hpath, hplayer, ?_⟩
      intro a b
      rw [hcells a b]
      exact playOut_one c1 p g a b
    · right
      refine ⟨c1, d1, h2, hc1, hd1, hdne, hpath, ?_, ?_⟩
      · rw [hplayer]
        exact switchPlayer_twice p hp
      · intro a b
        rw [hcells a b]
        exact playOut_two c1 d1 hdne p g a b

/-- Witness for C17: the identity shuffle, the board with one free cell, player 2. -/
theorem rolloutCalls_descent_witness :
    (IsShuffle noShuffle ∧ ((2 : Int) = 1 ∨ (2 : Int) = 2) ∧
      ∃ c : Cell, InGrid boardOneFree c ∧ boardOneFree.myGraph c.1 c.2 = 0) ∧
    ((monteCarloLog noShuffle true [] (Tree.create boardOneFree).2.root (switchPlayer 2)
        { graph := (Tree.create boardOneFree).1, shuffles := 0 }).1 =
      monteCarlo noShuffle true (Tree.create boardOneFree).2.root (switchPlayer 2)
        { graph := (Tree.create boardOneFree).1, shuffles := 0 } ∧
    rolloutCalls noShuffle 0 boardOneFree 2 ≠ [] ∧
    ∀ e ∈ rolloutCalls noShuffle 0 boardOneFree 2,
      (∃ c, nextMoves boardOneFree = [c] ∧ e.path = [c] ∧ e.player = switchPlayer 2 ∧
        ∀ a b, e.graph.myGraph a b = if (a, b) = c then 2 else boardOneFree.myGraph a b) ∨
      (∃ c d, 2 ≤ (nextMoves boardOneFree).length ∧ c ∈ nextMoves boardOneFree ∧
        d ∈ nextMoves boardOneFree ∧ d ≠ c ∧
        e.path = [c, d] ∧ e.player = 2 ∧
        ∀ a b, e.graph.myGraph a b =
          if (a, b) = c then 2 else if (a, b) = d then switchPlayer 2
            else boardOneFree.myGraph a b)) :=
  ⟨⟨fun _ _ => List.Perm.refl _, Or.inr rfl, ⟨(1, 0), by decide, by decide⟩⟩,
    rolloutCalls_descent noShuffle (fun _ _ => List.Perm.refl _) 0 boardOneFree 2 (Or.inr rfl)
      ⟨(1, 0), by decide, by decide⟩⟩

/-- C18. Totality. On every board and for every player the loop of `checkForWinner`
runs to completion: there is a result `r` that the loop returns for every iteration bound
from `bfsFuel` upwards, after at most `bfsFuel` dequeues, and `checkForWinner` returns the
boolean of `r`; this covers every call made during the rollouts, whatever cells they have
filled. On a board with an empty cell, building the tree, running the rollouts and
`minMax` then hand back the coordinates of a move (neither of the failure outcomes), and
the tree built has at most two levels below its root. -/
theorem predictor_total (rng : Nat → List Cell → List Cell) (k : Nat) (g : Graph) (p : Int)
    (hfree : ∃ c : Cell, InGrid g c ∧ g.myGraph c.1 c.2 = 0) :
    (∀ (h : Graph) (q : Int), ∃ r : BfsResult,
      (∀ fuel, bfsFuel h (startCells h q) ≤ fuel →
        bfs h q fuel (fun _ => false) h.winner (startCells h q) = some r) ∧
      r.dequeued.length ≤ bfsFuel h (startCells h q) ∧
      checkForWinner h q = ({ h with winner := r.winner }, r.found)) ∧
    (∃ mv : Cell, (computeNextMove rng k g p).coords = Outcome.returned mv) ∧
    (Tree.create g).2.depth ≤ 2 ∧
    ∀ c ∈ (Tree.create g).2.root.children, ∀ d ∈ c.children, d.children = [] := by
  obtain ⟨c0, hc0⟩ := hfree
  have hne : nextMoves g ≠ [] := List.ne_nil_of_mem ((mem_nextMoves g c0).2 hc0)
  refine ⟨?_, ?_, ?_, ?_⟩
  · intro h q
    obtain ⟨r, hr⟩ := bfs_total h q h.winner
    refine ⟨r, fun fuel hle => bfs_fuel_le h q _ fuel hle _ _ _ r hr,
      bfs_dequeued_le h q _ _ _ _ r hr, ?_⟩
    unfold checkForWinner
    rw [hr]
  · obtain ⟨mv, _, hmv⟩ := computeNextMove_selects rng k g p hne
    exact ⟨mv, hmv⟩
  · rw [(tree_create_spec g).2.2.1]
    simp only [MAX_DEPTH]
    omega
  · intro c hc d hd
    rw [tree_root_children] at hc
    split_ifs at hc with h0 h1
    · simp at hc
    · obtain ⟨mv, _, rfl⟩ := List.mem_map.1 hc
      simp [TreeNode.fresh] at hd
    · obtain ⟨mv, _, rfl⟩ := List.mem_map.1 hc
      simp only at hd
      obtain ⟨mv2, _, rfl⟩ := List.mem_map.1 hd
      rfl

/-- Witness for C18: the 2x2 board with the single free cell (1, 0), player 2. -/
theorem predictor_total_witness :
    (∃ c : Cell, InGrid boardOneFree c ∧ boardOneFree.myGraph c.1 c.2 = 0) ∧
    ((∀ (h : Graph) (q : Int), ∃ r : BfsResult,
      (∀ fuel, bfsFuel h (startCells h q) ≤ fuel →
        bfs h q fuel (fun _ => false) h.winner (startCells h q) = some r) ∧
      r.dequeued.length ≤ bfsFuel h (startCells h q) ∧
      checkForWinner h q = ({ h with winner := r.winner }, r.found)) ∧
    (∃ mv : Cell, (computeNextMove noShuffle 0 boardOneFree 2).coords = Outcome.returned mv) ∧
    (Tree.create boardOneFree).2.depth ≤ 2 ∧
    ∀ c ∈ (Tree.create boardOneFree).2.root.children, ∀ d ∈ c.children, d.children = []) :=
  ⟨⟨(1, 0), by decide, by decide⟩,
    predictor_total noShuffle 0 boardOneFree 2 ⟨(1, 0), by decide, by decide⟩⟩

/-- C19. The claim fails on the 3x3 board whose columns 0 and 1 belong to player 1 and whose
column 2 belongs to player 2: `checkForWinner(1)` returns false after dequeuing fourteen
nodes, more than the nine cells of the board, and dequeues the cells (1, 0), (0, 1), (2, 0),
(1, 1) and (2, 1) more than once, since a node already waiting in the queue is pushed again
by every neighbour that is expanded before it. -/
theorem checkForWinner_dequeues_repeatedly :
    boardColumns.rows = 3 ∧ boardColumns.cols = 3 ∧
    (checkForWinner boardColumns 1).2 = false ∧
    ∃ r : BfsResult,
      bfs boardColumns 1 (bfsFuel boardColumns (startCells boardColumns 1)) (fun _ => false)
        boardColumns.winner (startCells boardColumns 1) = some r ∧
      r.dequeued = [(0, 0), (1, 0), (2, 0), (0, 1), (1, 0), (1, 1), (0, 1), (2, 0), (2, 1),
        (1, 1), (1, 1), (1, 1), (2, 1), (2, 1)] ∧
      boardColumns.rows * boardColumns.cols < (r.dequeued.length : Int) ∧
      ¬ r.dequeued.Nodup ∧
      r.dequeued.count (1, 1) = 4 :=
  ⟨rfl, rfl, by decide,
    { winner := 0, found := false,
      dequeued := [(0, 0), (1, 0), (2, 0), (0, 1), (1, 0), (1, 1), (0, 1), (2, 0), (2, 1),
        (1, 1), (1, 1), (1, 1), (2, 1), (2, 1)] },
    by decide, rfl, by decide, by decide, by decide⟩

/-- C20. `runTrials`, which clears the cells only once after the last trial, agrees with
the reference that clears them after every trial: whatever permutations the shuffle
produces, after any number of trials both hold the same vector of moves and the same node
with the same tallies; in every trial both check boards with the same cells and get the
same connectivity result; and at the end the nodes are equal, the tallies have grown by
`MAX_TRIALS` in total, and the cells of both graphs are those `runTrials` was entered
with. -/
theorem runTrials_refines_reference (rng : Nat → List Cell → List Cell)
    (hrng : IsShuffle rng) (node : TreeNode) (q : Int) (s : Sim) :
    (∀ i : Nat,
      (trialLoop rng q i (nextMoves s.graph) node s).1 =
        (trialLoopRef rng q i (nextMoves s.graph) node s).1 ∧
      (trialLoop rng q i (nextMoves s.graph) node s).2.1 =
        (trialLoopRef rng q i (nextMoves s.graph) node s).2.1 ∧
      (∀ a b, (trialBoard rng q i node s).myGraph a b =
        (trialBoardRef rng q i node s).myGraph a b) ∧
      (checkForWinner (trialBoard rng q i node s) 1).2 =
        (checkForWinner (trialBoardRef rng q i node s) 1).2) ∧
    (runTrials rng node q s).1 = (runTrialsRef rng node q s).1 ∧
    (runTrials rng node q s).1.p1wins + (runTrials rng node q s).1.p2wins =
      node.p1wins + node.p2wins + MAX_TRIALS ∧
    (∀ a b, (runTrials rng node q s).2.graph.myGraph a b =
      (runTrialsRef rng node q s).2.graph.myGraph a b) ∧
    (∀ a b, (runTrials rng node q s).2.graph.myGraph a b = s.graph.myGraph a b) ∧
    (runTrials rng node q s).2.graph.rows = (runTrialsRef rng node q s).2.graph.rows ∧
    (runTrials rng node q s).2.graph.cols = (runTrialsRef rng node q s).2.graph.cols := by
  have hstep : ∀ i, _ := fun i => trialLoop_ref rng hrng q (nextMoves s.graph) i
    (nextMoves s.graph) node s s (List.Perm.refl _) rfl rfl rfl (fun _ _ _ => rfl)
  have href := trialLoopRef_cells rng hrng q (nextMoves s.graph) MAX_TRIALS
    (nextMoves s.graph) node s (List.Perm.refl _)
    (fun a b hab => ((mem_nextMoves s.graph (a, b)).1 hab).2)
  obtain ⟨r1, _, _, _, _, r6⟩ := runTrials_spec rng hrng node q s
  refine ⟨?_, (hstep MAX_TRIALS).2.1, r6, ?_, ?_, ?_, ?_⟩
  · intro i
    obtain ⟨h1, h2, _, h4, h5, _, h7⟩ := hstep i
    have hcells : ∀ a b, (trialBoard rng q i node s).myGraph a b =
        (trialBoardRef rng q i node s).myGraph a b := by
      intro a b
      exact congrFun (congrFun h7 a) b
    refine ⟨h1, h2, hcells, ?_⟩
    apply checkForWinner_found_ext _ _ 1 _ _ hcells
    · unfold trialBoard trialBoardRef trialPerm trialState
      rw [(playOut_frame _ _ _).1, (playOut_frame _ _ _).1]
      exact h4
    · unfold trialBoard trialBoardRef trialPerm trialState
      rw [(playOut_frame _ _ _).2.1, (playOut_frame _ _ _).2.1]
      exact h5
  · intro a b
    rw [r1]
    exact (href.1 a b).symm
  · intro a b
    rw [r1]
  · rw [r1]
    exact href.2.1.symm
  · rw [r1]
    exact href.2.2.symm

/-- Witness for C20: the identity shuffle at the root of the board with one free cell. -/
theorem runTrials_refines_reference_witness :
    IsShuffle noShuffle ∧
    ((∀ i : Nat,
      (trialLoop noShuffle 1 i (nextMoves boardOneFree) (TreeNode.fresh 0 0) ⟨boardOneFree, 0⟩).1 =
        (trialLoopRef noShuffle 1 i (nextMoves boardOneFree) (TreeNode.fresh 0 0)
          ⟨boardOneFree, 0⟩).1 ∧
      (trialLoop noShuffle 1 i (nextMoves boardOneFree) (TreeNode.fresh 0 0)
          ⟨boardOneFree, 0⟩).2.1 =
        (trialLoopRef noShuffle 1 i (nextMoves boardOneFree) (TreeNode.fresh 0 0)
          ⟨boardOneFree, 0⟩).2.1 ∧
      (∀ a b, (trialBoard noShuffle 1 i (TreeNode.fresh 0 0) ⟨boardOneFree, 0⟩).myGraph a b =
        (trialBoardRef noShuffle 1 i (TreeNode.fresh 0 0) ⟨boardOneFree, 0⟩).myGraph a b) ∧
      (checkForWinner (trialBoard noShuffle 1 i (TreeNode.fresh 0 0) ⟨boardOneFree, 0⟩) 1).2 =
        (checkForWinner (trialBoardRef noShuffle 1 i (TreeNode.fresh 0 0) ⟨boardOneFree, 0⟩)
          1).2) ∧
    (runTrials noShuffle (TreeNode.fresh 0 0) 1 ⟨boardOneFree, 0⟩).1 =
      (runTrialsRef noShuffle (TreeNode.fresh 0 0) 1 ⟨boardOneFree, 0⟩).1 ∧
    (runTrials noShuffle (TreeNode.fresh 0 0) 1 ⟨boardOneFree, 0⟩).1.p1wins +
      (runTrials noShuffle (TreeNode.fresh 0 0) 1 ⟨boardOneFree, 0⟩).1.p2wins =
        (TreeNode.fresh 0 0).p1wins + (TreeNode.fresh 0 0).p2wins + MAX_TRIALS ∧
    (∀ a b, (runTrials noShuffle (TreeNode.fresh 0 0) 1 ⟨boardOneFree, 0⟩).2.graph.myGraph a b =
      (runTrialsRef noShuffle (TreeNode.fresh 0 0) 1 ⟨boardOneFree, 0⟩).2.graph.myGraph a b) ∧
    (∀ a b, (runTrials noShuffle (TreeNode.fresh 0 0) 1 ⟨boardOneFree, 0⟩).2.graph.myGraph a b =
      boardOneFree.myGraph a b) ∧
    (runTrials noShuffle (TreeNode.fresh 0 0) 1 ⟨boardOneFree, 0⟩).2.graph.rows =
      (runTrialsRef noShuffle (TreeNode.fresh 0 0) 1 ⟨boardOneFree, 0⟩).2.graph.rows ∧
    (runTrials noShuffle (TreeNode.fresh 0 0) 1 ⟨boardOneFree, 0⟩).2.graph.cols =
      (runTrialsRef noShuffle (TreeNode.fresh 0 0) 1 ⟨boardOneFree, 0⟩).2.graph.cols) :=
  ⟨fun _ _ => List.Perm.refl _,
    runTrials_refines_reference noShuffle (fun _ _ => List.Perm.refl _) (TreeNode.fresh 0 0) 1
      ⟨boardOneFree, 0⟩⟩

end Hex
